import Mathlib

/-!
# protoc-gen-encode: schema classification and encoder synthesis

A shallow embedding of `main.go`.  The plugin receives two protobuf messages (or two
enums), classifies the fields of the output against the fields of the input, and prints
the Go source of a generic encoder type.

Modelling conventions

* Go strings are Lean strings (sequences of Unicode scalar values, i.e. valid UTF-8).
* A Go `map[string]*T` is an association list in which the most recent write of a key is
  found first; the source only ever writes and looks up, it never iterates over a map.
* `protogen.GeneratedFile.P(args...)` prints its arguments followed by a newline.  The
  output is kept as the list of `P` calls, each call being the list of its arguments; an
  argument written as a string literal in the source is a `Tok.lit`, an argument computed
  from the schema is a `Tok.val`.  `lineText` gives the printed text.
* The library functions the source calls (`QualifiedGoIdent`, `unicode.ToLower`,
  `unicode.ToUpper`) are parameters, collected in `Env`.
* `protogen` invariants carried by the types: the enum or message a field refers to is
  stored with its kind (`field.Enum` is non-nil exactly for enum fields, `field.Message`
  exactly for message and group fields); a map field carries the two fields of its entry
  message (`field.Message.Fields[0]` and `[1]`), and `IsMap()` is their presence.
* A call that returns an `error` and could panic returns an `Outcome`; the `%q` verb of
  `fmt.Errorf` is the parameter `quote` of the driver.
* The generated `Encode` method of an enum encoder is run by `runEnumEncode`, which gives
  the printed statements their Go meaning on numbered enum constants.
-/

namespace ProtocEncode

/-! ## Descriptors -/

/-- Go identifier together with the import path of its package (`protogen.GoIdent`). -/
structure GoIdent where
  GoName : String
  GoImportPath : String
deriving DecidableEq, Repr

/-- Library functions used by the generator. -/
structure Env where
  /-- Models `g.QualifiedGoIdent`: the name under which an identifier is referred to. -/
  QualifiedGoIdent : GoIdent → String
  /-- Models `unicode.ToLower`. -/
  ToLower : Char → Char
  /-- Models `unicode.ToUpper`. -/
  ToUpper : Char → Char

/-- Field kinds of `protoreflect.Kind`; enum, message and group kinds carry the identifier
of the type the field refers to (`field.Enum.GoIdent`, `field.Message.GoIdent`). -/
inductive Kind where
  | BoolKind
  | EnumKind (enum : GoIdent)
  | Int32Kind
  | Sint32Kind
  | Uint32Kind
  | Int64Kind
  | Sint64Kind
  | Uint64Kind
  | Sfixed32Kind
  | Fixed32Kind
  | FloatKind
  | Sfixed64Kind
  | Fixed64Kind
  | DoubleKind
  | StringKind
  | BytesKind
  | MessageKind (message : GoIdent)
  | GroupKind (message : GoIdent)
deriving DecidableEq, Repr

/-- Variant group of a message (`protogen.Oneof`). -/
structure Oneof where
  GoName : String
deriving DecidableEq, Repr

/-- Field of a message (`protogen.Field`).  `GoIdent` names the wrapper struct of a field
that belongs to a oneof. -/
inductive Field where
  | mk (GoName : String) (GoIdent : GoIdent) (Kind : Kind)
      (IsWeak HasPresence IsList : Bool) (MapEntry : Option (Field × Field))
      (Oneof : Option Oneof)

namespace Field

def GoName : Field → String
  | .mk n _ _ _ _ _ _ _ => n

def GoIdent : Field → GoIdent
  | .mk _ i _ _ _ _ _ _ => i

def Kind : Field → Kind
  | .mk _ _ k _ _ _ _ _ => k

def IsWeak : Field → Bool
  | .mk _ _ _ w _ _ _ _ => w

def HasPresence : Field → Bool
  | .mk _ _ _ _ p _ _ _ => p

def IsList : Field → Bool
  | .mk _ _ _ _ _ l _ _ => l

def MapEntry : Field → Option (Field × Field)
  | .mk _ _ _ _ _ _ m _ => m

def IsMap (f : Field) : Bool := f.MapEntry.isSome

def Oneof : Field → Option Oneof
  | .mk _ _ _ _ _ _ _ o => o

end Field

/-- Value of an enum (`protogen.EnumValue`); `Name` is `Desc.Name()`. -/
structure EnumValue where
  Name : String
  GoIdent : GoIdent
deriving DecidableEq, Repr

/-- Enum declaration (`protogen.Enum`); `FullName` is `Desc.FullName()`. -/
structure Enum where
  GoIdent : GoIdent
  FullName : String
  Values : List EnumValue
deriving DecidableEq, Repr

/-- Message declaration (`protogen.Message`) with its nested declarations. -/
inductive Message where
  | mk (GoIdent : GoIdent) (FullName : String) (Fields : List Field)
      (Messages : List Message) (Enums : List Enum)

namespace Message

def GoIdent : Message → GoIdent
  | .mk i _ _ _ _ => i

def FullName : Message → String
  | .mk _ n _ _ _ => n

def Fields : Message → List Field
  | .mk _ _ fs _ _ => fs

def Messages : Message → List Message
  | .mk _ _ _ ms _ => ms

def Enums : Message → List Enum
  | .mk _ _ _ _ es => es

end Message

/-! ## Go maps -/

/-- Go map with string keys: the latest write of a key comes first. -/
abbrev GoMap (α : Type) := List (String × α)

namespace GoMap

/-- Models `m[k] = v`. -/
def set {α : Type} (m : GoMap α) (k : String) (v : α) : GoMap α := (k, v) :: m

/-- Models `v, ok := m[k]`: `none` when `ok` is false. -/
def get? {α : Type} (m : GoMap α) (k : String) : Option α := List.lookup k m

/-- Models `_, ok := m[k]`. -/
def has {α : Type} (m : GoMap α) (k : String) : Bool := (m.get? k).isSome

end GoMap

/-! ## String helpers (`main.go` lines 505-571) -/

/-- Models `strings.Split(s, sep)` for a separator of one character, on character lists. -/
def splitChars (sep : Char) : List Char → List (List Char)
  | [] => [[]]
  | c :: cs =>
    if c = sep then [] :: splitChars sep cs
    else
      match splitChars sep cs with
      | [] => [[c]]
      | p :: ps => (c :: p) :: ps

/-- Models `strings.Split(s, sep)` for a separator of one character. -/
def split (s : String) (sep : Char) : List String :=
  (splitChars sep s.data).map String.mk

/-- The replacement character `utf8.RuneError`. -/
def runeError : Char := Char.ofNat 0xFFFD

/-- Models `lowerFirst`: on a valid string `DecodeRuneInString` yields the first character,
with size 0 exactly for the empty string. -/
def lowerFirst (env : Env) (s : String) : String :=
  match s.data with
  | [] => s
  | r :: rest =>
    if r = runeError then s
    else
      let lc := env.ToLower r
      if lc = r then s else String.mk (lc :: rest)

/-- Models `upperFirst`. -/
def upperFirst (env : Env) (s : String) : String :=
  match s.data with
  | [] => s
  | r :: rest =>
    if r = runeError then s
    else
      let uc := env.ToUpper r
      if uc = r then s else String.mk (uc :: rest)

/-- Models `uniqueName`. -/
def uniqueName (env : Env) (ident : GoIdent) : String :=
  let s := env.QualifiedGoIdent ident
  match split s '.' with
  | p0 :: p1 :: _ => upperFirst env p0 ++ p1
  | _ => s

/-- Models `encoderName`. -/
def encoderName (env : Env) (inMsg outMsg : Message) : String :=
  uniqueName env inMsg.GoIdent ++ "To" ++ uniqueName env outMsg.GoIdent ++ "Encoder"

/-- Models `encoderEnumName`. -/
def encoderEnumName (env : Env) (inEnum outEnum : Enum) : String :=
  uniqueName env inEnum.GoIdent ++ "To" ++ uniqueName env outEnum.GoIdent ++ "Encoder"

/-- Models `fieldEncoderName`. -/
def fieldEncoderName (env : Env) (msg : Message) (field : Field) : String :=
  uniqueName env msg.GoIdent ++ upperFirst env field.GoName ++ "Encoder"

/-- Models `ackMissingName`. -/
def ackMissingName (env : Env) (msg : Message) (field : Field) : String :=
  uniqueName env msg.GoIdent ++ upperFirst env field.GoName ++ "AckMissing"

/-- Models `ackMissingEnumName`. -/
def ackMissingEnumName (env : Env) (enum : Enum) (field : EnumValue) : String :=
  uniqueName env enum.GoIdent ++ upperFirst env field.GoIdent.GoName ++ "AckMissing"

/-! ## Type signatures (`main.go` lines 454-503) -/

/-- Models `fieldGoTypePointer`: the Go type of a field and whether it is used through a
pointer. -/
def fieldGoTypePointer (env : Env) : Field → String × Bool
  | .mk _ _ kind isWeak hasPresence isList mapEntry _ =>
    if isWeak then ("struct\x7b\x7d", false)
    else
      let r : String × Bool :=
        match kind with
        | .BoolKind => ("bool", hasPresence)
        | .EnumKind e => (env.QualifiedGoIdent e, hasPresence)
        | .Int32Kind | .Sint32Kind | .Sfixed32Kind => ("int32", hasPresence)
        | .Uint32Kind | .Fixed32Kind => ("uint32", hasPresence)
        | .Int64Kind | .Sint64Kind | .Sfixed64Kind => ("int64", hasPresence)
        | .Uint64Kind | .Fixed64Kind => ("uint64", hasPresence)
        | .FloatKind => ("float32", hasPresence)
        | .DoubleKind => ("float64", hasPresence)
        | .StringKind => ("string", hasPresence)
        | .BytesKind => ("[]byte", false)
        | .MessageKind m | .GroupKind m => ("*" ++ env.QualifiedGoIdent m, false)
      if isList then ("[]" ++ r.1, false)
      else
        match mapEntry with
        | some (key, value) =>
          ("map[" ++ (fieldGoTypePointer env key).1 ++ "]" ++
            (fieldGoTypePointer env value).1, false)
        | none => r

/-- Models `fieldGoType`. -/
def fieldGoType (env : Env) (field : Field) : String :=
  let r := fieldGoTypePointer env field
  if r.2 then "*" ++ r.1 else r.1

/-! ## Field classification (`convertMessage`, lines 87-120) -/

/-- The maps built at the start of `convertMessage`. -/
structure FieldClasses where
  inFields : GoMap Field
  outFields : GoMap Field
  extraFields : GoMap Field
  changedFields : GoMap Field
  commonFields : GoMap Field
  missingFields : GoMap Field

/-- Lines 87-90: the index of the input fields by Go name. -/
def indexFields (fields : List Field) : GoMap Field :=
  fields.foldl (fun m field => m.set field.GoName field) []

/-- State of the loop of lines 96-113. -/
structure OutLoop where
  outFields : GoMap Field
  extraFields : GoMap Field
  changedFields : GoMap Field
  commonFields : GoMap Field

/-- One iteration of the loop of lines 96-113. -/
def classifyOutField (env : Env) (inFields : GoMap Field) (s : OutLoop) (field : Field) :
    OutLoop :=
  let outFields := s.outFields.set field.GoName field
  match inFields.get? field.GoName with
  | none => { s with outFields := outFields,
                     extraFields := s.extraFields.set field.GoName field }
  | some inField =>
    let inType := fieldGoType env inField
    let outType := fieldGoType env field
    if inType ≠ outType then
      { s with outFields := outFields,
               changedFields := s.changedFields.set field.GoName field }
    else
      { s with outFields := outFields,
               commonFields := s.commonFields.set field.GoName field }

/-- Lines 115-120: input fields whose name is no key of `outFields`. -/
def collectMissing (outFields : GoMap Field) (fields : List Field) : GoMap Field :=
  fields.foldl
    (fun m field => if outFields.has field.GoName then m else m.set field.GoName field) []

/-- Lines 87-120 of `convertMessage`. -/
def classifyFields (env : Env) (inMsg outMsg : Message) : FieldClasses :=
  let inFields := indexFields inMsg.Fields
  let s := outMsg.Fields.foldl (classifyOutField env inFields) ⟨[], [], [], []⟩
  { inFields := inFields
    outFields := s.outFields
    extraFields := s.extraFields
    changedFields := s.changedFields
    commonFields := s.commonFields
    missingFields := collectMissing s.outFields inMsg.Fields }

/-! ## Value classification (`convertEnum`, lines 323-346) -/

/-- The maps built at the start of `convertEnum`. -/
structure ValueClasses where
  inFields : GoMap EnumValue
  outFields : GoMap EnumValue
  extraFields : GoMap EnumValue
  commonFields : GoMap EnumValue
  missingFields : GoMap EnumValue

/-- Lines 323-326: the index of the input values by name. -/
def indexValues (values : List EnumValue) : GoMap EnumValue :=
  values.foldl (fun m field => m.set field.Name field) []

/-- State of the loop of lines 331-339. -/
structure OutValueLoop where
  outFields : GoMap EnumValue
  extraFields : GoMap EnumValue
  commonFields : GoMap EnumValue

/-- One iteration of the loop of lines 331-339. -/
def classifyOutValue (inFields : GoMap EnumValue) (s : OutValueLoop) (field : EnumValue) :
    OutValueLoop :=
  let outFields := s.outFields.set field.Name field
  if inFields.has field.Name then
    { s with outFields := outFields, commonFields := s.commonFields.set field.Name field }
  else
    { s with outFields := outFields, extraFields := s.extraFields.set field.Name field }

/-- Lines 341-346: input values whose name is no key of `outFields`. -/
def collectMissingValues (outFields : GoMap EnumValue) (values : List EnumValue) :
    GoMap EnumValue :=
  values.foldl
    (fun m field => if outFields.has field.Name then m else m.set field.Name field) []

/-- Lines 323-346 of `convertEnum`. -/
def classifyValues (inEnum outEnum : Enum) : ValueClasses :=
  let inFields := indexValues inEnum.Values
  let s := outEnum.Values.foldl (classifyOutValue inFields) ⟨[], [], []⟩
  { inFields := inFields
    outFields := s.outFields
    extraFields := s.extraFields
    commonFields := s.commonFields
    missingFields := collectMissingValues s.outFields inEnum.Values }

/-! ## Emitted text -/

/-- Argument of a `P` call: a string literal of the source, or a computed string. -/
inductive Tok where
  | lit (s : String)
  | val (s : String)
deriving DecidableEq, Repr

/-- Text of an argument. -/
def Tok.text : Tok → String
  | .lit s => s
  | .val s => s

/-- One `P` call: its arguments in order. -/
abbrev Line := List Tok

/-- The line of text a `P` call prints. -/
def lineText (l : Line) : String := String.join (l.map Tok.text) ++ "\n"

/-- Content of a generated file: the `P` calls made so far. -/
abbrev GeneratedFile := List Line

/-- The text of a generated file. -/
def fileText (g : GeneratedFile) : String := String.join (g.map lineText)

/-- Models `g.P(args...)`: the lines it appends. -/
def P (args : List Tok) : List Line := [args]

/-- Result of a call that returns an `error` and may also panic. -/
inductive Outcome (α : Type) where
  | ok (value : α)
  | error (msg : String)
  | panic
deriving Repr

open Tok

/-! ## Message synthesis (`convertMessage`, lines 122-320) -/

/-- Lines 122-134: function types of changed fields and acknowledgment types of missing
fields.  `outFields[field.GoName]` is dereferenced by `fieldGoType`; `none` models the
nil dereference. -/
def changedAndMissingTypes (env : Env) (c : FieldClasses) (outMsg : Message) :
    List Field → Option (List Line)
  | [] => some []
  | field :: rest =>
    let changed : Option (List Line) :=
      if c.changedFields.has field.GoName then
        match c.outFields.get? field.GoName with
        | none => none
        | some outField =>
          let inFieldType := fieldGoType env field
          let outFieldType := fieldGoType env outField
          some (P [lit "type ", val (fieldEncoderName env outMsg field), lit "[T any]",
                   lit "func(", val inFieldType, lit ", T) (", val outFieldType,
                   lit ", error)"] ++
                P [])
      else some []
    let missing : List Line :=
      if c.missingFields.has field.GoName then
        P [lit "type ", val (ackMissingName env outMsg field), lit " struct \x7b\x7d"] ++ P []
      else []
    match changed, changedAndMissingTypes env c outMsg rest with
    | some a, some r => some (a ++ missing ++ r)
    | _, _ => none

/-- Lines 136-144: function types of extra fields. -/
def extraTypes (env : Env) (c : FieldClasses) (outMsg : Message) : List Line :=
  outMsg.Fields.flatMap fun field =>
    if !c.extraFields.has field.GoName then []
    else
      let fieldType := fieldGoType env field
      P [lit "type ", val (fieldEncoderName env outMsg field), lit "[T any]",
         lit "func(T) (", val fieldType, lit ", error)"] ++
      P []

/-- Lines 146-169: the encoder struct. -/
def encoderStruct (env : Env) (c : FieldClasses) (inMsg outMsg : Message) : List Line :=
  P [lit "type ", val (encoderName env inMsg outMsg), lit "[T any] struct \x7b"] ++
  (inMsg.Fields.flatMap fun field =>
    if c.changedFields.has field.GoName then
      P [val field.GoName, lit " ", val (fieldEncoderName env outMsg field), lit "[T]"]
    else
      match c.outFields.get? field.GoName with
      | some outField =>
        let inFieldType := fieldGoType env field
        let outFieldType := fieldGoType env outField
        P [val field.GoName, lit " func(", val inFieldType, lit ", T) (", val outFieldType,
           lit ", error)"]
      | none => []) ++
  (outMsg.Fields.flatMap fun field =>
    if !c.extraFields.has field.GoName then []
    else P [val field.GoName, lit " ", val (fieldEncoderName env outMsg field), lit "[T]"]) ++
  P [lit "\x7d"] ++
  P []

/-- Lines 172-186: the parameters of the constructor. -/
def constructorParams (env : Env) (c : FieldClasses) (inMsg outMsg : Message) : List Line :=
  (inMsg.Fields.flatMap fun field =>
    (if c.changedFields.has field.GoName then
      P [val field.GoName, lit " ", val (fieldEncoderName env outMsg field), lit "[T],"]
     else []) ++
    (if c.missingFields.has field.GoName then
      P [val field.GoName, lit " ", val (ackMissingName env outMsg field), lit ","]
     else [])) ++
  (outMsg.Fields.flatMap fun field =>
    if !c.extraFields.has field.GoName then []
    else P [val field.GoName, lit " ", val (fieldEncoderName env outMsg field), lit "[T],"])

/-- Lines 192-207: the members set by the constructor. -/
def constructorMembers (env : Env) (c : FieldClasses) (outMsg : Message) : List Line :=
  outMsg.Fields.flatMap fun field =>
    (if c.commonFields.has field.GoName then
      let inFieldType := fieldGoType env field
      let outFieldType := fieldGoType env field
      P [val field.GoName, lit ": ", lit "func(in ", val inFieldType, lit ", extra T) (",
         val outFieldType, lit ", error) \x7b return in, nil \x7d,"]
     else []) ++
    (if c.changedFields.has field.GoName then
      P [val field.GoName, lit ": ", val field.GoName, lit ","]
     else []) ++
    (if c.extraFields.has field.GoName then
      P [val field.GoName, lit ": ", val field.GoName, lit ","]
     else [])

/-- Lines 171-212: the constructor. -/
def constructorDecl (env : Env) (c : FieldClasses) (inMsg outMsg : Message) : List Line :=
  P [lit "func New", val (encoderName env inMsg outMsg), lit "[T any]("] ++
  constructorParams env c inMsg outMsg ++
  P [lit ") *", val (encoderName env inMsg outMsg), lit "[T] \x7b"] ++
  P [lit "return &", val (encoderName env inMsg outMsg), lit "[T]\x7b"] ++
  constructorMembers env c outMsg ++
  P [lit "\x7d"] ++
  P [lit "\x7d"] ++
  P []

/-- The error check printed after each call of a field function. -/
def errCheck : List Line :=
  P [lit "if err != nil \x7b"] ++
  P [lit "return nil, err"] ++
  P [lit "\x7d"]

/-- Lines 236-239, 273-276, 300-303: `*` when the output field is used through a pointer. -/
def indirectOf (env : Env) (outField : Field) : String :=
  if (fieldGoTypePointer env outField).2 then "*" else ""

/-- Lines 253-258: `&` unless the input field is of message kind. -/
def referenceOf (inField : Field) : String :=
  match inField.Kind with
  | .MessageKind _ => ""
  | _ => "&"

/-- Body of the loop of lines 223-315: the statements printed for one output field. -/
def encodeField (env : Env) (inFields : GoMap Field) (outField : Field) : List Line :=
  match inFields.get? outField.GoName with
  | some inField =>
    (match inField.Oneof with
     | none =>
       (match outField.Oneof with
        | some outOneof =>
          P [val (lowerFirst env inField.GoName), lit ", err := e.", val inField.GoName,
             lit "(in.", val inField.GoName, lit ", extra)"] ++
          P [lit "if err != nil \x7b"] ++
          P [lit "return nil, err"] ++
          P [lit "\x7d"] ++
          P [lit "if ", val (lowerFirst env inField.GoName), lit " != nil \x7b"] ++
          P [lit "out.", val outOneof.GoName, lit " = &",
             val (env.QualifiedGoIdent outField.GoIdent), lit "\x7b"] ++
          P [val inField.GoName, lit ": ", val (indirectOf env outField),
             val (lowerFirst env inField.GoName), lit ","] ++
          P [lit "\x7d"] ++
          P [lit "\x7d"]
        | none =>
          P [lit "out.", val inField.GoName, lit ",  err = e.", val inField.GoName,
             lit "(in.", val inField.GoName, lit ", extra)"] ++
          P [lit "if err != nil \x7b"] ++
          P [lit "return nil, err"] ++
          P [lit "\x7d"]) ++
       P []
     | some _ => []) ++
    (match inField.Oneof with
     | some inOneof =>
       P [lit "var ", val (lowerFirst env inField.GoName), lit "In ",
          val (fieldGoType env inField)] ++
       P [lit "if in.", val inOneof.GoName, lit " != nil \x7b"] ++
       P [lit "if t, ok := in.", val inOneof.GoName, lit ".(*",
          val (env.QualifiedGoIdent inField.GoIdent), lit "); ok \x7b"] ++
       P [val (lowerFirst env inField.GoName), lit "In = ", val (referenceOf inField),
          lit "t.", val inField.GoName] ++
       P [lit "\x7d"] ++
       P [lit "\x7d"] ++
       (match outField.Oneof with
        | some outOneof =>
          P [val (lowerFirst env inField.GoName), lit ", err := e.", val inField.GoName,
             lit "(", val (lowerFirst env inField.GoName), lit "In, extra)"] ++
          P [lit "if err != nil \x7b"] ++
          P [lit "return nil, err"] ++
          P [lit "\x7d"] ++
          P [lit "if ", val (lowerFirst env inField.GoName), lit " != nil \x7b"] ++
          P [lit "out.", val outOneof.GoName, lit " = &",
             val (env.QualifiedGoIdent outField.GoIdent), lit "\x7b"] ++
          P [val inField.GoName, lit ": ", val (indirectOf env outField),
             val (lowerFirst env inField.GoName), lit ","] ++
          P [lit "\x7d"] ++
          P [lit "\x7d"]
        | none =>
          P [lit "out.", val inField.GoName, lit ", err = e.", val inField.GoName,
             lit "(", val (lowerFirst env inField.GoName), lit "In, extra)"] ++
          P [lit "if err != nil \x7b"] ++
          P [lit "return nil, err"] ++
          P [lit "\x7d"]) ++
       P []
     | none => [])
  | none =>
    (match outField.Oneof with
     | some outOneof =>
       P [val (lowerFirst env outField.GoName), lit ", err := e.", val outField.GoName,
          lit "(extra)"] ++
       P [lit "if err != nil \x7b"] ++
       P [lit "return nil, err"] ++
       P [lit "\x7d"] ++
       P [lit "if ", val (lowerFirst env outField.GoName), lit " != nil \x7b"] ++
       P [lit "out.", val outOneof.GoName, lit " = &",
          val (env.QualifiedGoIdent outField.GoIdent), lit "\x7b"] ++
       P [val outField.GoName, lit ": ", val (indirectOf env outField),
          val (lowerFirst env outField.GoName), lit ","] ++
       P [lit "\x7d"] ++
       P [lit "\x7d"]
     | none =>
       P [lit "out.", val outField.GoName, lit ", err = e.", val outField.GoName,
          lit "(extra)"] ++
       P [lit "if err != nil \x7b"] ++
       P [lit "return nil, err"] ++
       P [lit "\x7d"]) ++
    P []

/-- Lines 214-318: the `Encode` method. -/
def encodeMethod (env : Env) (c : FieldClasses) (inMsg outMsg : Message) : List Line :=
  P [lit "func (e *", val (encoderName env inMsg outMsg), lit "[T]) Encode(in *",
     val (env.QualifiedGoIdent inMsg.GoIdent), lit ", extra T) (*",
     val (env.QualifiedGoIdent outMsg.GoIdent), lit ", error) \x7b"] ++
  P [lit "var err error"] ++
  P [lit "out := &", val (env.QualifiedGoIdent outMsg.GoIdent), lit "\x7b\x7d"] ++
  P [] ++
  outMsg.Fields.flatMap (encodeField env c.inFields) ++
  P [lit "return out, nil"] ++
  P [lit "\x7d"]

/-- Models `convertMessage`: the file after the call; the returned error is always nil. -/
def convertMessage (env : Env) (inMsg outMsg : Message) (g : GeneratedFile) :
    Outcome GeneratedFile :=
  let c := classifyFields env inMsg outMsg
  match changedAndMissingTypes env c outMsg inMsg.Fields with
  | none => .panic
  | some types =>
    .ok (g ++ types ++ extraTypes env c outMsg ++ encoderStruct env c inMsg outMsg ++
      constructorDecl env c inMsg outMsg ++ encodeMethod env c inMsg outMsg)

/-! ## Enum synthesis (`convertEnum`, lines 348-403) -/

/-- Lines 348-353: acknowledgment types of missing values. -/
def missingValueTypes (env : Env) (c : ValueClasses) (inEnum outEnum : Enum) : List Line :=
  inEnum.Values.flatMap fun field =>
    if c.missingFields.has field.Name then
      P [lit "type ", val (ackMissingEnumName env outEnum field), lit " struct \x7b\x7d"] ++ P []
    else []

/-- Lines 363-367: the acknowledgment parameters of the enum constructor. -/
def enumAckParams (env : Env) (c : ValueClasses) (inEnum outEnum : Enum) : List Line :=
  inEnum.Values.flatMap fun field =>
    if c.missingFields.has field.Name then
      P [val field.Name, lit " ", val (ackMissingEnumName env outEnum field), lit ","]
    else []

/-- Lines 361-373: the enum constructor. -/
def enumConstructorDecl (env : Env) (c : ValueClasses) (inEnum outEnum : Enum) :
    List Line :=
  P [lit "func New", val (encoderEnumName env inEnum outEnum), lit "[T any]("] ++
  P [lit "extraEncoder Extra", val (upperFirst env (encoderEnumName env inEnum outEnum)),
     lit "[T],"] ++
  enumAckParams env c inEnum outEnum ++
  P [lit ") *", val (encoderEnumName env inEnum outEnum), lit "[T] \x7b"] ++
  P [lit "return &", val (encoderEnumName env inEnum outEnum), lit "[T]\x7b"] ++
  P [lit "ExtraEncoder: extraEncoder,"] ++
  P [lit "\x7d"] ++
  P [lit "\x7d"] ++
  P []

/-- Lines 378-385: the comparison ladder. -/
def enumLadder (env : Env) (c : ValueClasses) (outEnum : Enum) : List Line :=
  outEnum.Values.flatMap fun field =>
    match c.inFields.get? field.Name with
    | some inField =>
      P [lit "if in == ", val (env.QualifiedGoIdent inField.GoIdent), lit " \x7b"] ++
      P [lit "out = ", val (env.QualifiedGoIdent field.GoIdent)] ++
      P [lit "\x7d"] ++
      P []
    | none => []

/-- Lines 375-400: the `Encode` method of an enum encoder. -/
def enumEncodeMethod (env : Env) (c : ValueClasses) (inEnum outEnum : Enum) : List Line :=
  P [lit "func (e *", val (encoderEnumName env inEnum outEnum), lit "[T]) Encode(in ",
     val (env.QualifiedGoIdent inEnum.GoIdent), lit ", extra T) (",
     val (env.QualifiedGoIdent outEnum.GoIdent), lit ", error) \x7b"] ++
  P [lit "var err error"] ++
  P [lit "var out ", val (env.QualifiedGoIdent outEnum.GoIdent)] ++
  enumLadder env c outEnum ++
  P [lit "var extraOut *", val (env.QualifiedGoIdent outEnum.GoIdent)] ++
  P [lit "extraOut, err = e.ExtraEncoder(extra)"] ++
  P [lit "if err != nil \x7b"] ++
  P [lit "return 0, err"] ++
  P [lit "\x7d"] ++
  P [] ++
  P [lit "if extraOut != nil \x7b"] ++
  P [lit "out = *extraOut"] ++
  P [lit "\x7d"] ++
  P [] ++
  P [lit "return out, nil"] ++
  P [lit "\x7d"]

/-- Models `convertEnum`: the file after the call; the returned error is always nil. -/
def convertEnum (env : Env) (inEnum outEnum : Enum) (g : GeneratedFile) :
    Outcome GeneratedFile :=
  let c := classifyValues inEnum outEnum
  .ok (g ++ missingValueTypes env c inEnum outEnum ++
    P [lit "type ", lit "Extra", val (upperFirst env (encoderEnumName env inEnum outEnum)),
       lit "[T any] func(T) (*", val (env.QualifiedGoIdent outEnum.GoIdent), lit ", error)"] ++
    P [lit "type ", val (encoderEnumName env inEnum outEnum), lit "[T any] struct \x7b"] ++
    P [lit "ExtraEncoder Extra", val (upperFirst env (encoderEnumName env inEnum outEnum)),
       lit "[T]"] ++
    P [lit "\x7d"] ++
    enumConstructorDecl env c inEnum outEnum ++
    enumEncodeMethod env c inEnum outEnum)

/-! ## Specification vocabulary -/

/-- Map obtained from `m` by writing, in list order, every element that satisfies `p`
under its key. -/
def insertWhere {α : Type} (key : α → String) (p : α → Bool) (l : List α) (m : GoMap α) :
    GoMap α :=
  l.foldl (fun m a => if p a then m.set (key a) a else m) m

/-- The output field has the same signature as the input field of its name. -/
def sameSignature (env : Env) (inFields : GoMap Field) (field : Field) : Bool :=
  match inFields.get? field.GoName with
  | some inField => fieldGoType env inField == fieldGoType env field
  | none => false

/-- The output field has an input field of its name, with another signature. -/
def otherSignature (env : Env) (inFields : GoMap Field) (field : Field) : Bool :=
  match inFields.get? field.GoName with
  | some inField => fieldGoType env inField != fieldGoType env field
  | none => false

/-! ## Example schemas -/

/-- Example environment: identifiers of package `path` are referred to by their bare
name, all others as `pb.Name`; case mapping is the ASCII one. -/
def exampleEnv (path : String) : Env where
  QualifiedGoIdent := fun i => if i.GoImportPath = path then i.GoName else "pb." ++ i.GoName
  ToLower := Char.toLower
  ToUpper := Char.toUpper

/-- Plain field (no presence, not repeated, not in a oneof) of the given kind. -/
def plainField (name : String) (kind : Kind) : Field :=
  .mk name ⟨name, "example.com/pb"⟩ kind false false false none none

/-- Scenario A, input record `{id: int32, name: string}`. -/
def userV1 : Message :=
  .mk ⟨"UserV1", "example.com/pb"⟩ "pb.UserV1"
    [plainField "Id" .Int32Kind, plainField "Name" .StringKind] [] []

/-- Scenario A, output record `{id: int32, name: string, email: string}`. -/
def userV2 : Message :=
  .mk ⟨"UserV2", "example.com/pb"⟩ "pb.UserV2"
    [plainField "Id" .Int32Kind, plainField "Name" .StringKind,
     plainField "Email" .StringKind] [] []

/-- The string begins with a character that opens a pointer or slice type; the qualified
name of a Go identifier never does. -/
def beginsWithTypeOperator (s : String) : Bool :=
  match s.data with
  | c :: _ => c == '*' || c == '['
  | [] => false

/-- Scenario B, input record `{status: EnumA}`. -/
def statusV1 : Message :=
  .mk ⟨"StatusV1", "example.com/pb"⟩ "pb.StatusV1"
    [plainField "Status" (.EnumKind ⟨"EnumA", "example.com/pb"⟩)] [] []

/-- Scenario B, output record `{status: EnumB}`. -/
def statusV2 : Message :=
  .mk ⟨"StatusV2", "example.com/pb"⟩ "pb.StatusV2"
    [plainField "Status" (.EnumKind ⟨"EnumB", "example.com/pb"⟩)] [] []

/-- Value `name` of the Go enum type `enum`. -/
def enumValue (enum name : String) : EnumValue :=
  ⟨name, ⟨enum ++ "_" ++ name, "example.com/pb"⟩⟩

/-- Scenario C, input enum with the values `A`, `B`, `C`. -/
def enumABC : Enum :=
  ⟨⟨"EnumIn", "example.com/pb"⟩, "pb.EnumIn",
    [enumValue "EnumIn" "A", enumValue "EnumIn" "B", enumValue "EnumIn" "C"]⟩

/-- Scenario C, output enum with the values `A`, `B`. -/
def enumAB : Enum :=
  ⟨⟨"EnumOut", "example.com/pb"⟩, "pb.EnumOut",
    [enumValue "EnumOut" "A", enumValue "EnumOut" "B"]⟩

/-- The kind is a scalar kind: neither a message nor a group. -/
def Kind.isScalar : Kind → Bool
  | .MessageKind _ => false
  | .GroupKind _ => false
  | _ => true

/-- Field with presence tracking (such as a proto2 `optional` field) outside any oneof. -/
def optionalField (name : String) (kind : Kind) : Field :=
  .mk name ⟨name, "example.com/pb"⟩ kind false true false none none

/-- Input record `{data: bytes}`. -/
def blobV1 : Message :=
  .mk ⟨"BlobV1", "example.com/pb"⟩ "pb.BlobV1" [plainField "Data" .BytesKind] [] []

/-- Output record `{optional data: bytes}`. -/
def blobV2 : Message :=
  .mk ⟨"BlobV2", "example.com/pb"⟩ "pb.BlobV2" [optionalField "Data" .BytesKind] [] []

/-- Input record `{count: int32}`. -/
def countV1 : Message :=
  .mk ⟨"CountV1", "example.com/pb"⟩ "pb.CountV1" [plainField "Count" .Int32Kind] [] []

/-- Output record `{optional count: int32}`. -/
def countV2 : Message :=
  .mk ⟨"CountV2", "example.com/pb"⟩ "pb.CountV2" [optionalField "Count" .Int32Kind] [] []

/-- Message field `payload` outside any oneof; message fields always track presence. -/
def payloadField : Field :=
  .mk "Payload" ⟨"Payload", "example.com/pb"⟩ (.MessageKind ⟨"Payload", "example.com/pb"⟩)
    false true false none none

/-- Message field `payload` as a member of the oneof `body`. -/
def payloadInBody : Field :=
  .mk "Payload" ⟨"MailV2_Payload", "example.com/pb"⟩
    (.MessageKind ⟨"Payload", "example.com/pb"⟩) false true false none (some ⟨"Body"⟩)

/-- Input record `{payload: Payload}`. -/
def mailV1 : Message :=
  .mk ⟨"MailV1", "example.com/pb"⟩ "pb.MailV1" [payloadField] [] []

/-- Output record `{oneof body {payload: Payload}}`. -/
def mailV2 : Message :=
  .mk ⟨"MailV2", "example.com/pb"⟩ "pb.MailV2" [payloadInBody] [] []

/-- String field `nick` as a member of the oneof `alias`. -/
def nickInAlias : Field :=
  .mk "Nick" ⟨"NickV2_Nick", "example.com/pb"⟩ .StringKind false true false none
    (some ⟨"Alias"⟩)

/-- Input record `{nick: string}`. -/
def nickV1 : Message :=
  .mk ⟨"NickV1", "example.com/pb"⟩ "pb.NickV1" [plainField "Nick" .StringKind] [] []

/-- Output record `{oneof alias {nick: string}}`. -/
def nickV2 : Message :=
  .mk ⟨"NickV2", "example.com/pb"⟩ "pb.NickV2" [nickInAlias] [] []

/-- Input fields classified changed or missing, in declaration order. -/
def changedOrMissing (c : FieldClasses) (inMsg : Message) : List Field :=
  inMsg.Fields.filter fun f => c.changedFields.has f.GoName || c.missingFields.has f.GoName

/-- Output fields classified extra, in declaration order. -/
def extraOnly (c : FieldClasses) (outMsg : Message) : List Field :=
  outMsg.Fields.filter fun f => c.extraFields.has f.GoName

/-! ## Reading the emitted `Encode` methods -/

/-- The literal ends with the receiver of a method call, ` e.`. -/
def endsWithReceiver (s : String) : Bool :=
  s.data.reverse.take 3 == ['.', 'e', ' ']

/-- The call of a member function of the encoder printed on a line, if any: the name of
the member (the computed argument that follows a literal ending in ` e.`) and the rest of
the line, which is the argument list of the call. -/
def invocation? : Line → Option (String × Line)
  | [] => none
  | lit s :: rest =>
    match rest with
    | val n :: args => if endsWithReceiver s then some (n, args) else invocation? rest
    | _ => invocation? rest
  | val _ :: rest => invocation? rest

/-- The calls of member functions printed in a file, in order. -/
def invocations (g : List Line) : List (String × Line) :=
  g.filterMap invocation?

/-- The argument list passes a value read from the input together with the context:
either the input member itself or the local extracted from the input's oneof. -/
def passesInput (name : String) (env : Env) (args : Line) : Bool :=
  args == [lit "(in.", val name, lit ", extra)"] ||
  args == [lit "(", val (lowerFirst env name), lit "In, extra)"]

/-- The argument list passes the context alone. -/
def passesContextOnly (args : Line) : Bool :=
  args == [lit "(extra)"]

/-- The call expected for each output field, in output declaration order: the member
named like the field, applied to the input member when the input field of this name is in
no oneof, to the extracted local when it is in a oneof, and to the context alone when no
input field has the name. -/
def expectedCalls (env : Env) (inMsg outMsg : Message) : List (String × Line) :=
  outMsg.Fields.map fun f =>
    (f.GoName,
      match (indexFields inMsg.Fields).get? f.GoName with
      | none => [lit "(extra)"]
      | some inField =>
        match inField.Oneof with
        | none => [lit "(in.", val f.GoName, lit ", extra)"]
        | some _ => [lit "(", val (lowerFirst env f.GoName), lit "In, extra)"])

/-- Every line of the file that satisfies `p` is immediately followed by the lines
`check`. -/
def followedBy (p : Line → Bool) (check : List Line) : List Line → Bool
  | [] => true
  | l :: rest => (!p l || rest.take check.length == check) && followedBy p check rest

/-- The line calls a member function of the encoder. -/
def isInvocation (l : Line) : Bool := (invocation? l).isSome

/-- The characters `pat` occur consecutively in the character list. -/
def containsChars (pat : List Char) : List Char → Bool
  | [] => pat == []
  | c :: cs => (c :: cs).take pat.length == pat || containsChars pat cs

/-- The line calls the override hook of an enum encoder: one of its literals contains
`e.ExtraEncoder(`. -/
def isHookCall (l : Line) : Bool :=
  l.any fun t =>
    match t with
    | lit s => containsChars "e.ExtraEncoder(".data s.data
    | val _ => false

/-- No line of the file satisfies `p`. -/
def noLine (p : Line → Bool) (g : List Line) : Bool := g.all fun l => !p l

/-- The error check printed after the call of the override hook of an enum encoder. -/
def enumErrCheck : List Line :=
  [[lit "if err != nil \x7b"], [lit "return 0, err"], [lit "\x7d"]]

/-- The line assigns to a member of `out`: it starts with the literal `out.`. -/
def assignsOut (l : Line) : Bool :=
  match l with
  | lit s :: _ => s == "out."
  | _ => false

/-- The line assigns to the local that holds the value extracted from the input's oneof:
a name followed by the literal `In = `. -/
def assignsInputLocal (l : Line) : Bool :=
  match l with
  | val _ :: lit s :: _ => s == "In = "
  | _ => false

/-- Input record `{oneof alias {nick: string}}`. -/
def aliasV1 : Message :=
  .mk ⟨"AliasV1", "example.com/pb"⟩ "pb.AliasV1" [nickInAlias] [] []

/-- The line starts with the computed name `name`. -/
def startsWithName (name : String) (l : Line) : Bool :=
  l.head? == some (val name)

/-! ## Reading and running the emitted enum `Encode` -/

/-- The pairs (input value, output value) of equal name, in output declaration order. -/
def commonPairs (inEnum outEnum : Enum) : List (EnumValue × EnumValue) :=
  outEnum.Values.filterMap fun v =>
    (inEnum.Values.find? fun w => w.Name == v.Name).map fun w => (w, v)

/-- One rung of the comparison ladder. -/
def rung (env : Env) (p : EnumValue × EnumValue) : List Line :=
  [[lit "if in == ", val (env.QualifiedGoIdent p.1.GoIdent), lit " \x7b"],
   [lit "out = ", val (env.QualifiedGoIdent p.2.GoIdent)],
   [lit "\x7d"],
   []]

/-- Value of `out` after the rungs for `pairs` have run in order, starting from `out`;
`num` gives the number of an enum constant and `inv` is the number of `in`. -/
def ladderResult (env : Env) (num : String → Int) (inv : Int)
    (pairs : List (EnumValue × EnumValue)) (out : Int) : Int :=
  pairs.foldl
    (fun out p =>
      if inv = num (env.QualifiedGoIdent p.1.GoIdent) then
        num (env.QualifiedGoIdent p.2.GoIdent)
      else out)
    out

/-- Runs the statements `if in == X { out = Y }` at the head of the printed lines: the
value of `out` after them, and the lines that remain. -/
def runLadder (num : String → Int) (inv : Int) (ls : List Line) (out : Int) :
    Int × List Line :=
  match ls with
  | l1 :: l2 :: l3 :: l4 :: rest =>
    match l1, l2, l3, l4 with
    | [lit "if in == ", val x, lit " \x7b"], [lit "out = ", val y], [lit "\x7d"], [] =>
      runLadder num inv rest (if inv = num x then num y else out)
    | _, _, _, _ => (out, ls)
  | _ => (out, ls)

/-- Runs a printed enum `Encode` method on an input of number `inv`, where the override
hook returns the pointer `hook.1` (`none` for nil) and the error `hook.2` (`none` for nil):
the returned value or error, or `none` when the lines are not of the shape of an enum
`Encode` method.  `var out T` starts `out` at the zero value 0. -/
def runEnumEncode (num : String → Int) (inv : Int) (hook : Option Int × Option String)
    (method : List Line) : Option (Except String Int) :=
  match method with
  | _ :: [lit "var err error"] :: [lit "var out ", val _] :: body =>
    match runLadder num inv body 0 with
    | (out, [lit "var extraOut *", val _] :: rest) =>
      if rest =
          [[lit "extraOut, err = e.ExtraEncoder(extra)"],
           [lit "if err != nil \x7b"],
           [lit "return 0, err"],
           [lit "\x7d"],
           [],
           [lit "if extraOut != nil \x7b"],
           [lit "out = *extraOut"],
           [lit "\x7d"],
           [],
           [lit "return out, nil"],
           [lit "\x7d"]] then
        match hook.2 with
        | some err => some (.error err)
        | none =>
          match hook.1 with
          | some extraOut => some (.ok extraOut)
          | none => some (.ok out)
      else none
    | _ => none
  | _ => none

/-- Example numbering of enum constants: `A` is 0, `B` is 1, `C` is 2. -/
def exampleNum (s : String) : Int :=
  if s = "EnumIn_B" ∨ s = "EnumOut_B" then 1
  else if s = "EnumIn_C" ∨ s = "EnumOut_C" then 2
  else 0

/-! ## Schema graph (`mapFiles`, `mapCollection`, lines 405-452) -/

/-- Source file of the request (`protogen.File`): its top-level declarations. -/
structure File where
  Messages : List Message
  Enums : List Enum

/-- The two maps filled by `mapFiles`. -/
structure SchemaMaps where
  messageMap : GoMap Message
  enumMap : GoMap Enum

/-- The second loop of `mapCollection` (lines 420-422): each enum is registered. -/
def mapCollectionEnums (enums : List Enum) (s : SchemaMaps) : SchemaMaps :=
  enums.foldl (fun s enum => { s with enumMap := s.enumMap.set enum.FullName enum }) s

mutual

/-- One iteration of the first loop of `mapCollection` (lines 416-417): the message is
registered, then `mapCollection` runs on the message's own collection, that is, both loops
run on its nested messages and enums. -/
def mapMessage : Message → SchemaMaps → SchemaMaps
  | .mk ident name fields messages enums, s =>
    mapCollectionEnums enums
      (mapCollectionMessages messages
        { s with messageMap :=
            s.messageMap.set name (.mk ident name fields messages enums) })

/-- The first loop of `mapCollection` (lines 415-418). -/
def mapCollectionMessages : List Message → SchemaMaps → SchemaMaps
  | [], s => s
  | message :: rest, s => mapCollectionMessages rest (mapMessage message s)

end

/-- Models `mapCollection(c, messageMap, enumMap)` for a collection with the messages
`messages` and the enums `enums`. -/
def mapCollection (messages : List Message) (enums : List Enum) (s : SchemaMaps) :
    SchemaMaps :=
  mapCollectionEnums enums (mapCollectionMessages messages s)

/-- Models `mapFiles`. -/
def mapFiles (files : List File) : SchemaMaps :=
  files.foldl (fun s file => mapCollection file.Messages file.Enums s) ⟨[], []⟩

mutual

/-- A record together with the records nested in it at any depth. -/
def Message.descendants : Message → List Message
  | .mk ident name fields messages enums =>
    .mk ident name fields messages enums :: descendantsOf messages

/-- The records of a list together with the records nested in them at any depth. -/
def descendantsOf : List Message → List Message
  | [] => []
  | message :: rest => message.descendants ++ descendantsOf rest

end

/-- All records of a compilation unit: declared at top level or nested at any depth. -/
def allMessages (files : List File) : List Message :=
  files.flatMap fun file => descendantsOf file.Messages

/-- All enums of a compilation unit: declared at top level or nested directly in a
record. -/
def allEnums (files : List File) : List Enum :=
  (files.flatMap fun file => file.Enums) ++ (allMessages files).flatMap Message.Enums

/-- The maps `s'` hold what `s` holds together with the records `M` and the enums `E`,
each under its full name. -/
def Extends (s s' : SchemaMaps) (M : List Message) (E : List Enum) : Prop :=
  (∀ k, s'.messageMap.has k = true ↔ s.messageMap.has k = true ∨ ∃ m ∈ M, m.FullName = k) ∧
  (∀ k a, s'.messageMap.get? k = some a →
    s.messageMap.get? k = some a ∨ (a ∈ M ∧ a.FullName = k)) ∧
  (∀ k, s'.enumMap.has k = true ↔ s.enumMap.has k = true ∨ ∃ e ∈ E, e.FullName = k) ∧
  (∀ k a, s'.enumMap.get? k = some a →
    s.enumMap.get? k = some a ∨ (a ∈ E ∧ a.FullName = k))

/-! ## Driver (`main`, lines 13-84, and `reverseString`, lines 505-514) -/

/-- Mapping directive. -/
structure namePair where
  input : String
  output : String
deriving DecidableEq, Repr

/-- The variables set by the parameter handler. -/
structure Params where
  mappings : List namePair
  filename : String
  goImportPath : String
deriving DecidableEq, Repr

/-- Models the `ParamFunc` closure (lines 24-41): the variables after the call, or the
returned error.  `quote` models the `%q` verb of `fmt.Errorf`. -/
def paramFunc (quote : String → String) (p : Params) (name value : String) :
    Except String Params :=
  if name = "mapping" then
    match split value ':' with
    | [input, output] => .ok { p with mappings := p.mappings ++ [⟨input, output⟩] }
    | _ =>
      .error ("invalid mapping \"" ++ quote value ++ "\". Must be of the form input:output")
  else if name = "filename" then .ok { p with filename := value }
  else if name = "go_import_path" then .ok { p with goImportPath := value }
  else .error ("unknown parameter " ++ quote name)

/-- The loop of `reverseString`: the writes into `buf`, newest first, each as the byte
offset `size-start` and the rune written there.  On a valid string `DecodeRuneInString`
yields the next character and its width `n`. -/
def reverseLoop (size : Nat) : List Char → Nat → List (Nat × Char) → List (Nat × Char)
  | [], _, buf => buf
  | r :: rest, start, buf =>
    let n := r.utf8Size
    let start := start + n
    reverseLoop size rest start ((size - start, r) :: buf)

/-- Models `reverseString`: `string(buf)` reads the runes in the order of their offsets. -/
def reverseString (s : String) : String :=
  let size := s.utf8ByteSize
  let buf := reverseLoop size s.data 0 []
  String.mk ((buf.insertionSort fun a b => a.1 ≤ b.1).map Prod.snd)

/-- The package identifier of line 48,
`reverseString(strings.Split(reverseString(goImportPath), "/")[0])`; `none` models the
panic of the index expression on an empty slice. -/
def packageName (goImportPath : String) : Option String :=
  match split (reverseString goImportPath) '/' with
  | first :: _ => some (reverseString first)
  | [] => none

/-- One iteration of the loop of lines 50-80. -/
def processMapping (env : Env) (quote : String → String) (s : SchemaMaps)
    (mapping : namePair) (outFile : GeneratedFile) : Outcome GeneratedFile :=
  let messages : Outcome GeneratedFile :=
    match s.messageMap.get? mapping.input, s.messageMap.get? mapping.output with
    | some _, none => .error ("output message " ++ quote mapping.output ++ " not found")
    | none, some _ => .error ("input message " ++ quote mapping.input ++ " not found")
    | some inMsg, some outMsg => convertMessage env inMsg outMsg outFile
    | none, none => .ok outFile
  match messages with
  | .error msg => .error msg
  | .panic => .panic
  | .ok outFile =>
    match s.enumMap.get? mapping.input, s.enumMap.get? mapping.output with
    | some _, none => .error ("output enum " ++ quote mapping.output ++ " not found")
    | none, some _ => .error ("input enum " ++ quote mapping.input ++ " not found")
    | some inEnum, some outEnum => convertEnum env inEnum outEnum outFile
    | none, none => .ok outFile

/-- The loop of lines 50-80 with its early returns. -/
def runMappings (env : Env) (quote : String → String) (s : SchemaMaps) :
    List namePair → GeneratedFile → Outcome GeneratedFile
  | [], outFile => .ok outFile
  | mapping :: rest, outFile =>
    match processMapping env quote s mapping outFile with
    | .ok outFile => runMappings env quote s rest outFile
    | .error msg => .error msg
    | .panic => .panic

/-- Models the function passed to `Run` (lines 42-83): the content of the generated file,
or the returned error. -/
def run (env : Env) (quote : String → String) (files : List File) (p : Params) :
    Outcome GeneratedFile :=
  let s := mapFiles files
  match packageName p.goImportPath with
  | none => .panic
  | some name =>
    runMappings env quote s p.mappings
      (P [lit "// Code generated by protoc-gen-encode. DO NOT EDIT."] ++
       P [] ++
       P [lit "package ", val name])

/-- Record `PbBc` of the package of the generated file. -/
def localPbBc : GoIdent := ⟨"PbBc", "example.com/pb"⟩

/-- Record `Bc` of another package, referred to as `pb.Bc`. -/
def foreignBc : GoIdent := ⟨"Bc", "example.com/other/pb"⟩

/-- Record `Bd` of another package, referred to as `pb.Bd`. -/
def foreignBd : GoIdent := ⟨"Bd", "example.com/other/pb"⟩

/-- Input record `{x: int32, id: int32}` of a first directive. -/
def oldA : Message :=
  .mk ⟨"OldA", "example.com/pb"⟩ "pb.OldA"
    [plainField "X" .Int32Kind, plainField "Id" .Int32Kind] [] []

/-- Input record `{x: string, y: string, id: int32}` of a second directive. -/
def oldB : Message :=
  .mk ⟨"OldB", "example.com/pb"⟩ "pb.OldB"
    [plainField "X" .StringKind, plainField "Y" .StringKind, plainField "Id" .Int32Kind] [] []

/-- Output record `{id: int32}` of both directives. -/
def keep : Message :=
  .mk ⟨"Keep", "example.com/pb"⟩ "pb.Keep" [plainField "Id" .Int32Kind] [] []

/-- Compilation unit with the records and enums of scenarios A and C. -/
def exampleFile : File :=
  ⟨[userV1, userV2], [enumABC, enumAB]⟩

/-- Bytes field `data` as a member of the oneof `body`. -/
def dataInBody : Field :=
  .mk "Data" ⟨"DocV1_Data", "example.com/pb"⟩ .BytesKind false true false none
    (some ⟨"Body"⟩)

/-- Input record `{oneof body {data: bytes}}`. -/
def docV1 : Message :=
  .mk ⟨"DocV1", "example.com/pb"⟩ "pb.DocV1" [dataInBody] [] []

/-! # Properties -/

namespace GoMap

theorem get?_set {α : Type} (m : GoMap α) (k k' : String) (v : α) :
    (m.set k v).get? k' = if k' = k then some v else m.get? k' := by
  by_cases h : k' = k
  · subst h; simp [set, get?, List.lookup]
  · have : (k' == k) = false := by simpa using h
    simp [set, get?, List.lookup, this, h]

theorem has_set {α : Type} (m : GoMap α) (k k' : String) (v : α) :
    (m.set k v).has k' = (decide (k' = k) || m.has k') := by
  unfold has
  rw [get?_set]
  by_cases h : k' = k <;> simp [h]

theorem has_nil {α : Type} (k : String) : has ([] : GoMap α) k = false := rfl

theorem get?_nil {α : Type} (k : String) : get? ([] : GoMap α) k = none := rfl

end GoMap

theorem insertWhere_nil {α : Type} (key : α → String) (p : α → Bool) (m : GoMap α) :
    insertWhere key p [] m = m := rfl

theorem insertWhere_cons {α : Type} (key : α → String) (p : α → Bool) (a : α) (l : List α)
    (m : GoMap α) :
    insertWhere key p (a :: l) m = insertWhere key p l (if p a then m.set (key a) a else m) :=
  rfl

/-- Keys of a map built by `insertWhere`. -/
theorem has_insertWhere {α : Type} (key : α → String) (p : α → Bool) (l : List α)
    (m : GoMap α) (n : String) :
    (insertWhere key p l m).has n = true ↔ (∃ a ∈ l, key a = n ∧ p a = true) ∨ m.has n = true := by
  induction l generalizing m with
  | nil => simp [insertWhere_nil]
  | cons b l ih =>
    rw [insertWhere_cons, ih]
    by_cases hp : p b = true
    · simp only [hp, if_true, GoMap.has_set, Bool.or_eq_true, decide_eq_true_eq,
        List.mem_cons, exists_eq_or_imp]
      constructor
      · rintro (h | h | h)
        · exact Or.inl (Or.inr h)
        · exact Or.inl (Or.inl ⟨h.symm, trivial⟩)
        · exact Or.inr h
      · rintro ((⟨h, -⟩ | h) | h)
        · exact Or.inr (Or.inl h.symm)
        · exact Or.inl h
        · exact Or.inr (Or.inr h)
    · simp only [hp, List.mem_cons, exists_eq_or_imp]
      simp

/-- Values of a map built by `insertWhere` from a list with distinct keys. -/
theorem get?_insertWhere {α : Type} (key : α → String) (p : α → Bool) (l : List α)
    (m : GoMap α) (n : String) (a : α) (hl : (l.map key).Nodup) :
    (insertWhere key p l m).get? n = some a ↔
      (a ∈ l ∧ key a = n ∧ p a = true) ∨
      ((∀ b ∈ l, key b = n → p b = false) ∧ m.get? n = some a) := by
  induction l generalizing m with
  | nil => simp [insertWhere_nil]
  | cons b l ih =>
    rw [List.map_cons, List.nodup_cons] at hl
    obtain ⟨hb, hl⟩ := hl
    have hb' : ∀ c ∈ l, key c ≠ key b := fun c hc h => hb (List.mem_map.2 ⟨c, hc, h⟩)
    rw [insertWhere_cons, ih _ hl]
    by_cases hp : p b = true
    · by_cases hk : n = key b
      · subst hk
        simp only [List.forall_mem_cons]
        simp only [hp, if_true, GoMap.get?_set, List.mem_cons]
        constructor
        · rintro (⟨h, hk, -⟩ | ⟨-, h⟩)
          · exact absurd hk (hb' a h)
          · simp only [if_true, Option.some.injEq] at h
            subst h
            exact Or.inl ⟨Or.inl rfl, rfl, hp⟩
        · rintro (⟨h | h, hk, -⟩ | ⟨⟨h, -⟩, -⟩)
          · subst h
            refine Or.inr ⟨fun c hc h => absurd h (hb' c hc), by simp⟩
          · exact absurd hk (hb' a h)
          · simp [hp] at h
      · simp only [List.forall_mem_cons]
        simp only [hp, if_true, GoMap.get?_set, hk, if_false, List.mem_cons]
        constructor
        · rintro (⟨h, hk', hp'⟩ | ⟨h, hm⟩)
          · exact Or.inl ⟨Or.inr h, hk', hp'⟩
          · exact Or.inr ⟨⟨fun h' => absurd h'.symm hk, h⟩, hm⟩
        · rintro (⟨h | h, hk', hp'⟩ | ⟨⟨-, h⟩, hm⟩)
          · subst h; exact absurd hk'.symm hk
          · exact Or.inl ⟨h, hk', hp'⟩
          · exact Or.inr ⟨h, hm⟩
    · have hp' : p b = false := by simpa using hp
      simp only [List.forall_mem_cons]
      simp only [hp', Bool.false_eq_true, if_false, List.mem_cons]
      constructor
      · rintro (⟨h, hk', hp''⟩ | ⟨h, hm⟩)
        · exact Or.inl ⟨Or.inr h, hk', hp''⟩
        · exact Or.inr ⟨⟨fun _ => trivial, h⟩, hm⟩
      · rintro (⟨h | h, hk', hp''⟩ | ⟨⟨-, h⟩, hm⟩)
        · subst h; simp [hp'] at hp''
        · exact Or.inl ⟨h, hk', hp''⟩
        · exact Or.inr ⟨h, hm⟩

/-- Values of a map built by `insertWhere` from the empty map. -/
theorem get?_insertWhere_nil {α : Type} (key : α → String) (p : α → Bool) (l : List α)
    (n : String) (a : α) (hl : (l.map key).Nodup) :
    (insertWhere key p l []).get? n = some a ↔ a ∈ l ∧ key a = n ∧ p a = true := by
  rw [get?_insertWhere key p l [] n a hl]
  simp [GoMap.get?_nil]

/-- Keys of a map built by `insertWhere` from the empty map. -/
theorem has_insertWhere_nil {α : Type} (key : α → String) (p : α → Bool) (l : List α)
    (n : String) :
    (insertWhere key p l []).has n = true ↔ ∃ a ∈ l, key a = n ∧ p a = true := by
  rw [has_insertWhere]
  simp [GoMap.has_nil]

/-- Every value of a map built by `insertWhere` is stored under its own key. -/
theorem key_of_get?_insertWhere {α : Type} (key : α → String) (p : α → Bool) (l : List α)
    (m : GoMap α) (n : String) (a : α) (hm : ∀ k v, m.get? k = some v → key v = k)
    (h : (insertWhere key p l m).get? n = some a) : key a = n := by
  induction l generalizing m with
  | nil => exact hm _ _ h
  | cons b l ih =>
    rw [insertWhere_cons] at h
    refine ih _ ?_ h
    intro k v hkv
    by_cases hp : p b = true
    · simp only [hp, if_true, GoMap.get?_set] at hkv
      by_cases hk : k = key b
      · simp only [hk, if_true, Option.some.injEq] at hkv
        rw [← hkv, hk]
      · simp only [hk, if_false] at hkv
        exact hm _ _ hkv
    · simp only [hp, if_false] at hkv
      exact hm _ _ hkv

/-! ## The classification loops as filtered insertions -/

theorem indexFields_eq (fields : List Field) :
    indexFields fields = insertWhere Field.GoName (fun _ => true) fields [] := by
  simp [indexFields, insertWhere]

theorem collectMissing_eq (outFields : GoMap Field) (fields : List Field) :
    collectMissing outFields fields =
      insertWhere Field.GoName (fun f => !outFields.has f.GoName) fields [] := by
  unfold collectMissing insertWhere
  congr 1
  funext m f
  cases h : outFields.has f.GoName <;> simp [h]

theorem foldl_classifyOutField (env : Env) (inFields : GoMap Field) (fields : List Field)
    (s : OutLoop) :
    fields.foldl (classifyOutField env inFields) s =
      { outFields := insertWhere Field.GoName (fun _ => true) fields s.outFields
        extraFields :=
          insertWhere Field.GoName (fun f => !inFields.has f.GoName) fields s.extraFields
        changedFields :=
          insertWhere Field.GoName (otherSignature env inFields) fields s.changedFields
        commonFields :=
          insertWhere Field.GoName (sameSignature env inFields) fields s.commonFields } := by
  induction fields generalizing s with
  | nil => rfl
  | cons f fields ih =>
    rw [List.foldl_cons, ih]
    simp only [insertWhere_cons]
    unfold classifyOutField otherSignature sameSignature GoMap.has
    cases h : inFields.get? f.GoName with
    | none => simp
    | some inField =>
      by_cases ht : fieldGoType env inField = fieldGoType env f <;> simp [ht]

/-- The six maps of `classifyFields`, in closed form. -/
theorem classifyFields_eq (env : Env) (inMsg outMsg : Message) :
    classifyFields env inMsg outMsg =
      { inFields := insertWhere Field.GoName (fun _ => true) inMsg.Fields []
        outFields := insertWhere Field.GoName (fun _ => true) outMsg.Fields []
        extraFields :=
          insertWhere Field.GoName (fun f => !(indexFields inMsg.Fields).has f.GoName)
            outMsg.Fields []
        changedFields :=
          insertWhere Field.GoName (otherSignature env (indexFields inMsg.Fields))
            outMsg.Fields []
        commonFields :=
          insertWhere Field.GoName (sameSignature env (indexFields inMsg.Fields))
            outMsg.Fields []
        missingFields :=
          insertWhere Field.GoName
            (fun f => !(insertWhere Field.GoName (fun _ => true) outMsg.Fields []).has f.GoName)
            inMsg.Fields [] } := by
  unfold classifyFields
  simp only [foldl_classifyOutField, collectMissing_eq, indexFields_eq]

theorem has_indexFields (fields : List Field) (n : String) :
    (indexFields fields).has n = true ↔ n ∈ fields.map Field.GoName := by
  rw [indexFields_eq, has_insertWhere_nil]
  simp

theorem has_allFields (fields : List Field) (n : String) :
    (insertWhere Field.GoName (fun _ => true) fields []).has n = true ↔
      n ∈ fields.map Field.GoName := by
  rw [has_insertWhere_nil]
  simp

theorem get?_indexFields (fields : List Field) (n : String) (f : Field)
    (h : (fields.map Field.GoName).Nodup) :
    (indexFields fields).get? n = some f ↔ f ∈ fields ∧ f.GoName = n := by
  rw [indexFields_eq, get?_insertWhere_nil _ _ _ _ _ h]
  simp

theorem goName_of_get?_indexFields (fields : List Field) (n : String) (f : Field)
    (h : (indexFields fields).get? n = some f) : f.GoName = n := by
  rw [indexFields_eq] at h
  exact key_of_get?_insertWhere _ _ _ _ _ _ (fun k v hkv => by simp [GoMap.get?_nil] at hkv) h

theorem eq_of_nodup_key {α : Type} (key : α → String) (l : List α)
    (h : (l.map key).Nodup) (a b : α) (ha : a ∈ l) (hb : b ∈ l) (hk : key a = key b) :
    a = b :=
  List.inj_on_of_nodup_map h ha hb hk

theorem sameSignature_otherSignature (env : Env) (inFields : GoMap Field) (f : Field) :
    ¬ (sameSignature env inFields f = true ∧ otherSignature env inFields f = true) := by
  unfold sameSignature otherSignature
  cases inFields.get? f.GoName <;> simp

theorem sameSignature_has (env : Env) (inFields : GoMap Field) (f : Field)
    (h : sameSignature env inFields f = true) : inFields.has f.GoName = true := by
  unfold sameSignature at h
  unfold GoMap.has
  cases hg : inFields.get? f.GoName <;> simp [hg] at h ⊢

theorem otherSignature_has (env : Env) (inFields : GoMap Field) (f : Field)
    (h : otherSignature env inFields f = true) : inFields.has f.GoName = true := by
  unfold otherSignature at h
  unfold GoMap.has
  cases hg : inFields.get? f.GoName <;> simp [hg] at h ⊢

theorem signature_cases (env : Env) (inFields : GoMap Field) (f : Field) :
    sameSignature env inFields f = true ∨ otherSignature env inFields f = true ∨
      inFields.has f.GoName = false := by
  unfold sameSignature otherSignature GoMap.has
  cases hg : inFields.get? f.GoName with
  | none => simp
  | some g => by_cases ht : fieldGoType env g = fieldGoType env f <;> simp [ht]

/-- No name is a key of two of the maps `common`, `changed`, `extra`. -/
theorem classifyFields_exclusive (env : Env) (inMsg outMsg : Message)
    (hout : (outMsg.Fields.map Field.GoName).Nodup) (n : String) :
    ¬ ((classifyFields env inMsg outMsg).commonFields.has n = true ∧
       (classifyFields env inMsg outMsg).changedFields.has n = true) ∧
    ¬ ((classifyFields env inMsg outMsg).commonFields.has n = true ∧
       (classifyFields env inMsg outMsg).extraFields.has n = true) ∧
    ¬ ((classifyFields env inMsg outMsg).changedFields.has n = true ∧
       (classifyFields env inMsg outMsg).extraFields.has n = true) := by
  have huniq := eq_of_nodup_key Field.GoName outMsg.Fields hout
  rw [classifyFields_eq]
  simp only [has_insertWhere_nil]
  refine ⟨?_, ?_, ?_⟩
  · rintro ⟨⟨f, hf, rfl, h1⟩, ⟨g, hg, hk, h2⟩⟩
    obtain rfl := huniq g f hg hf hk
    exact sameSignature_otherSignature env _ g ⟨h1, h2⟩
  · rintro ⟨⟨f, hf, rfl, h1⟩, ⟨g, hg, hk, h2⟩⟩
    obtain rfl := huniq g f hg hf hk
    have := sameSignature_has env _ g h1
    simp [this] at h2
  · rintro ⟨⟨f, hf, rfl, h1⟩, ⟨g, hg, hk, h2⟩⟩
    obtain rfl := huniq g f hg hf hk
    have := otherSignature_has env _ g h1
    simp [this] at h2

/-! ## C1: the classification is a partition -/

/-- C1. For records with name-unique fields, the maps computed by `convertMessage` form a
partition: a name is the name of an output field iff it is a key of `common`, `changed` or
`extra`; no name is a key of two of them; each of the three maps stores output fields
under their own names; `missing` maps a name to an input field iff that field has this name
and no output field has it; and no key of `missing` is a key of the other three. -/
theorem classifyFields_partition (env : Env) (inMsg outMsg : Message)
    (hin : (inMsg.Fields.map Field.GoName).Nodup)
    (hout : (outMsg.Fields.map Field.GoName).Nodup) :
    (∀ n, n ∈ outMsg.Fields.map Field.GoName ↔
        ((classifyFields env inMsg outMsg).commonFields.has n = true ∨
         (classifyFields env inMsg outMsg).changedFields.has n = true ∨
         (classifyFields env inMsg outMsg).extraFields.has n = true)) ∧
    (∀ n, ¬ ((classifyFields env inMsg outMsg).commonFields.has n = true ∧
             (classifyFields env inMsg outMsg).changedFields.has n = true) ∧
          ¬ ((classifyFields env inMsg outMsg).commonFields.has n = true ∧
             (classifyFields env inMsg outMsg).extraFields.has n = true) ∧
          ¬ ((classifyFields env inMsg outMsg).changedFields.has n = true ∧
             (classifyFields env inMsg outMsg).extraFields.has n = true)) ∧
    (∀ n f, ((classifyFields env inMsg outMsg).commonFields.get? n = some f ∨
             (classifyFields env inMsg outMsg).changedFields.get? n = some f ∨
             (classifyFields env inMsg outMsg).extraFields.get? n = some f) →
          f ∈ outMsg.Fields ∧ f.GoName = n) ∧
    (∀ n f, (classifyFields env inMsg outMsg).missingFields.get? n = some f ↔
          (f ∈ inMsg.Fields ∧ f.GoName = n ∧ n ∉ outMsg.Fields.map Field.GoName)) ∧
    (∀ n, (classifyFields env inMsg outMsg).missingFields.has n = true →
          (classifyFields env inMsg outMsg).commonFields.has n = false ∧
          (classifyFields env inMsg outMsg).changedFields.has n = false ∧
          (classifyFields env inMsg outMsg).extraFields.has n = false) := by
  have hexcl := classifyFields_exclusive env inMsg outMsg hout
  rw [classifyFields_eq] at hexcl ⊢
  simp only at hexcl ⊢
  refine ⟨?_, hexcl, ?_, ?_, ?_⟩
  · intro n
    simp only [has_insertWhere_nil, List.mem_map]
    constructor
    · rintro ⟨f, hf, rfl⟩
      rcases signature_cases env (indexFields inMsg.Fields) f with h | h | h
      · exact Or.inl ⟨f, hf, rfl, h⟩
      · exact Or.inr (Or.inl ⟨f, hf, rfl, h⟩)
      · exact Or.inr (Or.inr ⟨f, hf, rfl, by simp [h]⟩)
    · rintro (⟨f, hf, h, -⟩ | ⟨f, hf, h, -⟩ | ⟨f, hf, h, -⟩) <;> exact ⟨f, hf, h⟩
  · intro n f
    simp only [get?_insertWhere_nil _ _ _ _ _ hout]
    rintro (⟨hf, h, -⟩ | ⟨hf, h, -⟩ | ⟨hf, h, -⟩) <;> exact ⟨hf, h⟩
  · intro n f
    rw [get?_insertWhere_nil _ _ _ _ _ hin]
    have hiff : (!(insertWhere Field.GoName (fun _ => true) outMsg.Fields []).has f.GoName) = true ↔
        f.GoName ∉ outMsg.Fields.map Field.GoName := by
      rw [← has_allFields]
      simp
    constructor
    · rintro ⟨hf, rfl, h⟩
      exact ⟨hf, rfl, hiff.1 h⟩
    · rintro ⟨hf, rfl, h⟩
      exact ⟨hf, rfl, hiff.2 h⟩
  · intro n hn
    rw [has_insertWhere_nil] at hn
    obtain ⟨f, -, rfl, hf⟩ := hn
    have hnot : f.GoName ∉ outMsg.Fields.map Field.GoName := by
      rw [← has_allFields]
      simpa using hf
    have key : ∀ p : Field → Bool,
        (insertWhere Field.GoName p outMsg.Fields []).has f.GoName = false := by
      intro p
      rw [← Bool.not_eq_true, has_insertWhere_nil]
      rintro ⟨g, hg, hk, -⟩
      exact hnot (List.mem_map.2 ⟨g, hg, hk⟩)
    exact ⟨key _, key _, key _⟩

/-- Witness of C1 on scenario A: the input has no field `Email`, so `missing` does not
hold it. -/
theorem classifyFields_partition_witness :
    (classifyFields (exampleEnv "example.com/pb") userV1 userV2).missingFields.get? "Email" =
        some (plainField "Email" .StringKind) ↔
      (plainField "Email" .StringKind ∈ userV1.Fields ∧
        (plainField "Email" .StringKind).GoName = "Email" ∧
        "Email" ∉ userV2.Fields.map Field.GoName) :=
  (classifyFields_partition (exampleEnv "example.com/pb") userV1 userV2
    (by decide) (by decide)).2.2.2.1 "Email" (plainField "Email" .StringKind)

/-! ## Signatures as strings -/

theorem string_append_data (a b : String) : (a ++ b).data = a.data ++ b.data :=
  String.data_append a b

theorem star_append_ne (s : String) : "*" ++ s ≠ s := by
  intro h
  have := congrArg String.length h
  rw [String.length_append] at this
  have h1 : ("*" : String).length = 1 := rfl
  omega

theorem slice_append_ne (s : String) : "[]" ++ s ≠ s := by
  intro h
  have := congrArg String.length h
  rw [String.length_append] at this
  have h1 : ("[]" : String).length = 2 := rfl
  omega

/-- The signature of a field that is neither weak nor a map. -/
theorem fieldGoType_plain (env : Env) (f : Field) (hw : f.IsWeak = false)
    (hm : f.MapEntry = none) :
    fieldGoType env f =
      if f.IsList then
        "[]" ++ (match f.Kind with
          | .BoolKind => "bool"
          | .EnumKind e => env.QualifiedGoIdent e
          | .Int32Kind | .Sint32Kind | .Sfixed32Kind => "int32"
          | .Uint32Kind | .Fixed32Kind => "uint32"
          | .Int64Kind | .Sint64Kind | .Sfixed64Kind => "int64"
          | .Uint64Kind | .Fixed64Kind => "uint64"
          | .FloatKind => "float32"
          | .DoubleKind => "float64"
          | .StringKind => "string"
          | .BytesKind => "[]byte"
          | .MessageKind m | .GroupKind m => "*" ++ env.QualifiedGoIdent m)
      else
        match f.Kind with
        | .BoolKind => if f.HasPresence then "*bool" else "bool"
        | .EnumKind e =>
          if f.HasPresence then "*" ++ env.QualifiedGoIdent e else env.QualifiedGoIdent e
        | .Int32Kind | .Sint32Kind | .Sfixed32Kind => if f.HasPresence then "*int32" else "int32"
        | .Uint32Kind | .Fixed32Kind => if f.HasPresence then "*uint32" else "uint32"
        | .Int64Kind | .Sint64Kind | .Sfixed64Kind => if f.HasPresence then "*int64" else "int64"
        | .Uint64Kind | .Fixed64Kind => if f.HasPresence then "*uint64" else "uint64"
        | .FloatKind => if f.HasPresence then "*float32" else "float32"
        | .DoubleKind => if f.HasPresence then "*float64" else "float64"
        | .StringKind => if f.HasPresence then "*string" else "string"
        | .BytesKind => "[]byte"
        | .MessageKind m | .GroupKind m => "*" ++ env.QualifiedGoIdent m := by
  obtain ⟨n, i, k, w, p, l, m, o⟩ := f
  simp only [Field.IsWeak, Field.MapEntry] at hw hm
  subst hw hm
  cases k <;> cases l <;> cases p <;> rfl

/-- Two distinct identifiers stay distinct under the wrappings of a signature. -/
theorem wrapped_ident_ne (s t : String) (hs : beginsWithTypeOperator s = false)
    (ht : beginsWithTypeOperator t = false) (hne : s ≠ t) (l₁ p₁ l₂ p₂ : Bool) :
    (if l₁ then "[]" ++ s else if p₁ then "*" ++ s else s) ≠
      (if l₂ then "[]" ++ t else if p₂ then "*" ++ t else t) := by
  have hd : s.data ≠ t.data := fun h => hne (String.ext h)
  intro h
  have h' := congrArg String.data h
  unfold beginsWithTypeOperator at hs ht
  cases l₁ <;> cases p₁ <;> cases l₂ <;> cases p₂ <;>
    simp only [if_true, if_false, Bool.false_eq_true, string_append_data] at h' <;>
    (rcases hsd : s.data with _ | ⟨c, cs⟩ <;> rcases htd : t.data with _ | ⟨d, ds⟩ <;>
      simp_all <;>
      (obtain ⟨h1, -⟩ := h'; subst h1; simp at ht))

/-! ## C2: classification by name and signature -/

/-- The three maps of output fields, read at an output field of a record with name-unique
fields. -/
theorem classifyFields_get?_out (env : Env) (inMsg outMsg : Message)
    (hout : (outMsg.Fields.map Field.GoName).Nodup) (f : Field) (hf : f ∈ outMsg.Fields) :
    ((classifyFields env inMsg outMsg).extraFields.get? f.GoName = some f ↔
        (indexFields inMsg.Fields).has f.GoName = false) ∧
    ((classifyFields env inMsg outMsg).commonFields.get? f.GoName = some f ↔
        sameSignature env (indexFields inMsg.Fields) f = true) ∧
    ((classifyFields env inMsg outMsg).changedFields.get? f.GoName = some f ↔
        otherSignature env (indexFields inMsg.Fields) f = true) := by
  rw [classifyFields_eq]
  simp only [get?_insertWhere_nil _ _ _ _ _ hout]
  simp [hf]

theorem sameSignature_iff (env : Env) (fields : List Field)
    (hin : (fields.map Field.GoName).Nodup) (f : Field) :
    sameSignature env (indexFields fields) f = true ↔
      ∃ g ∈ fields, g.GoName = f.GoName ∧ fieldGoType env g = fieldGoType env f := by
  unfold sameSignature
  cases h : (indexFields fields).get? f.GoName with
  | none =>
    simp only [Bool.false_eq_true, false_iff]
    rintro ⟨g, hg, hk, -⟩
    have := (get?_indexFields fields f.GoName g hin).2 ⟨hg, hk⟩
    simp [h] at this
  | some i =>
    have hi := (get?_indexFields fields f.GoName i hin).1 h
    simp only [beq_iff_eq]
    constructor
    · intro ht
      exact ⟨i, hi.1, hi.2, ht⟩
    · rintro ⟨g, hg, hk, ht⟩
      have := (get?_indexFields fields f.GoName g hin).2 ⟨hg, hk⟩
      rw [h] at this
      cases this
      exact ht

theorem otherSignature_iff (env : Env) (fields : List Field)
    (hin : (fields.map Field.GoName).Nodup) (f : Field) :
    otherSignature env (indexFields fields) f = true ↔
      ∃ g ∈ fields, g.GoName = f.GoName ∧ fieldGoType env g ≠ fieldGoType env f := by
  unfold otherSignature
  cases h : (indexFields fields).get? f.GoName with
  | none =>
    simp only [Bool.false_eq_true, false_iff]
    rintro ⟨g, hg, hk, -⟩
    have := (get?_indexFields fields f.GoName g hin).2 ⟨hg, hk⟩
    simp [h] at this
  | some i =>
    have hi := (get?_indexFields fields f.GoName i hin).1 h
    simp only [bne_iff_ne]
    constructor
    · intro ht
      exact ⟨i, hi.1, hi.2, ht⟩
    · rintro ⟨g, hg, hk, ht⟩
      have := (get?_indexFields fields f.GoName g hin).2 ⟨hg, hk⟩
      rw [h] at this
      cases this
      exact ht

/-- C2. For records with name-unique fields and an output field `f`: `f` is classified
extra iff no input field has its name; common iff an input field has its name and the same
`fieldGoType`; changed iff an input field has its name and another `fieldGoType`.  In
particular a pair of same-named enum fields (enum fields are never weak and never maps)
whose enums have different qualified identifiers is classified changed. -/
theorem classifyFields_by_signature (env : Env) (inMsg outMsg : Message)
    (hin : (inMsg.Fields.map Field.GoName).Nodup)
    (hout : (outMsg.Fields.map Field.GoName).Nodup) (f : Field) (hf : f ∈ outMsg.Fields) :
    ((classifyFields env inMsg outMsg).extraFields.get? f.GoName = some f ↔
        ∀ g ∈ inMsg.Fields, g.GoName ≠ f.GoName) ∧
    ((classifyFields env inMsg outMsg).commonFields.get? f.GoName = some f ↔
        ∃ g ∈ inMsg.Fields, g.GoName = f.GoName ∧ fieldGoType env g = fieldGoType env f) ∧
    ((classifyFields env inMsg outMsg).changedFields.get? f.GoName = some f ↔
        ∃ g ∈ inMsg.Fields, g.GoName = f.GoName ∧ fieldGoType env g ≠ fieldGoType env f) ∧
    (∀ g ∈ inMsg.Fields, g.GoName = f.GoName → ∀ a b : GoIdent,
        g.Kind = .EnumKind a → f.Kind = .EnumKind b →
        g.IsWeak = false → f.IsWeak = false → g.MapEntry = none → f.MapEntry = none →
        beginsWithTypeOperator (env.QualifiedGoIdent a) = false →
        beginsWithTypeOperator (env.QualifiedGoIdent b) = false →
        env.QualifiedGoIdent a ≠ env.QualifiedGoIdent b →
        (classifyFields env inMsg outMsg).changedFields.get? f.GoName = some f ∧
        (classifyFields env inMsg outMsg).commonFields.has f.GoName = false ∧
        (classifyFields env inMsg outMsg).extraFields.has f.GoName = false) := by
  obtain ⟨hx, hc, hd⟩ := classifyFields_get?_out env inMsg outMsg hout f hf
  have hchanged := hd.trans (otherSignature_iff env inMsg.Fields hin f)
  refine ⟨?_, hc.trans (sameSignature_iff env inMsg.Fields hin f), hchanged, ?_⟩
  · rw [hx, ← Bool.not_eq_true, has_indexFields]
    simp
  · intro g hg hk a b hga hfb hgw hfw hgm hfm ha hb hab
    have hch : (classifyFields env inMsg outMsg).changedFields.get? f.GoName = some f := by
      refine hchanged.2 ⟨g, hg, hk, ?_⟩
      rw [fieldGoType_plain env g hgw hgm, fieldGoType_plain env f hfw hfm, hga, hfb]
      have := wrapped_ident_ne _ _ ha hb hab g.IsList g.HasPresence f.IsList f.HasPresence
      cases hgl : g.IsList <;> cases hfl : f.IsList <;> simpa [hgl, hfl] using this
    have hpart := classifyFields_exclusive env inMsg outMsg hout f.GoName
    have hhas : (classifyFields env inMsg outMsg).changedFields.has f.GoName = true := by
      simp [GoMap.has, hch]
    refine ⟨hch, ?_, ?_⟩
    · rw [← Bool.not_eq_true]
      exact fun h => hpart.1 ⟨h, hhas⟩
    · rw [← Bool.not_eq_true]
      exact fun h => hpart.2.2 ⟨hhas, h⟩

/-- Witness of C2 on scenario B: the `Status` field is classified changed. -/
theorem classifyFields_by_signature_witness :
    (classifyFields (exampleEnv "example.com/pb") statusV1 statusV2).changedFields.get? "Status"
        = some (plainField "Status" (.EnumKind ⟨"EnumB", "example.com/pb"⟩)) ∧
    (classifyFields (exampleEnv "example.com/pb") statusV1 statusV2).commonFields.has "Status"
        = false ∧
    (classifyFields (exampleEnv "example.com/pb") statusV1 statusV2).extraFields.has "Status"
        = false :=
  (classifyFields_by_signature (exampleEnv "example.com/pb") statusV1 statusV2
    (by decide) (by decide) (plainField "Status" (.EnumKind ⟨"EnumB", "example.com/pb"⟩))
    (List.mem_cons_self _ _)).2.2.2
    (plainField "Status" (.EnumKind ⟨"EnumA", "example.com/pb"⟩)) (List.mem_cons_self _ _) rfl
    ⟨"EnumA", "example.com/pb"⟩ ⟨"EnumB", "example.com/pb"⟩ rfl rfl rfl rfl rfl rfl
    (by decide) (by decide) (by decide)

/-! ## C3: classification of enum values -/

theorem indexValues_eq (values : List EnumValue) :
    indexValues values = insertWhere EnumValue.Name (fun _ => true) values [] := by
  simp [indexValues, insertWhere]

theorem collectMissingValues_eq (outFields : GoMap EnumValue) (values : List EnumValue) :
    collectMissingValues outFields values =
      insertWhere EnumValue.Name (fun f => !outFields.has f.Name) values [] := by
  unfold collectMissingValues insertWhere
  congr 1
  funext m f
  cases h : outFields.has f.Name <;> simp [h]

theorem foldl_classifyOutValue (inFields : GoMap EnumValue) (values : List EnumValue)
    (s : OutValueLoop) :
    values.foldl (classifyOutValue inFields) s =
      { outFields := insertWhere EnumValue.Name (fun _ => true) values s.outFields
        extraFields :=
          insertWhere EnumValue.Name (fun f => !inFields.has f.Name) values s.extraFields
        commonFields :=
          insertWhere EnumValue.Name (fun f => inFields.has f.Name) values s.commonFields } := by
  induction values generalizing s with
  | nil => rfl
  | cons f values ih =>
    rw [List.foldl_cons, ih]
    simp only [insertWhere_cons]
    unfold classifyOutValue
    cases h : inFields.has f.Name <;> simp [h]

/-- The five maps of `classifyValues`, in closed form. -/
theorem classifyValues_eq (inEnum outEnum : Enum) :
    classifyValues inEnum outEnum =
      { inFields := insertWhere EnumValue.Name (fun _ => true) inEnum.Values []
        outFields := insertWhere EnumValue.Name (fun _ => true) outEnum.Values []
        extraFields :=
          insertWhere EnumValue.Name (fun f => !(indexValues inEnum.Values).has f.Name)
            outEnum.Values []
        commonFields :=
          insertWhere EnumValue.Name (fun f => (indexValues inEnum.Values).has f.Name)
            outEnum.Values []
        missingFields :=
          insertWhere EnumValue.Name
            (fun f => !(insertWhere EnumValue.Name (fun _ => true) outEnum.Values []).has f.Name)
            inEnum.Values [] } := by
  unfold classifyValues
  simp only [foldl_classifyOutValue, collectMissingValues_eq, indexValues_eq]

theorem has_allValues (values : List EnumValue) (n : String) :
    (insertWhere EnumValue.Name (fun _ => true) values []).has n = true ↔
      n ∈ values.map EnumValue.Name := by
  rw [has_insertWhere_nil]
  simp

theorem flatMap_ite_singleton {α β : Type} (l : List α) (p q : α → Bool) (g : α → β)
    (h : ∀ a ∈ l, p a = q a) :
    (l.flatMap fun a => if p a = true then [g a] else []) = (l.filter q).map g := by
  induction l with
  | nil => rfl
  | cons a l ih =>
    rw [List.flatMap_cons, ih (fun b hb => h b (List.mem_cons_of_mem _ hb)),
      h a (List.mem_cons_self _ _)]
    cases hq : q a <;> simp [List.filter_cons, hq]

theorem missingValue_has (inEnum outEnum : Enum) (v : EnumValue) (hv : v ∈ inEnum.Values) :
    (classifyValues inEnum outEnum).missingFields.has v.Name =
      !(outEnum.Values.map EnumValue.Name).contains v.Name := by
  rw [classifyValues_eq]
  simp only
  rw [Bool.eq_iff_iff, has_insertWhere_nil]
  constructor
  · rintro ⟨w, -, hk, hw⟩
    rw [hk, Bool.not_eq_true', ← Bool.not_eq_true, has_allValues] at hw
    simpa using hw
  · intro h
    refine ⟨v, hv, rfl, ?_⟩
    rw [Bool.not_eq_true', ← Bool.not_eq_true, has_allValues]
    simpa using h

/-- C3. For enums with name-unique values, `convertEnum` puts each output value in
exactly one of `common` (some input value has its name) or `extra` (none has); `missing`
maps a name to an input value iff that value has this name and no output value has it; and
the constructor takes, after the override hook, one acknowledgment parameter for each
input value that is missing, in declaration order.  For the input values `A`, `B`, `C`
and the output values `A`, `B`: `common` has the keys `A` and `B`, `extra` has no key,
`missing` has the key `C`, and the only acknowledgment parameter is the one for `C`. -/
theorem classifyValues_partition (env : Env) (inEnum outEnum : Enum)
    (hin : (inEnum.Values.map EnumValue.Name).Nodup)
    (hout : (outEnum.Values.map EnumValue.Name).Nodup) :
    (∀ v ∈ outEnum.Values,
        ((classifyValues inEnum outEnum).commonFields.get? v.Name = some v ∧
          (classifyValues inEnum outEnum).extraFields.has v.Name = false ∧
          ∃ w ∈ inEnum.Values, w.Name = v.Name) ∨
        ((classifyValues inEnum outEnum).extraFields.get? v.Name = some v ∧
          (classifyValues inEnum outEnum).commonFields.has v.Name = false ∧
          ∀ w ∈ inEnum.Values, w.Name ≠ v.Name)) ∧
    (∀ n v, ((classifyValues inEnum outEnum).commonFields.get? n = some v ∨
             (classifyValues inEnum outEnum).extraFields.get? n = some v) →
          v ∈ outEnum.Values ∧ v.Name = n) ∧
    (∀ n v, (classifyValues inEnum outEnum).missingFields.get? n = some v ↔
          (v ∈ inEnum.Values ∧ v.Name = n ∧ n ∉ outEnum.Values.map EnumValue.Name)) ∧
    (∃ rest,
        enumConstructorDecl env (classifyValues inEnum outEnum) inEnum outEnum =
          [[lit "func New", val (encoderEnumName env inEnum outEnum), lit "[T any]("],
           [lit "extraEncoder Extra",
            val (upperFirst env (encoderEnumName env inEnum outEnum)), lit "[T],"]] ++
          ((inEnum.Values.filter
              fun v => !(outEnum.Values.map EnumValue.Name).contains v.Name).map
            fun v => [val v.Name, lit " ", val (ackMissingEnumName env outEnum v), lit ","]) ++
          [[lit ") *", val (encoderEnumName env inEnum outEnum), lit "[T] \x7b"]] ++ rest) ∧
    ((∀ n, (classifyValues enumABC enumAB).commonFields.has n = true ↔ n = "A" ∨ n = "B") ∧
     (∀ n, (classifyValues enumABC enumAB).extraFields.has n = false) ∧
     (∀ n, (classifyValues enumABC enumAB).missingFields.has n = true ↔ n = "C") ∧
     enumAckParams (exampleEnv "example.com/pb") (classifyValues enumABC enumAB) enumABC enumAB =
       [[val "C", lit " ", val "EnumOutEnumIn_CAckMissing", lit ","]]) := by
  refine ⟨?_, ?_, ?_, ?_, ?_⟩
  · intro v hv
    rw [classifyValues_eq]
    simp only [get?_insertWhere_nil _ _ _ _ _ hout]
    cases h : (indexValues inEnum.Values).has v.Name
    · right
      refine ⟨⟨hv, trivial, by simp [h]⟩, ?_, ?_⟩
      · rw [← Bool.not_eq_true, has_insertWhere_nil]
        rintro ⟨w, hw, hk, hp⟩
        rw [hk, h] at hp
        exact absurd hp (by simp)
      · intro w hw hk
        have : (indexValues inEnum.Values).has v.Name = true := by
          rw [indexValues_eq, has_allValues]
          exact List.mem_map.2 ⟨w, hw, hk⟩
        simp [h] at this
    · left
      refine ⟨⟨hv, trivial, by simp⟩, ?_, ?_⟩
      · rw [← Bool.not_eq_true, has_insertWhere_nil]
        rintro ⟨w, hw, hk, hp⟩
        rw [hk, h] at hp
        exact absurd hp (by simp)
      · rw [indexValues_eq, has_allValues] at h
        obtain ⟨w, hw, hk⟩ := List.mem_map.1 h
        exact ⟨w, hw, hk⟩
  · intro n v
    rw [classifyValues_eq]
    simp only [get?_insertWhere_nil _ _ _ _ _ hout]
    rintro (⟨hv, h, -⟩ | ⟨hv, h, -⟩) <;> exact ⟨hv, h⟩
  · intro n v
    rw [classifyValues_eq]
    simp only
    rw [get?_insertWhere_nil _ _ _ _ _ hin]
    have hiff : (!(insertWhere EnumValue.Name (fun _ => true) outEnum.Values []).has v.Name)
        = true ↔ v.Name ∉ outEnum.Values.map EnumValue.Name := by
      rw [← has_allValues]
      simp
    constructor
    · rintro ⟨hv, rfl, h⟩
      exact ⟨hv, rfl, hiff.1 h⟩
    · rintro ⟨hv, rfl, h⟩
      exact ⟨hv, rfl, hiff.2 h⟩
  · refine ⟨[[lit "return &", val (encoderEnumName env inEnum outEnum), lit "[T]\x7b"],
      [lit "ExtraEncoder: extraEncoder,"], [lit "\x7d"], [lit "\x7d"], []], ?_⟩
    have hparams : enumAckParams env (classifyValues inEnum outEnum) inEnum outEnum =
        (inEnum.Values.filter
            fun v => !(outEnum.Values.map EnumValue.Name).contains v.Name).map
          fun v => [val v.Name, lit " ", val (ackMissingEnumName env outEnum v), lit ","] := by
      unfold enumAckParams P
      exact flatMap_ite_singleton _ _ _ _ (fun v hv => missingValue_has inEnum outEnum v hv)
    unfold enumConstructorDecl
    rw [hparams]
    simp only [P, List.append_assoc, List.cons_append, List.nil_append]
  · have hc : (classifyValues enumABC enumAB).commonFields =
        [("B", enumValue "EnumOut" "B"), ("A", enumValue "EnumOut" "A")] := by decide
    have hx : (classifyValues enumABC enumAB).extraFields = [] := by decide
    have hm : (classifyValues enumABC enumAB).missingFields =
        [("C", enumValue "EnumIn" "C")] := by decide
    refine ⟨?_, ?_, ?_, by decide⟩
    · intro n
      rw [hc]
      by_cases hB : n = "B"
      · simp [GoMap.has, GoMap.get?, List.lookup, hB]
      · by_cases hA : n = "A"
        · subst hA
          decide
        · have h1 : (n == "B") = false := by simpa using hB
          have h2 : (n == "A") = false := by simpa using hA
          simp [GoMap.has, GoMap.get?, List.lookup, h1, h2, hA, hB]
    · intro n
      rw [hx]
      rfl
    · intro n
      rw [hm]
      by_cases hC : n = "C"
      · simp [GoMap.has, GoMap.get?, List.lookup, hC]
      · have h1 : (n == "C") = false := by simpa using hC
        simp [GoMap.has, GoMap.get?, List.lookup, h1, hC]

/-- Witness of C3 on scenario C: the value `C` is missing. -/
theorem classifyValues_partition_witness :
    (classifyValues enumABC enumAB).missingFields.get? "C" = some (enumValue "EnumIn" "C") ↔
      (enumValue "EnumIn" "C" ∈ enumABC.Values ∧ (enumValue "EnumIn" "C").Name = "C" ∧
        "C" ∉ enumAB.Values.map EnumValue.Name) :=
  (classifyValues_partition (exampleEnv "example.com/pb") enumABC enumAB
    (by decide) (by decide)).2.2.1 "C" (enumValue "EnumIn" "C")

/-- Presence tracking changes the signature of a scalar field that is not of bytes kind. -/
theorem presence_signature_ne (env : Env) (a b : Field) (hkind : b.Kind = a.Kind)
    (hscalar : a.Kind.isScalar = true) (hbytes : a.Kind ≠ .BytesKind)
    (haw : a.IsWeak = false) (hal : a.IsList = false) (ham : a.MapEntry = none)
    (hbw : b.IsWeak = false) (hbl : b.IsList = false) (hbm : b.MapEntry = none)
    (hap : a.HasPresence = false) (hbp : b.HasPresence = true) :
    fieldGoType env a ≠ fieldGoType env b := by
  rw [fieldGoType_plain env a haw ham, fieldGoType_plain env b hbw hbm, hkind, hal, hbl, hap,
    hbp]
  cases hk : a.Kind <;> simp only [if_true, if_false, Bool.false_eq_true] <;>
    first
    | exact (star_append_ne _).symm
    | exact absurd hk hbytes
    | (rw [hk] at hscalar; simp [Kind.isScalar] at hscalar)

/-- A list field never has the signature of a field of its kind that is not a list. -/
theorem list_signature_ne (env : Env) (a b : Field) (hkind : b.Kind = a.Kind)
    (haw : a.IsWeak = false) (hal : a.IsList = false) (ham : a.MapEntry = none)
    (hap : a.HasPresence = false)
    (hbw : b.IsWeak = false) (hbl : b.IsList = true) (hbm : b.MapEntry = none) :
    fieldGoType env a ≠ fieldGoType env b := by
  rw [fieldGoType_plain env a haw ham, fieldGoType_plain env b hbw hbm, hkind, hal, hbl, hap]
  cases hk : a.Kind <;> simp only [if_true, if_false, Bool.false_eq_true] <;>
    exact (slice_append_ne _).symm

/-- A field with an input field of its name and another signature is classified changed
and not common. -/
theorem changed_of_signature_ne (env : Env) (inMsg outMsg : Message)
    (hin : (inMsg.Fields.map Field.GoName).Nodup)
    (hout : (outMsg.Fields.map Field.GoName).Nodup)
    (g f : Field) (hg : g ∈ inMsg.Fields) (hf : f ∈ outMsg.Fields)
    (hname : g.GoName = f.GoName) (hne : fieldGoType env g ≠ fieldGoType env f) :
    (classifyFields env inMsg outMsg).changedFields.get? f.GoName = some f ∧
    (classifyFields env inMsg outMsg).commonFields.has f.GoName = false := by
  obtain ⟨-, -, hd⟩ := classifyFields_get?_out env inMsg outMsg hout f hf
  have hch : (classifyFields env inMsg outMsg).changedFields.get? f.GoName = some f :=
    (hd.trans (otherSignature_iff env inMsg.Fields hin f)).2 ⟨g, hg, hname, hne⟩
  refine ⟨hch, ?_⟩
  have hhas : (classifyFields env inMsg outMsg).changedFields.has f.GoName = true := by
    simp [GoMap.has, hch]
  rw [← Bool.not_eq_true]
  exact fun h => (classifyFields_exclusive env inMsg outMsg hout f.GoName).1 ⟨h, hhas⟩

/-! ## C4: wrapping a scalar changes the signature, except presence on bytes -/

/-- C4, counterexample. The input field `data` is a plain bytes scalar and the output field
`data` is the same kind with presence tracking; both have the signature `[]byte`, and the
field is classified common, not changed. -/
theorem optional_bytes_classified_common :
    (plainField "Data" .BytesKind).Kind = .BytesKind ∧
    (plainField "Data" .BytesKind).HasPresence = false ∧
    (plainField "Data" .BytesKind).IsList = false ∧
    (plainField "Data" .BytesKind).IsMap = false ∧
    (optionalField "Data" .BytesKind).Kind = .BytesKind ∧
    (optionalField "Data" .BytesKind).HasPresence = true ∧
    fieldGoType (exampleEnv "example.com/pb") (plainField "Data" .BytesKind) = "[]byte" ∧
    fieldGoType (exampleEnv "example.com/pb") (optionalField "Data" .BytesKind) = "[]byte" ∧
    (classifyFields (exampleEnv "example.com/pb") blobV1 blobV2).commonFields.get? "Data" =
      some (optionalField "Data" .BytesKind) ∧
    (classifyFields (exampleEnv "example.com/pb") blobV1 blobV2).changedFields.has "Data" =
      false :=
  ⟨rfl, rfl, rfl, rfl, rfl, rfl, by decide, by decide, rfl, by decide⟩

/-- C4, amended. For records with name-unique fields and a pair of same-named fields where
the input field is a plain scalar (never weak, no presence tracking, not a list, not a
map) and the output field has the same kind and is either a list, or has presence tracking
and is not of bytes kind: the signatures differ and the field is classified changed, not
common. -/
theorem scalar_wrapping_classified_changed (env : Env) (inMsg outMsg : Message)
    (hin : (inMsg.Fields.map Field.GoName).Nodup)
    (hout : (outMsg.Fields.map Field.GoName).Nodup)
    (g f : Field) (hg : g ∈ inMsg.Fields) (hf : f ∈ outMsg.Fields)
    (hname : g.GoName = f.GoName)
    (hscalar : g.Kind.isScalar = true) (hgw : g.IsWeak = false)
    (hgp : g.HasPresence = false) (hgl : g.IsList = false) (hgm : g.MapEntry = none)
    (hkind : f.Kind = g.Kind) (hfw : f.IsWeak = false) (hfm : f.MapEntry = none)
    (hwrap : f.IsList = true ∨
      (f.IsList = false ∧ f.HasPresence = true ∧ f.Kind ≠ .BytesKind)) :
    fieldGoType env g ≠ fieldGoType env f ∧
    (classifyFields env inMsg outMsg).changedFields.get? f.GoName = some f ∧
    (classifyFields env inMsg outMsg).commonFields.has f.GoName = false := by
  have hne : fieldGoType env g ≠ fieldGoType env f := by
    rcases hwrap with hl | ⟨hl, hp, hb⟩
    · exact list_signature_ne env g f hkind hgw hgl hgm hgp hfw hl hfm
    · exact presence_signature_ne env g f hkind hscalar (hkind ▸ hb) hgw hgl hgm hfw hl hfm
        hgp hp
  exact ⟨hne, changed_of_signature_ne env inMsg outMsg hin hout g f hg hf hname hne⟩

/-- Witness of the amended C4: `int32` against `optional int32`. -/
theorem scalar_wrapping_classified_changed_witness :
    fieldGoType (exampleEnv "example.com/pb") (plainField "Count" .Int32Kind) ≠
      fieldGoType (exampleEnv "example.com/pb") (optionalField "Count" .Int32Kind) ∧
    (classifyFields (exampleEnv "example.com/pb") countV1 countV2).changedFields.get?
        (optionalField "Count" .Int32Kind).GoName = some (optionalField "Count" .Int32Kind) ∧
    (classifyFields (exampleEnv "example.com/pb") countV1 countV2).commonFields.has
        (optionalField "Count" .Int32Kind).GoName = false :=
  scalar_wrapping_classified_changed (exampleEnv "example.com/pb") countV1 countV2
    (by decide) (by decide) (plainField "Count" .Int32Kind) (optionalField "Count" .Int32Kind)
    (List.mem_cons_self _ _) (List.mem_cons_self _ _) rfl rfl rfl rfl rfl rfl rfl rfl rfl
    (Or.inr ⟨rfl, rfl, by decide⟩)

/-! ## C5: moving a field into or out of a oneof -/

/-- C5, counterexample. The input field `payload` is a message field outside any oneof,
the output field `payload` is the same message field inside the oneof `body`; both have
the signature `*Payload`, and the field is classified common, not changed. -/
theorem oneof_message_classified_common :
    payloadField.GoName = payloadInBody.GoName ∧
    payloadField.Kind = payloadInBody.Kind ∧
    payloadField.Oneof = none ∧
    payloadInBody.Oneof = some ⟨"Body"⟩ ∧
    fieldGoType (exampleEnv "example.com/pb") payloadField = "*Payload" ∧
    fieldGoType (exampleEnv "example.com/pb") payloadInBody = "*Payload" ∧
    (classifyFields (exampleEnv "example.com/pb") mailV1 mailV2).commonFields.get? "Payload" =
      some payloadInBody ∧
    (classifyFields (exampleEnv "example.com/pb") mailV1 mailV2).changedFields.has "Payload" =
      false :=
  ⟨rfl, rfl, rfl, rfl, by decide, by decide, rfl, by decide⟩

/-- C5, amended. For records with name-unique fields and a pair of same-named fields of the
same scalar kind other than bytes (never weak, not a list, not a map), exactly one of which
belongs to a oneof, where the member of the oneof has presence tracking and the other field
has none: the signatures differ and the field is classified changed, not common. -/
theorem oneof_move_classified_changed (env : Env) (inMsg outMsg : Message)
    (hin : (inMsg.Fields.map Field.GoName).Nodup)
    (hout : (outMsg.Fields.map Field.GoName).Nodup)
    (g f : Field) (hg : g ∈ inMsg.Fields) (hf : f ∈ outMsg.Fields)
    (hname : g.GoName = f.GoName) (hkind : f.Kind = g.Kind)
    (hscalar : g.Kind.isScalar = true) (hbytes : g.Kind ≠ .BytesKind)
    (hgw : g.IsWeak = false) (hgl : g.IsList = false) (hgm : g.MapEntry = none)
    (hfw : f.IsWeak = false) (hfl : f.IsList = false) (hfm : f.MapEntry = none)
    (hmove :
      (g.Oneof = none ∧ f.Oneof ≠ none ∧ g.HasPresence = false ∧ f.HasPresence = true) ∨
      (g.Oneof ≠ none ∧ f.Oneof = none ∧ g.HasPresence = true ∧ f.HasPresence = false)) :
    fieldGoType env g ≠ fieldGoType env f ∧
    (classifyFields env inMsg outMsg).changedFields.get? f.GoName = some f ∧
    (classifyFields env inMsg outMsg).commonFields.has f.GoName = false := by
  have hne : fieldGoType env g ≠ fieldGoType env f := by
    rcases hmove with ⟨-, -, hgp, hfp⟩ | ⟨-, -, hgp, hfp⟩
    · exact presence_signature_ne env g f hkind hscalar hbytes hgw hgl hgm hfw hfl hfm hgp hfp
    · exact (presence_signature_ne env f g hkind.symm (hkind ▸ hscalar) (hkind ▸ hbytes)
        hfw hfl hfm hgw hgl hgm hfp hgp).symm
  exact ⟨hne, changed_of_signature_ne env inMsg outMsg hin hout g f hg hf hname hne⟩

/-- Witness of the amended C5: a plain string field moved into a oneof. -/
theorem oneof_move_classified_changed_witness :
    fieldGoType (exampleEnv "example.com/pb") (plainField "Nick" .StringKind) ≠
      fieldGoType (exampleEnv "example.com/pb") nickInAlias ∧
    (classifyFields (exampleEnv "example.com/pb") nickV1 nickV2).changedFields.get?
        nickInAlias.GoName = some nickInAlias ∧
    (classifyFields (exampleEnv "example.com/pb") nickV1 nickV2).commonFields.has
        nickInAlias.GoName = false :=
  oneof_move_classified_changed (exampleEnv "example.com/pb") nickV1 nickV2
    (by decide) (by decide) (plainField "Nick" .StringKind) nickInAlias
    (List.mem_cons_self _ _) (List.mem_cons_self _ _) rfl rfl rfl (by decide) rfl rfl rfl
    rfl rfl rfl (Or.inl ⟨rfl, by decide, rfl, rfl⟩)

/-! ## `convertMessage` never panics -/

theorem changed_has_out (env : Env) (inMsg outMsg : Message) (n : String)
    (h : (classifyFields env inMsg outMsg).changedFields.has n = true) :
    ∃ o, (classifyFields env inMsg outMsg).outFields.get? n = some o := by
  rw [classifyFields_eq] at h ⊢
  simp only at h ⊢
  rw [has_insertWhere_nil] at h
  obtain ⟨f, hf, hk, -⟩ := h
  have : (insertWhere Field.GoName (fun _ => true) outMsg.Fields []).has n = true :=
    (has_allFields _ _).2 (List.mem_map.2 ⟨f, hf, hk⟩)
  exact Option.isSome_iff_exists.1 this

theorem changedAndMissingTypes_some (env : Env) (inMsg outMsg : Message)
    (fields : List Field) :
    ∃ types, changedAndMissingTypes env (classifyFields env inMsg outMsg) outMsg fields =
      some types := by
  induction fields with
  | nil => exact ⟨[], rfl⟩
  | cons f fields ih =>
    obtain ⟨r, hr⟩ := ih
    unfold changedAndMissingTypes
    rw [hr]
    cases hc : (classifyFields env inMsg outMsg).changedFields.has f.GoName
    · simp
    · obtain ⟨o, ho⟩ := changed_has_out env inMsg outMsg f.GoName hc
      simp [ho]

/-- The result of `convertMessage`: the file with the five groups of declarations
appended. -/
theorem convertMessage_ok (env : Env) (inMsg outMsg : Message) (g : GeneratedFile) :
    ∃ types, convertMessage env inMsg outMsg g =
      .ok (g ++ types ++ extraTypes env (classifyFields env inMsg outMsg) outMsg ++
        encoderStruct env (classifyFields env inMsg outMsg) inMsg outMsg ++
        constructorDecl env (classifyFields env inMsg outMsg) inMsg outMsg ++
        encodeMethod env (classifyFields env inMsg outMsg) inMsg outMsg) := by
  obtain ⟨types, h⟩ := changedAndMissingTypes_some env inMsg outMsg inMsg.Fields
  exact ⟨types, by simp [convertMessage, h]⟩

/-! ## C6: the parameters of the constructor -/

/-- Where the keys of the four classes lie. -/
theorem classifyFields_has (env : Env) (inMsg outMsg : Message) (n : String) :
    ((classifyFields env inMsg outMsg).changedFields.has n = true →
        n ∈ inMsg.Fields.map Field.GoName ∧ n ∈ outMsg.Fields.map Field.GoName) ∧
    ((classifyFields env inMsg outMsg).commonFields.has n = true →
        n ∈ inMsg.Fields.map Field.GoName ∧ n ∈ outMsg.Fields.map Field.GoName) ∧
    ((classifyFields env inMsg outMsg).extraFields.has n = true ↔
        n ∈ outMsg.Fields.map Field.GoName ∧ n ∉ inMsg.Fields.map Field.GoName) ∧
    ((classifyFields env inMsg outMsg).missingFields.has n = true ↔
        n ∈ inMsg.Fields.map Field.GoName ∧ n ∉ outMsg.Fields.map Field.GoName) := by
  rw [classifyFields_eq]
  simp only [has_insertWhere_nil]
  refine ⟨?_, ?_, ?_, ?_⟩
  · rintro ⟨f, hf, rfl, h⟩
    exact ⟨(has_indexFields _ _).1 (otherSignature_has env _ f h), List.mem_map.2 ⟨f, hf, rfl⟩⟩
  · rintro ⟨f, hf, rfl, h⟩
    exact ⟨(has_indexFields _ _).1 (sameSignature_has env _ f h), List.mem_map.2 ⟨f, hf, rfl⟩⟩
  · constructor
    · rintro ⟨f, hf, rfl, h⟩
      refine ⟨List.mem_map.2 ⟨f, hf, rfl⟩, ?_⟩
      rw [← has_indexFields]
      simpa using h
    · rintro ⟨h1, h2⟩
      obtain ⟨f, hf, rfl⟩ := List.mem_map.1 h1
      refine ⟨f, hf, rfl, ?_⟩
      rw [← has_indexFields] at h2
      simpa using h2
  · constructor
    · rintro ⟨f, hf, rfl, h⟩
      refine ⟨List.mem_map.2 ⟨f, hf, rfl⟩, ?_⟩
      rw [← has_allFields]
      simpa using h
    · rintro ⟨h1, h2⟩
      obtain ⟨f, hf, rfl⟩ := List.mem_map.1 h1
      refine ⟨f, hf, rfl, ?_⟩
      rw [← has_allFields] at h2
      simpa using h2

theorem flatMap_two_singletons {α β : Type} (l : List α) (p q : α → Bool) (g h : α → β)
    (hpq : ∀ a ∈ l, ¬ (p a = true ∧ q a = true)) :
    (l.flatMap fun a =>
        (if p a = true then [g a] else []) ++ (if q a = true then [h a] else [])) =
      (l.filter fun a => p a || q a).map fun a => if p a = true then g a else h a := by
  induction l with
  | nil => rfl
  | cons a l ih =>
    rw [List.flatMap_cons, ih (fun b hb => hpq b (List.mem_cons_of_mem _ hb))]
    have := hpq a (List.mem_cons_self _ _)
    cases hp : p a <;> cases hq : q a <;> simp_all [List.filter_cons]

theorem flatMap_unless_singleton {α β : Type} (l : List α) (p : α → Bool) (g : α → β) :
    (l.flatMap fun a => if (!p a) = true then [] else [g a]) = (l.filter p).map g := by
  induction l with
  | nil => rfl
  | cons a l ih =>
    rw [List.flatMap_cons, ih]
    cases hp : p a <;> simp [List.filter_cons, hp]

/-- The parameter lines of the constructor, in closed form. -/
theorem constructorParams_eq (env : Env) (inMsg outMsg : Message) :
    constructorParams env (classifyFields env inMsg outMsg) inMsg outMsg =
      ((inMsg.Fields.filter fun f =>
          (classifyFields env inMsg outMsg).changedFields.has f.GoName ||
          (classifyFields env inMsg outMsg).missingFields.has f.GoName).map fun f =>
        if (classifyFields env inMsg outMsg).changedFields.has f.GoName = true then
          [val f.GoName, lit " ", val (fieldEncoderName env outMsg f), lit "[T],"]
        else [val f.GoName, lit " ", val (ackMissingName env outMsg f), lit ","]) ++
      ((outMsg.Fields.filter fun f =>
          (classifyFields env inMsg outMsg).extraFields.has f.GoName).map fun f =>
        [val f.GoName, lit " ", val (fieldEncoderName env outMsg f), lit "[T],"]) := by
  unfold constructorParams P
  rw [flatMap_two_singletons, flatMap_unless_singleton]
  intro f _ h
  have h1 := ((classifyFields_has env inMsg outMsg f.GoName).1 h.1).2
  have h2 := ((classifyFields_has env inMsg outMsg f.GoName).2.2.2.1 h.2).2
  exact h2 h1

/-- C6. For records with name-unique fields, the lines printed between
`func New<Input>To<Output>Encoder[T any](` and `) *<Input>To<Output>Encoder[T] {` are: one
line for each input field classified changed (its function type) or missing (its
acknowledgment type), in input declaration order, followed by one line for each output
field classified extra, in output declaration order.  The names of these parameters are
pairwise distinct, a name occurs among them iff it is a key of `changed`, `missing` or
`extra`, and no key of `common` occurs.  For the input `{id: int32, name: string}` and the
output `{id: int32, name: string, email: string}` the only parameter is
`Email UserV2EmailEncoder[T]`, whose type is declared as `func(T) (string, error)`. -/
theorem constructorParams_spec (env : Env) (inMsg outMsg : Message) (g : GeneratedFile)
    (hin : (inMsg.Fields.map Field.GoName).Nodup)
    (hout : (outMsg.Fields.map Field.GoName).Nodup) :
    (∃ pre post, convertMessage env inMsg outMsg g =
        .ok (pre ++ [[lit "func New", val (encoderName env inMsg outMsg), lit "[T any]("]] ++
          constructorParams env (classifyFields env inMsg outMsg) inMsg outMsg ++
          [[lit ") *", val (encoderName env inMsg outMsg), lit "[T] \x7b"]] ++ post)) ∧
    constructorParams env (classifyFields env inMsg outMsg) inMsg outMsg =
      ((changedOrMissing (classifyFields env inMsg outMsg) inMsg).map fun f =>
        if (classifyFields env inMsg outMsg).changedFields.has f.GoName = true then
          [val f.GoName, lit " ", val (fieldEncoderName env outMsg f), lit "[T],"]
        else [val f.GoName, lit " ", val (ackMissingName env outMsg f), lit ","]) ++
      ((extraOnly (classifyFields env inMsg outMsg) outMsg).map fun f =>
        [val f.GoName, lit " ", val (fieldEncoderName env outMsg f), lit "[T],"]) ∧
    ((changedOrMissing (classifyFields env inMsg outMsg) inMsg ++
        extraOnly (classifyFields env inMsg outMsg) outMsg).map Field.GoName).Nodup ∧
    (∀ n, n ∈ (changedOrMissing (classifyFields env inMsg outMsg) inMsg ++
          extraOnly (classifyFields env inMsg outMsg) outMsg).map Field.GoName ↔
        ((classifyFields env inMsg outMsg).changedFields.has n = true ∨
         (classifyFields env inMsg outMsg).missingFields.has n = true ∨
         (classifyFields env inMsg outMsg).extraFields.has n = true)) ∧
    (∀ n, (classifyFields env inMsg outMsg).commonFields.has n = true →
        n ∉ (changedOrMissing (classifyFields env inMsg outMsg) inMsg ++
          extraOnly (classifyFields env inMsg outMsg) outMsg).map Field.GoName) ∧
    (constructorParams (exampleEnv "example.com/pb")
        (classifyFields (exampleEnv "example.com/pb") userV1 userV2) userV1 userV2 =
        [[val "Email", lit " ", val "UserV2EmailEncoder", lit "[T],"]] ∧
     extraTypes (exampleEnv "example.com/pb")
        (classifyFields (exampleEnv "example.com/pb") userV1 userV2) userV2 =
        [[lit "type ", val "UserV2EmailEncoder", lit "[T any]", lit "func(T) (",
          val "string", lit ", error)"], []]) := by
  have hmem : ∀ n, n ∈ (changedOrMissing (classifyFields env inMsg outMsg) inMsg ++
          extraOnly (classifyFields env inMsg outMsg) outMsg).map Field.GoName ↔
        ((classifyFields env inMsg outMsg).changedFields.has n = true ∨
         (classifyFields env inMsg outMsg).missingFields.has n = true ∨
         (classifyFields env inMsg outMsg).extraFields.has n = true) := by
    intro n
    obtain ⟨hch, -, hex, hmi⟩ := classifyFields_has env inMsg outMsg n
    simp only [changedOrMissing, extraOnly, List.map_append, List.mem_append, List.mem_map,
      List.mem_filter, Bool.or_eq_true]
    constructor
    · rintro (⟨f, ⟨-, h | h⟩, rfl⟩ | ⟨f, ⟨-, h⟩, rfl⟩)
      · exact Or.inl h
      · exact Or.inr (Or.inl h)
      · exact Or.inr (Or.inr h)
    · rintro (h | h | h)
      · obtain ⟨f, hf, rfl⟩ := List.mem_map.1 (hch h).1
        exact Or.inl ⟨f, ⟨hf, Or.inl h⟩, rfl⟩
      · obtain ⟨f, hf, rfl⟩ := List.mem_map.1 (hmi.1 h).1
        exact Or.inl ⟨f, ⟨hf, Or.inr h⟩, rfl⟩
      · obtain ⟨f, hf, rfl⟩ := List.mem_map.1 (hex.1 h).1
        exact Or.inr ⟨f, ⟨hf, h⟩, rfl⟩
  refine ⟨?_, constructorParams_eq env inMsg outMsg, ?_, hmem, ?_, by decide, by decide⟩
  · obtain ⟨types, h⟩ := convertMessage_ok env inMsg outMsg g
    refine ⟨g ++ types ++ extraTypes env (classifyFields env inMsg outMsg) outMsg ++
        encoderStruct env (classifyFields env inMsg outMsg) inMsg outMsg,
      [[lit "return &", val (encoderName env inMsg outMsg), lit "[T]\x7b"]] ++
        constructorMembers env (classifyFields env inMsg outMsg) outMsg ++
        [[lit "\x7d"], [lit "\x7d"], []] ++
        encodeMethod env (classifyFields env inMsg outMsg) inMsg outMsg, ?_⟩
    rw [h]
    simp only [constructorDecl, P, List.append_assoc, List.cons_append, List.nil_append]
  · rw [List.map_append, List.nodup_append]
    refine ⟨hin.sublist ((List.filter_sublist _).map _),
      hout.sublist ((List.filter_sublist _).map _), ?_⟩
    intro n h1 h2
    simp only [changedOrMissing, extraOnly, List.mem_map, List.mem_filter,
      Bool.or_eq_true] at h1 h2
    obtain ⟨f, ⟨hf, -⟩, rfl⟩ := h1
    obtain ⟨f', ⟨-, hx⟩, hk⟩ := h2
    rw [hk] at hx
    exact ((classifyFields_has env inMsg outMsg f.GoName).2.2.1.1 hx).2
      (List.mem_map.2 ⟨f, hf, rfl⟩)
  · intro n hc hn
    have hcm := (classifyFields_has env inMsg outMsg n).2.1 hc
    rcases (hmem n).1 hn with h | h | h
    · exact (classifyFields_exclusive env inMsg outMsg hout n).1 ⟨hc, h⟩
    · exact ((classifyFields_has env inMsg outMsg n).2.2.2.1 h).2 hcm.2
    · exact (classifyFields_exclusive env inMsg outMsg hout n).2.1 ⟨hc, h⟩

/-- Witness of C6 on scenario A: the parameter names are pairwise distinct. -/
theorem constructorParams_spec_witness :
    ((changedOrMissing (classifyFields (exampleEnv "example.com/pb") userV1 userV2) userV1 ++
      extraOnly (classifyFields (exampleEnv "example.com/pb") userV1 userV2) userV2).map
        Field.GoName).Nodup :=
  (constructorParams_spec (exampleEnv "example.com/pb") userV1 userV2 []
    (by decide) (by decide)).2.2.1

/-! ## C7: one call per output field -/

theorem filterMap_flatMap {α β γ : Type} (f : β → Option γ) (g : α → List β) (l : List α) :
    (l.flatMap g).filterMap f = l.flatMap fun a => (g a).filterMap f := by
  induction l with
  | nil => rfl
  | cons a l ih => simp [List.flatMap_cons, List.filterMap_append, ih]

theorem flatMap_singleton_eq_map {α β : Type} (g : α → β) (l : List α) :
    (l.flatMap fun a => [g a]) = l.map g := by
  induction l with
  | nil => rfl
  | cons a l ih => simp [List.flatMap_cons, ih]

/-- The argument list printed for an output field. -/
theorem invocations_encodeField (env : Env) (fields : List Field) (f : Field) :
    invocations (encodeField env (indexFields fields) f) =
      [(f.GoName,
        match (indexFields fields).get? f.GoName with
        | none => [lit "(extra)"]
        | some inField =>
          match inField.Oneof with
          | none => [lit "(in.", val f.GoName, lit ", extra)"]
          | some _ => [lit "(", val (lowerFirst env f.GoName), lit "In, extra)"])] := by
  unfold encodeField
  cases hget : (indexFields fields).get? f.GoName with
  | none =>
    cases hout : f.Oneof <;> rfl
  | some inField =>
    have hname := goName_of_get?_indexFields fields f.GoName inField hget
    simp only [hname]
    cases hin : inField.Oneof <;> cases hout : f.Oneof <;> rfl

theorem invocations_append (a b : List Line) :
    invocations (a ++ b) = invocations a ++ invocations b :=
  List.filterMap_append _ _ _

theorem invocations_flatMap_nil {α : Type} (g : α → List Line) (l : List α)
    (h : ∀ a, invocations (g a) = []) : invocations (l.flatMap g) = [] := by
  unfold invocations at h ⊢
  rw [filterMap_flatMap]
  simp [h]

theorem invocations_types (env : Env) (c : FieldClasses) (outMsg : Message)
    (fields : List Field) (types : List Line)
    (h : changedAndMissingTypes env c outMsg fields = some types) :
    invocations types = [] := by
  induction fields generalizing types with
  | nil =>
    simp only [changedAndMissingTypes, Option.some.injEq] at h
    subst h
    rfl
  | cons f fields ih =>
    unfold changedAndMissingTypes at h
    cases hr : changedAndMissingTypes env c outMsg fields with
    | none =>
      rw [hr] at h
      split at h <;> simp at h
    | some r =>
      rw [hr] at h
      have hr' := ih r hr
      cases hc : c.changedFields.has f.GoName <;> cases hm : c.missingFields.has f.GoName <;>
        simp only [hc, hm, if_true, if_false, Bool.false_eq_true] at h
      · cases h
        simpa [invocations_append] using hr'
      · cases h
        rw [invocations_append, invocations_append, hr']
        rfl
      · cases ho : c.outFields.get? f.GoName with
        | none => simp [ho] at h
        | some o =>
          simp only [ho, Option.some.injEq] at h
          subst h
          rw [invocations_append, invocations_append, hr']
          rfl
      · cases ho : c.outFields.get? f.GoName with
        | none => simp [ho] at h
        | some o =>
          simp only [ho, Option.some.injEq] at h
          subst h
          rw [invocations_append, invocations_append, hr']
          rfl

theorem invocations_extraTypes (env : Env) (c : FieldClasses) (outMsg : Message) :
    invocations (extraTypes env c outMsg) = [] := by
  unfold extraTypes
  refine invocations_flatMap_nil _ _ fun f => ?_
  cases c.extraFields.has f.GoName <;> rfl

theorem invocations_encoderStruct (env : Env) (c : FieldClasses) (inMsg outMsg : Message) :
    invocations (encoderStruct env c inMsg outMsg) = [] := by
  unfold encoderStruct
  simp only [invocations_append]
  rw [invocations_flatMap_nil, invocations_flatMap_nil]
  · rfl
  · intro f
    cases c.extraFields.has f.GoName <;> rfl
  · intro f
    cases c.changedFields.has f.GoName
    · cases c.outFields.get? f.GoName <;> rfl
    · rfl

theorem invocations_constructorDecl (env : Env) (c : FieldClasses) (inMsg outMsg : Message) :
    invocations (constructorDecl env c inMsg outMsg) = [] := by
  unfold constructorDecl constructorParams constructorMembers
  simp only [invocations_append]
  rw [invocations_flatMap_nil, invocations_flatMap_nil, invocations_flatMap_nil]
  · rfl
  · intro f
    cases c.commonFields.has f.GoName <;> cases c.changedFields.has f.GoName <;>
      cases c.extraFields.has f.GoName <;> rfl
  · intro f
    cases c.extraFields.has f.GoName <;> rfl
  · intro f
    cases c.changedFields.has f.GoName <;> cases c.missingFields.has f.GoName <;> rfl

/-- The calls printed by `Encode`, one per output field. -/
theorem invocations_encodeMethod (env : Env) (inMsg outMsg : Message) :
    invocations (encodeMethod env (classifyFields env inMsg outMsg) inMsg outMsg) =
      outMsg.Fields.map fun f =>
        (f.GoName,
          match (indexFields inMsg.Fields).get? f.GoName with
          | none => [lit "(extra)"]
          | some inField =>
            match inField.Oneof with
            | none => [lit "(in.", val f.GoName, lit ", extra)"]
            | some _ => [lit "(", val (lowerFirst env f.GoName), lit "In, extra)"]) := by
  have hin : (classifyFields env inMsg outMsg).inFields = indexFields inMsg.Fields := rfl
  unfold encodeMethod
  rw [hin]
  simp only [invocations_append]
  have hbody : invocations (outMsg.Fields.flatMap (encodeField env (indexFields inMsg.Fields))) =
      outMsg.Fields.map fun f =>
        (f.GoName,
          match (indexFields inMsg.Fields).get? f.GoName with
          | none => [lit "(extra)"]
          | some inField =>
            match inField.Oneof with
            | none => [lit "(in.", val f.GoName, lit ", extra)"]
            | some _ => [lit "(", val (lowerFirst env f.GoName), lit "In, extra)"]) := by
    unfold invocations
    rw [filterMap_flatMap, ← flatMap_singleton_eq_map]
    congr 1
    funext f
    exact invocations_encodeField env inMsg.Fields f
  rw [hbody]
  have h1 : ∀ l : Line, invocations (P l) = (invocation? l).toList := by
    intro l
    unfold invocations P
    cases h : invocation? l <;> simp [List.filterMap_cons, h]
  simp only [h1]
  simp [invocation?, endsWithReceiver]

/-- C7. `convertMessage` succeeds, and the calls `e.<Name>(...)` in the text it prints are,
in order, exactly one call per output field, in output declaration order, each calling the
member named like the field.  The call passes a value of the input (the input member, or
the local extracted from the input's oneof) and the context when an input field has the
name, and the context alone when none has. -/
theorem encode_invocations (env : Env) (inMsg outMsg : Message) (g : GeneratedFile) :
    ∃ out, convertMessage env inMsg outMsg g = .ok (g ++ out) ∧
      invocations out = expectedCalls env inMsg outMsg ∧
      (invocations out).map Prod.fst = outMsg.Fields.map Field.GoName ∧
      (∀ call ∈ invocations out,
        (call.1 ∈ inMsg.Fields.map Field.GoName → passesInput call.1 env call.2 = true) ∧
        (call.1 ∉ inMsg.Fields.map Field.GoName → passesContextOnly call.2 = true)) := by
  obtain ⟨types, hok⟩ := convertMessage_ok env inMsg outMsg g
  have htypes : invocations types = [] := by
    have h := hok
    unfold convertMessage at h
    cases hc : changedAndMissingTypes env (classifyFields env inMsg outMsg) outMsg inMsg.Fields with
    | none => simp [hc] at h
    | some t =>
      simp only [hc, Outcome.ok.injEq] at h
      have ht : t = types := by
        simpa [List.append_assoc] using h
      exact ht ▸ invocations_types env _ outMsg inMsg.Fields t hc
  have hinv : invocations (types ++ extraTypes env (classifyFields env inMsg outMsg) outMsg ++
        encoderStruct env (classifyFields env inMsg outMsg) inMsg outMsg ++
        constructorDecl env (classifyFields env inMsg outMsg) inMsg outMsg ++
        encodeMethod env (classifyFields env inMsg outMsg) inMsg outMsg) =
      expectedCalls env inMsg outMsg := by
    rw [invocations_append, invocations_append, invocations_append, invocations_append, htypes,
      invocations_extraTypes, invocations_encoderStruct, invocations_constructorDecl,
      invocations_encodeMethod]
    exact List.nil_append _
  refine ⟨types ++ extraTypes env (classifyFields env inMsg outMsg) outMsg ++
        encoderStruct env (classifyFields env inMsg outMsg) inMsg outMsg ++
        constructorDecl env (classifyFields env inMsg outMsg) inMsg outMsg ++
        encodeMethod env (classifyFields env inMsg outMsg) inMsg outMsg, ?_, hinv, ?_, ?_⟩
  · rw [hok]
    simp only [List.append_assoc]
  · rw [hinv]
    unfold expectedCalls
    rw [List.map_map]
    rfl
  · rw [hinv]
    intro call hcall
    obtain ⟨f, -, rfl⟩ := List.mem_map.1 hcall
    constructor
    · intro hmem
      have hhas := (has_indexFields inMsg.Fields f.GoName).2 hmem
      obtain ⟨inField, hget⟩ := Option.isSome_iff_exists.1 hhas
      simp only [hget]
      cases inField.Oneof <;> simp [passesInput]
    · intro hmem
      have hhas : (indexFields inMsg.Fields).has f.GoName = false := by
        rw [← Bool.not_eq_true, has_indexFields]
        exact hmem
      have hget : (indexFields inMsg.Fields).get? f.GoName = none := by
        simpa [GoMap.has] using hhas
      simp only [hget]
      rfl

/-! ## C8: every call is followed by its error check -/

theorem followedBy_spec (p : Line → Bool) (check : List Line) (g : List Line)
    (h : followedBy p check g = true) (pre : List Line) (l : Line) (rest : List Line)
    (hg : g = pre ++ l :: rest) (hp : p l = true) : ∃ rest', rest = check ++ rest' := by
  induction pre generalizing g with
  | nil =>
    subst hg
    simp only [List.nil_append, followedBy, hp, Bool.not_true, Bool.false_or,
      Bool.and_eq_true, beq_iff_eq] at h
    refine ⟨rest.drop check.length, ?_⟩
    have := (List.take_append_drop check.length rest).symm
    rwa [h.1] at this
  | cons a pre ih =>
    subst hg
    simp only [List.cons_append, followedBy, Bool.and_eq_true] at h
    exact ih _ h.2 rfl

theorem followedBy_append (p : Line → Bool) (check : List Line) (a b : List Line)
    (ha : followedBy p check a = true) (hb : followedBy p check b = true) :
    followedBy p check (a ++ b) = true := by
  induction a with
  | nil => simpa using hb
  | cons l a ih =>
    simp only [followedBy, Bool.and_eq_true, Bool.or_eq_true, beq_iff_eq,
      List.cons_append] at ha ⊢
    refine ⟨?_, ih ha.2⟩
    rcases ha.1 with h | h
    · exact Or.inl h
    · right
      have hlen : check.length ≤ a.length := by
        have := congrArg List.length h
        rw [List.length_take] at this
        omega
      show List.take check.length (a ++ b) = check
      rw [List.take_append_of_le_length hlen, h]

theorem followedBy_of_noLine (p : Line → Bool) (check : List Line) (g : List Line)
    (h : noLine p g = true) : followedBy p check g = true := by
  induction g with
  | nil => rfl
  | cons l g ih =>
    simp only [noLine, List.all_cons, Bool.and_eq_true] at h
    simp only [followedBy, Bool.and_eq_true, Bool.or_eq_true]
    exact ⟨Or.inl h.1, ih h.2⟩

theorem followedBy_flatMap {α : Type} (p : Line → Bool) (check : List Line)
    (f : α → List Line) (l : List α) (h : ∀ a, followedBy p check (f a) = true) :
    followedBy p check (l.flatMap f) = true := by
  induction l with
  | nil => rfl
  | cons a l ih =>
    rw [List.flatMap_cons]
    exact followedBy_append p check _ _ (h a) ih

theorem noLine_append (p : Line → Bool) (a b : List Line) :
    noLine p (a ++ b) = (noLine p a && noLine p b) := by
  simp [noLine]

theorem noLine_flatMap {α : Type} (p : Line → Bool) (f : α → List Line) (l : List α)
    (h : ∀ a, noLine p (f a) = true) : noLine p (l.flatMap f) = true := by
  induction l with
  | nil => rfl
  | cons a l ih =>
    rw [List.flatMap_cons, noLine_append, h a, ih]
    rfl

theorem noLine_of_invocations (g : List Line) (h : invocations g = []) :
    noLine isInvocation g = true := by
  unfold invocations at h
  rw [List.filterMap_eq_nil_iff] at h
  simp only [noLine, List.all_eq_true]
  intro l hl
  simp [isInvocation, h l hl]

theorem filter_of_noLine (p : Line → Bool) (g : List Line) (h : noLine p g = true) :
    g.filter p = [] := by
  rw [List.filter_eq_nil_iff]
  simp only [noLine, List.all_eq_true] at h
  intro l hl
  simpa using h l hl

/-- The types printed first contain no call. -/
theorem convertMessage_ok_types (env : Env) (inMsg outMsg : Message) (g : GeneratedFile) :
    ∃ types, invocations types = [] ∧ convertMessage env inMsg outMsg g =
      .ok (g ++ types ++ extraTypes env (classifyFields env inMsg outMsg) outMsg ++
        encoderStruct env (classifyFields env inMsg outMsg) inMsg outMsg ++
        constructorDecl env (classifyFields env inMsg outMsg) inMsg outMsg ++
        encodeMethod env (classifyFields env inMsg outMsg) inMsg outMsg) := by
  obtain ⟨types, h⟩ := changedAndMissingTypes_some env inMsg outMsg inMsg.Fields
  exact ⟨types, invocations_types env _ outMsg inMsg.Fields types h,
    by simp [convertMessage, h]⟩

/-- In the statements printed for one output field the call is followed by its check. -/
theorem followedBy_encodeField (env : Env) (inFields : GoMap Field) (f : Field) :
    followedBy isInvocation errCheck (encodeField env inFields f) = true := by
  unfold encodeField
  cases hget : inFields.get? f.GoName with
  | none => cases hout : f.Oneof <;> rfl
  | some inField =>
    simp only
    cases hin : inField.Oneof <;> cases hout : f.Oneof <;> rfl

theorem followedBy_encodeMethod (env : Env) (c : FieldClasses) (inMsg outMsg : Message) :
    followedBy isInvocation errCheck (encodeMethod env c inMsg outMsg) = true := by
  unfold encodeMethod
  refine followedBy_append _ _ _ _ (followedBy_append _ _ _ _ (followedBy_append _ _ _ _ rfl
    (followedBy_flatMap _ _ _ _ (followedBy_encodeField env c.inFields))) rfl) rfl

theorem noLine_hook_missingValueTypes (env : Env) (c : ValueClasses) (inEnum outEnum : Enum) :
    noLine isHookCall (missingValueTypes env c inEnum outEnum) = true := by
  unfold missingValueTypes
  refine noLine_flatMap _ _ _ fun v => ?_
  cases c.missingFields.has v.Name <;> rfl

theorem noLine_hook_enumConstructorDecl (env : Env) (c : ValueClasses)
    (inEnum outEnum : Enum) :
    noLine isHookCall (enumConstructorDecl env c inEnum outEnum) = true := by
  unfold enumConstructorDecl enumAckParams
  simp only [noLine_append, Bool.and_eq_true]
  refine ⟨⟨⟨⟨⟨⟨⟨⟨rfl, rfl⟩, ?_⟩, rfl⟩, rfl⟩, rfl⟩, rfl⟩, rfl⟩, rfl⟩
  refine noLine_flatMap _ _ _ fun v => ?_
  cases c.missingFields.has v.Name <;> rfl

theorem noLine_hook_enumLadder (env : Env) (c : ValueClasses) (outEnum : Enum) :
    noLine isHookCall (enumLadder env c outEnum) = true := by
  unfold enumLadder
  refine noLine_flatMap _ _ _ fun v => ?_
  cases c.inFields.get? v.Name <;> rfl

/-- The enum `Encode` method: the ladder, then the hook and what follows it. -/
theorem enumEncodeMethod_eq (env : Env) (c : ValueClasses) (inEnum outEnum : Enum) :
    enumEncodeMethod env c inEnum outEnum =
      ([[lit "func (e *", val (encoderEnumName env inEnum outEnum), lit "[T]) Encode(in ",
          val (env.QualifiedGoIdent inEnum.GoIdent), lit ", extra T) (",
          val (env.QualifiedGoIdent outEnum.GoIdent), lit ", error) \x7b"],
        [lit "var err error"],
        [lit "var out ", val (env.QualifiedGoIdent outEnum.GoIdent)]] ++
        enumLadder env c outEnum) ++
      [[lit "var extraOut *", val (env.QualifiedGoIdent outEnum.GoIdent)],
       [lit "extraOut, err = e.ExtraEncoder(extra)"],
       [lit "if err != nil \x7b"], [lit "return 0, err"], [lit "\x7d"], [],
       [lit "if extraOut != nil \x7b"], [lit "out = *extraOut"], [lit "\x7d"], [],
       [lit "return out, nil"], [lit "\x7d"]] := by
  simp only [enumEncodeMethod, P, List.append_assoc, List.cons_append, List.nil_append]

/-- C8. In the text printed by `convertMessage`, every line that calls a member function
of the encoder is immediately followed by the three lines `if err != nil {`,
`return nil, err`, `}`, and the text ends with `return out, nil`, `}`.  In the text printed
by `convertEnum`, the override hook is called on exactly one line, that line is
immediately followed by `if err != nil {`, `return 0, err`, `}`, and the text ends with
`return out, nil`, `}`. -/
theorem encode_fail_fast (env : Env) (inMsg outMsg : Message) (inEnum outEnum : Enum)
    (g : GeneratedFile) :
    (∃ out, convertMessage env inMsg outMsg g = .ok (g ++ out) ∧
      (∀ pre l rest, out = pre ++ l :: rest → isInvocation l = true →
        ∃ rest', rest =
          [[lit "if err != nil \x7b"], [lit "return nil, err"], [lit "\x7d"]] ++ rest') ∧
      (∃ body, out = body ++ [[lit "return out, nil"], [lit "\x7d"]])) ∧
    (∃ out, convertEnum env inEnum outEnum g = .ok (g ++ out) ∧
      (∀ pre l rest, out = pre ++ l :: rest → isHookCall l = true →
        ∃ rest', rest =
          [[lit "if err != nil \x7b"], [lit "return 0, err"], [lit "\x7d"]] ++ rest') ∧
      out.filter isHookCall = [[lit "extraOut, err = e.ExtraEncoder(extra)"]] ∧
      (∃ body, out = body ++ [[lit "return out, nil"], [lit "\x7d"]])) := by
  constructor
  · obtain ⟨types, htypes, hok⟩ := convertMessage_ok_types env inMsg outMsg g
    refine ⟨types ++ extraTypes env (classifyFields env inMsg outMsg) outMsg ++
        encoderStruct env (classifyFields env inMsg outMsg) inMsg outMsg ++
        constructorDecl env (classifyFields env inMsg outMsg) inMsg outMsg ++
        encodeMethod env (classifyFields env inMsg outMsg) inMsg outMsg, ?_, ?_, ?_⟩
    · rw [hok]
      simp only [List.append_assoc]
    · refine followedBy_spec isInvocation errCheck _ ?_
      refine followedBy_append _ _ _ _ (followedBy_of_noLine _ _ _ ?_)
        (followedBy_encodeMethod env _ inMsg outMsg)
      rw [noLine_append, noLine_append, noLine_append,
        noLine_of_invocations _ htypes,
        noLine_of_invocations _ (invocations_extraTypes env _ outMsg),
        noLine_of_invocations _ (invocations_encoderStruct env _ inMsg outMsg),
        noLine_of_invocations _ (invocations_constructorDecl env _ inMsg outMsg)]
      rfl
    · refine ⟨types ++ extraTypes env (classifyFields env inMsg outMsg) outMsg ++
        encoderStruct env (classifyFields env inMsg outMsg) inMsg outMsg ++
        constructorDecl env (classifyFields env inMsg outMsg) inMsg outMsg ++
        ([[lit "func (e *", val (encoderName env inMsg outMsg), lit "[T]) Encode(in *",
            val (env.QualifiedGoIdent inMsg.GoIdent), lit ", extra T) (*",
            val (env.QualifiedGoIdent outMsg.GoIdent), lit ", error) \x7b"],
          [lit "var err error"],
          [lit "out := &", val (env.QualifiedGoIdent outMsg.GoIdent), lit "\x7b\x7d"],
          []] ++
          outMsg.Fields.flatMap
            (encodeField env (classifyFields env inMsg outMsg).inFields)), ?_⟩
      simp only [encodeMethod, P, List.append_assoc, List.cons_append, List.nil_append]
  · have hpre : noLine isHookCall
        (missingValueTypes env (classifyValues inEnum outEnum) inEnum outEnum ++
          [[lit "type ", lit "Extra",
            val (upperFirst env (encoderEnumName env inEnum outEnum)),
            lit "[T any] func(T) (*", val (env.QualifiedGoIdent outEnum.GoIdent),
            lit ", error)"],
           [lit "type ", val (encoderEnumName env inEnum outEnum), lit "[T any] struct \x7b"],
           [lit "ExtraEncoder Extra",
            val (upperFirst env (encoderEnumName env inEnum outEnum)), lit "[T]"],
           [lit "\x7d"]] ++
          enumConstructorDecl env (classifyValues inEnum outEnum) inEnum outEnum ++
          ([[lit "func (e *", val (encoderEnumName env inEnum outEnum),
              lit "[T]) Encode(in ", val (env.QualifiedGoIdent inEnum.GoIdent),
              lit ", extra T) (", val (env.QualifiedGoIdent outEnum.GoIdent),
              lit ", error) \x7b"],
            [lit "var err error"],
            [lit "var out ", val (env.QualifiedGoIdent outEnum.GoIdent)]] ++
            enumLadder env (classifyValues inEnum outEnum) outEnum)) = true := by
      rw [noLine_append, noLine_append, noLine_append, noLine_append,
        noLine_hook_missingValueTypes, noLine_hook_enumConstructorDecl,
        noLine_hook_enumLadder]
      rfl
    refine ⟨(missingValueTypes env (classifyValues inEnum outEnum) inEnum outEnum ++
          [[lit "type ", lit "Extra",
            val (upperFirst env (encoderEnumName env inEnum outEnum)),
            lit "[T any] func(T) (*", val (env.QualifiedGoIdent outEnum.GoIdent),
            lit ", error)"],
           [lit "type ", val (encoderEnumName env inEnum outEnum), lit "[T any] struct \x7b"],
           [lit "ExtraEncoder Extra",
            val (upperFirst env (encoderEnumName env inEnum outEnum)), lit "[T]"],
           [lit "\x7d"]] ++
          enumConstructorDecl env (classifyValues inEnum outEnum) inEnum outEnum ++
          ([[lit "func (e *", val (encoderEnumName env inEnum outEnum),
              lit "[T]) Encode(in ", val (env.QualifiedGoIdent inEnum.GoIdent),
              lit ", extra T) (", val (env.QualifiedGoIdent outEnum.GoIdent),
              lit ", error) \x7b"],
            [lit "var err error"],
            [lit "var out ", val (env.QualifiedGoIdent outEnum.GoIdent)]] ++
            enumLadder env (classifyValues inEnum outEnum) outEnum)) ++
        [[lit "var extraOut *", val (env.QualifiedGoIdent outEnum.GoIdent)],
         [lit "extraOut, err = e.ExtraEncoder(extra)"],
         [lit "if err != nil \x7b"], [lit "return 0, err"], [lit "\x7d"], [],
         [lit "if extraOut != nil \x7b"], [lit "out = *extraOut"], [lit "\x7d"], [],
         [lit "return out, nil"], [lit "\x7d"]], ?_, ?_, ?_, ?_⟩
    · simp only [convertEnum, enumEncodeMethod_eq, P, List.append_assoc, List.cons_append,
        List.nil_append]
    · refine followedBy_spec isHookCall enumErrCheck _ ?_
      exact followedBy_append _ _ _ _ (followedBy_of_noLine _ _ _ hpre) rfl
    · rw [List.filter_append, filter_of_noLine _ _ hpre]
      rfl
    · exact ⟨_, (List.append_assoc _
        [[lit "var extraOut *", val (env.QualifiedGoIdent outEnum.GoIdent)],
         [lit "extraOut, err = e.ExtraEncoder(extra)"],
         [lit "if err != nil \x7b"], [lit "return 0, err"], [lit "\x7d"], [],
         [lit "if extraOut != nil \x7b"], [lit "out = *extraOut"], [lit "\x7d"], []] _).symm⟩

/-! ## C9: how the result of a call reaches the output -/

/-- C9. The statements printed for an output field `f` end as follows.  When `f` belongs
to a oneof, the result of the call is stored in the local `lowerFirst f.GoName`, checked,
and the only assignment to `out`, `out.<Group> = &<Wrapper>{...}`, stands inside the guard
`if <local> != nil {`.  When `f` belongs to no oneof, the call assigns its result to
`out.<Name>` directly, outside any guard.  In both cases the lines printed before the call
(empty unless the input field of this name belongs to a oneof) contain no assignment to
`out`, whether the input field is ungrouped, grouped or absent. -/
theorem encodeField_output (env : Env) (inMsg : Message) (f : Field) :
    match f.Oneof with
    | some group =>
      ∃ pre args,
        encodeField env (indexFields inMsg.Fields) f =
          pre ++
          [val (lowerFirst env f.GoName) :: lit ", err := e." :: val f.GoName :: args,
           [lit "if err != nil \x7b"],
           [lit "return nil, err"],
           [lit "\x7d"],
           [lit "if ", val (lowerFirst env f.GoName), lit " != nil \x7b"],
           [lit "out.", val group.GoName, lit " = &", val (env.QualifiedGoIdent f.GoIdent),
            lit "\x7b"],
           [val f.GoName, lit ": ", val (indirectOf env f), val (lowerFirst env f.GoName),
            lit ","],
           [lit "\x7d"],
           [lit "\x7d"],
           []] ∧
        noLine assignsOut pre = true ∧
        (encodeField env (indexFields inMsg.Fields) f).filter assignsOut =
          [[lit "out.", val group.GoName, lit " = &", val (env.QualifiedGoIdent f.GoIdent),
            lit "\x7b"]]
    | none =>
      ∃ pre sep args,
        encodeField env (indexFields inMsg.Fields) f =
          pre ++
          [lit "out." :: val f.GoName :: lit sep :: val f.GoName :: args,
           [lit "if err != nil \x7b"],
           [lit "return nil, err"],
           [lit "\x7d"],
           []] ∧
        (sep = ", err = e." ∨ sep = ",  err = e.") ∧
        noLine assignsOut pre = true ∧
        (encodeField env (indexFields inMsg.Fields) f).filter assignsOut =
          [lit "out." :: val f.GoName :: lit sep :: val f.GoName :: args] := by
  unfold encodeField
  cases hget : (indexFields inMsg.Fields).get? f.GoName with
  | none =>
    cases hout : f.Oneof with
    | none => exact ⟨[], ", err = e.", [lit "(extra)"], rfl, Or.inl rfl, rfl, rfl⟩
    | some group => exact ⟨[], [lit "(extra)"], rfl, rfl, rfl⟩
  | some inField =>
    have hname := goName_of_get?_indexFields inMsg.Fields f.GoName inField hget
    simp only [hname]
    cases hin : inField.Oneof with
    | none =>
      cases hout : f.Oneof with
      | none =>
        exact ⟨[], ",  err = e.", [lit "(in.", val f.GoName, lit ", extra)"], rfl, Or.inr rfl,
          rfl, rfl⟩
      | some group =>
        exact ⟨[], [lit "(in.", val f.GoName, lit ", extra)"], rfl, rfl, rfl⟩
    | some inGroup =>
      cases hout : f.Oneof with
      | none =>
        exact ⟨[[lit "var ", val (lowerFirst env f.GoName), lit "In ",
              val (fieldGoType env inField)],
            [lit "if in.", val inGroup.GoName, lit " != nil \x7b"],
            [lit "if t, ok := in.", val inGroup.GoName, lit ".(*",
              val (env.QualifiedGoIdent inField.GoIdent), lit "); ok \x7b"],
            [val (lowerFirst env f.GoName), lit "In = ", val (referenceOf inField),
              lit "t.", val f.GoName],
            [lit "\x7d"], [lit "\x7d"]],
          ", err = e.", [lit "(", val (lowerFirst env f.GoName), lit "In, extra)"],
          rfl, Or.inl rfl, rfl, rfl⟩
      | some group =>
        exact ⟨[[lit "var ", val (lowerFirst env f.GoName), lit "In ",
              val (fieldGoType env inField)],
            [lit "if in.", val inGroup.GoName, lit " != nil \x7b"],
            [lit "if t, ok := in.", val inGroup.GoName, lit ".(*",
              val (env.QualifiedGoIdent inField.GoIdent), lit "); ok \x7b"],
            [val (lowerFirst env f.GoName), lit "In = ", val (referenceOf inField),
              lit "t.", val f.GoName],
            [lit "\x7d"], [lit "\x7d"]],
          [lit "(", val (lowerFirst env f.GoName), lit "In, extra)"], rfl, rfl, rfl⟩

/-! ## C10: extraction of an input field that belongs to a oneof -/

/-- C10. For an input record with name-unique fields, an output field `f` and the input
field `g` of the same name, where `g` belongs to the oneof `group`: the statements printed
for `f` start with the declaration `var <local>In <fieldGoType g>` without initialiser,
followed by the guard `if in.<Group> != nil {`, the guard
`if t, ok := in.<Group>.(*<Wrapper of g>); ok {`, the assignment of `t.<Name>` to the local
and the two closing braces; the next line calls `e.<Name>` with the local and the context;
and no other line assigns to the local. -/
theorem encodeField_input_oneof (env : Env) (inMsg : Message) (f g : Field) (group : Oneof)
    (hin : (inMsg.Fields.map Field.GoName).Nodup) (hg : g ∈ inMsg.Fields)
    (hname : g.GoName = f.GoName) (hgroup : g.Oneof = some group) :
    ∃ call rest,
      encodeField env (indexFields inMsg.Fields) f =
        [[lit "var ", val (lowerFirst env f.GoName), lit "In ", val (fieldGoType env g)],
         [lit "if in.", val group.GoName, lit " != nil \x7b"],
         [lit "if t, ok := in.", val group.GoName, lit ".(*",
          val (env.QualifiedGoIdent g.GoIdent), lit "); ok \x7b"],
         [val (lowerFirst env f.GoName), lit "In = ", val (referenceOf g), lit "t.",
          val f.GoName],
         [lit "\x7d"],
         [lit "\x7d"]] ++ call :: rest ∧
      invocation? call =
        some (f.GoName, [lit "(", val (lowerFirst env f.GoName), lit "In, extra)"]) ∧
      (encodeField env (indexFields inMsg.Fields) f).filter assignsInputLocal =
        [[val (lowerFirst env f.GoName), lit "In = ", val (referenceOf g), lit "t.",
          val f.GoName]] ∧
      (encodeField env (indexFields inMsg.Fields) f).filter isInvocation = [call] := by
  have hget := (get?_indexFields inMsg.Fields f.GoName g hin).2 ⟨hg, hname⟩
  unfold encodeField
  simp only [hget, hgroup, hname]
  cases hout : f.Oneof with
  | none =>
    exact ⟨[lit "out.", val f.GoName, lit ", err = e.", val f.GoName, lit "(",
        val (lowerFirst env f.GoName), lit "In, extra)"], _, rfl, rfl, rfl, rfl⟩
  | some outGroup =>
    exact ⟨[val (lowerFirst env f.GoName), lit ", err := e.", val f.GoName, lit "(",
        val (lowerFirst env f.GoName), lit "In, extra)"], _, rfl, rfl, rfl, rfl⟩

/-- Witness of C10: the input field `nick` belongs to the oneof `alias`. -/
theorem encodeField_input_oneof_witness :
    ∃ call rest,
      encodeField (exampleEnv "example.com/pb") (indexFields aliasV1.Fields)
          (plainField "Nick" .StringKind) =
        [[lit "var ", val "nick", lit "In ", val "*string"],
         [lit "if in.", val "Alias", lit " != nil \x7b"],
         [lit "if t, ok := in.", val "Alias", lit ".(*", val "NickV2_Nick", lit "); ok \x7b"],
         [val "nick", lit "In = ", val "&", lit "t.", val "Nick"],
         [lit "\x7d"],
         [lit "\x7d"]] ++ call :: rest ∧
      invocation? call = some ("Nick", [lit "(", val "nick", lit "In, extra)"]) ∧
      (encodeField (exampleEnv "example.com/pb") (indexFields aliasV1.Fields)
          (plainField "Nick" .StringKind)).filter assignsInputLocal =
        [[val "nick", lit "In = ", val "&", lit "t.", val "Nick"]] ∧
      (encodeField (exampleEnv "example.com/pb") (indexFields aliasV1.Fields)
          (plainField "Nick" .StringKind)).filter isInvocation = [call] :=
  encodeField_input_oneof (exampleEnv "example.com/pb") aliasV1 (plainField "Nick" .StringKind)
    nickInAlias ⟨"Alias"⟩ (by decide) (List.mem_cons_self _ _) rfl rfl

/-! ## C12: the members of common fields -/

/-- Every output field is a key of `common`, `changed` or `extra`. -/
theorem classifyFields_cover (env : Env) (inMsg outMsg : Message) (f : Field)
    (hf : f ∈ outMsg.Fields) :
    (classifyFields env inMsg outMsg).commonFields.has f.GoName = true ∨
    (classifyFields env inMsg outMsg).changedFields.has f.GoName = true ∨
    (classifyFields env inMsg outMsg).extraFields.has f.GoName = true := by
  rw [classifyFields_eq]
  simp only [has_insertWhere_nil]
  rcases signature_cases env (indexFields inMsg.Fields) f with h | h | h
  · exact Or.inl ⟨f, hf, rfl, h⟩
  · exact Or.inr (Or.inl ⟨f, hf, rfl, h⟩)
  · exact Or.inr (Or.inr ⟨f, hf, rfl, by simp [h]⟩)

theorem flatMap_congr_mem {α β : Type} (l : List α) (f g : α → List β)
    (h : ∀ a ∈ l, f a = g a) : l.flatMap f = l.flatMap g := by
  induction l with
  | nil => rfl
  | cons a l ih =>
    rw [List.flatMap_cons, List.flatMap_cons, h a (List.mem_cons_self _ _),
      ih fun b hb => h b (List.mem_cons_of_mem _ hb)]

/-- The member lines of the constructor, one per output field. -/
theorem constructorMembers_eq (env : Env) (inMsg outMsg : Message)
    (hout : (outMsg.Fields.map Field.GoName).Nodup) :
    constructorMembers env (classifyFields env inMsg outMsg) outMsg =
      outMsg.Fields.map fun f =>
        if (classifyFields env inMsg outMsg).commonFields.has f.GoName = true then
          [val f.GoName, lit ": ", lit "func(in ", val (fieldGoType env f),
           lit ", extra T) (", val (fieldGoType env f), lit ", error) \x7b return in, nil \x7d,"]
        else [val f.GoName, lit ": ", val f.GoName, lit ","] := by
  unfold constructorMembers P
  rw [← flatMap_singleton_eq_map]
  refine flatMap_congr_mem _ _ _ fun f hf => ?_
  have hex := classifyFields_exclusive env inMsg outMsg hout f.GoName
  have hcov := classifyFields_cover env inMsg outMsg f hf
  cases hc : (classifyFields env inMsg outMsg).commonFields.has f.GoName <;>
    cases hd : (classifyFields env inMsg outMsg).changedFields.has f.GoName <;>
    cases hx : (classifyFields env inMsg outMsg).extraFields.has f.GoName <;>
    simp_all

theorem filter_map_unique {α β : Type} (key : α → String) (l : List α) (h : α → β)
    (p : β → Bool) (a : α) (ha : a ∈ l) (hl : (l.map key).Nodup)
    (hp : ∀ b ∈ l, p (h b) = true ↔ key b = key a) : (l.map h).filter p = [h a] := by
  induction l with
  | nil => cases ha
  | cons b l ih =>
    rw [List.map_cons, List.nodup_cons] at hl
    obtain ⟨hb, hl⟩ := hl
    by_cases hk : key b = key a
    · have hba : b = a := by
        rcases List.mem_cons.1 ha with h1 | h1
        · exact h1.symm
        · exact absurd (List.mem_map.2 ⟨a, h1, hk.symm⟩) hb
      subst hba
      have hrest : (l.map h).filter p = [] := by
        rw [List.filter_eq_nil_iff]
        intro x hx hpx
        obtain ⟨c, hc, rfl⟩ := List.mem_map.1 hx
        have := (hp c (List.mem_cons_of_mem _ hc)).1 hpx
        exact hb (List.mem_map.2 ⟨c, hc, this⟩)
      rw [List.map_cons, List.filter_cons, (hp b (List.mem_cons_self _ _)).2 rfl, hrest]
      rfl
    · have hal : a ∈ l := by
        rcases List.mem_cons.1 ha with h1 | h1
        · exact absurd (h1 ▸ rfl) hk
        · exact h1
      have hpb : p (h b) = false := by
        rw [← Bool.not_eq_true]
        exact fun hpb => hk ((hp b (List.mem_cons_self _ _)).1 hpb)
      rw [List.map_cons, List.filter_cons, hpb]
      exact ih hal hl fun c hc => hp c (List.mem_cons_of_mem _ hc)

/-- C12. For records with name-unique fields, the constructor prints, between
`return &<Encoder>[T]{` and the closing braces, one member line per output field; for a
field classified common it is the only line for that name and reads
`<Name>: func(in <T>, extra T) (<T>, error) { return in, nil },` where `<T>` is the
field's signature, which is also the signature of the input field of that name; the line
`<Name>: <Name>,` that takes a member from a constructor parameter is not printed for it. -/
theorem common_member_identity (env : Env) (inMsg outMsg : Message) (f : Field)
    (hin : (inMsg.Fields.map Field.GoName).Nodup)
    (hout : (outMsg.Fields.map Field.GoName).Nodup) (hf : f ∈ outMsg.Fields)
    (hcommon : (classifyFields env inMsg outMsg).commonFields.has f.GoName = true) :
    (∃ pre, constructorDecl env (classifyFields env inMsg outMsg) inMsg outMsg =
        pre ++ [[lit "return &", val (encoderName env inMsg outMsg), lit "[T]\x7b"]] ++
        constructorMembers env (classifyFields env inMsg outMsg) outMsg ++
        [[lit "\x7d"], [lit "\x7d"], []]) ∧
    (constructorMembers env (classifyFields env inMsg outMsg) outMsg).filter
        (startsWithName f.GoName) =
      [[val f.GoName, lit ": ", lit "func(in ", val (fieldGoType env f), lit ", extra T) (",
        val (fieldGoType env f), lit ", error) \x7b return in, nil \x7d,"]] ∧
    [val f.GoName, lit ": ", val f.GoName, lit ","] ∉
      constructorMembers env (classifyFields env inMsg outMsg) outMsg ∧
    (∃ g ∈ inMsg.Fields, g.GoName = f.GoName ∧ fieldGoType env g = fieldGoType env f) := by
  have hfilter : (constructorMembers env (classifyFields env inMsg outMsg) outMsg).filter
        (startsWithName f.GoName) =
      [[val f.GoName, lit ": ", lit "func(in ", val (fieldGoType env f), lit ", extra T) (",
        val (fieldGoType env f), lit ", error) \x7b return in, nil \x7d,"]] := by
    rw [constructorMembers_eq env inMsg outMsg hout,
      filter_map_unique Field.GoName outMsg.Fields _ (startsWithName f.GoName) f hf hout]
    · simp [hcommon]
    · intro b _
      split <;> simp [startsWithName]
  refine ⟨?_, hfilter, ?_, ?_⟩
  · refine ⟨[[lit "func New", val (encoderName env inMsg outMsg), lit "[T any]("]] ++
        constructorParams env (classifyFields env inMsg outMsg) inMsg outMsg ++
        [[lit ") *", val (encoderName env inMsg outMsg), lit "[T] \x7b"]], ?_⟩
    simp only [constructorDecl, P, List.append_assoc, List.cons_append, List.nil_append]
  · intro hmem
    have : [val f.GoName, lit ": ", val f.GoName, lit ","] ∈
        (constructorMembers env (classifyFields env inMsg outMsg) outMsg).filter
          (startsWithName f.GoName) :=
      List.mem_filter.2 ⟨hmem, by simp [startsWithName]⟩
    rw [hfilter] at this
    simp at this
  · obtain ⟨-, hc, -⟩ := classifyFields_get?_out env inMsg outMsg hout f hf
    have hget : (classifyFields env inMsg outMsg).commonFields.get? f.GoName = some f := by
      obtain ⟨x, hx⟩ := Option.isSome_iff_exists.1 hcommon
      have := hx
      rw [classifyFields_eq] at this
      simp only at this
      rw [get?_insertWhere_nil _ _ _ _ _ hout] at this
      obtain ⟨hxm, hxk, -⟩ := this
      rw [eq_of_nodup_key Field.GoName outMsg.Fields hout x f hxm hf hxk] at hx
      exact hx
    exact (sameSignature_iff env inMsg.Fields hin f).1 (hc.1 hget)

/-- Witness of C12 on scenario A: the member `Id` is the identity function on `int32`. -/
theorem common_member_identity_witness :
    (constructorMembers (exampleEnv "example.com/pb")
        (classifyFields (exampleEnv "example.com/pb") userV1 userV2) userV2).filter
        (startsWithName "Id") =
      [[val "Id", lit ": ", lit "func(in ", val "int32", lit ", extra T) (", val "int32",
        lit ", error) \x7b return in, nil \x7d,"]] :=
  (common_member_identity (exampleEnv "example.com/pb") userV1 userV2
    (plainField "Id" .Int32Kind) (by decide) (by decide) (List.mem_cons_self _ _)
    (by decide)).2.1

/-! ## C11: the ladder and the override hook -/

theorem find?_key_iff {α : Type} (key : α → String) (l : List α) (n : String) (a : α)
    (hl : (l.map key).Nodup) :
    (l.find? fun b => key b == n) = some a ↔ a ∈ l ∧ key a = n := by
  induction l with
  | nil => simp
  | cons b l ih =>
    rw [List.map_cons, List.nodup_cons] at hl
    obtain ⟨hb, hl⟩ := hl
    by_cases hk : key b = n
    · simp only [List.find?_cons, hk, beq_self_eq_true, Option.some.injEq, List.mem_cons]
      constructor
      · rintro rfl
        exact ⟨Or.inl rfl, hk⟩
      · rintro ⟨h | h, hka⟩
        · exact h.symm
        · exact absurd (List.mem_map.2 ⟨a, h, hka.trans hk.symm⟩) hb
    · have hk' : (key b == n) = false := by simpa using hk
      simp only [List.find?_cons, hk', ih hl, List.mem_cons]
      constructor
      · rintro ⟨h, hka⟩
        exact ⟨Or.inr h, hka⟩
      · rintro ⟨h | h, hka⟩
        · exact absurd (h ▸ hka) hk
        · exact ⟨h, hka⟩

theorem get?_indexValues_eq_find? (values : List EnumValue) (n : String)
    (h : (values.map EnumValue.Name).Nodup) :
    (indexValues values).get? n = values.find? fun w => w.Name == n := by
  apply Option.ext
  intro a
  simp only [Option.mem_def]
  rw [indexValues_eq, get?_insertWhere_nil _ _ _ _ _ h, find?_key_iff EnumValue.Name _ _ _ h]
  simp

theorem flatMap_filterMap {α β γ : Type} (f : α → Option β) (g : β → List γ) (l : List α) :
    (l.filterMap f).flatMap g = l.flatMap fun a => (f a).toList.flatMap g := by
  induction l with
  | nil => rfl
  | cons a l ih =>
    cases h : f a <;> simp [List.filterMap_cons, h, List.flatMap_cons, ih]

/-- The ladder is one rung per pair of values of equal name. -/
theorem enumLadder_eq (env : Env) (inEnum outEnum : Enum)
    (hin : (inEnum.Values.map EnumValue.Name).Nodup) :
    enumLadder env (classifyValues inEnum outEnum) outEnum =
      (commonPairs inEnum outEnum).flatMap (rung env) := by
  have hidx : (classifyValues inEnum outEnum).inFields = indexValues inEnum.Values := rfl
  unfold enumLadder commonPairs
  rw [hidx, flatMap_filterMap]
  congr 1
  funext v
  rw [get?_indexValues_eq_find? _ _ hin]
  cases (inEnum.Values.find? fun w => w.Name == v.Name) <;> simp [rung, P]

theorem runLadder_rungs (env : Env) (num : String → Int) (inv : Int)
    (pairs : List (EnumValue × EnumValue)) (tail : List Line) (out : Int)
    (htail : ∀ o, runLadder num inv tail o = (o, tail)) :
    runLadder num inv (pairs.flatMap (rung env) ++ tail) out =
      (ladderResult env num inv pairs out, tail) := by
  induction pairs generalizing out with
  | nil => exact htail out
  | cons p pairs ih =>
    rw [List.flatMap_cons]
    unfold ladderResult
    rw [List.foldl_cons]
    have := ih (if inv = num (env.QualifiedGoIdent p.1.GoIdent) then
      num (env.QualifiedGoIdent p.2.GoIdent) else out)
    unfold ladderResult at this
    rw [← this]
    simp [rung, runLadder]

theorem ladderResult_unmatched (env : Env) (num : String → Int) (inv : Int)
    (pairs : List (EnumValue × EnumValue)) (out : Int)
    (h : ∀ p ∈ pairs, inv ≠ num (env.QualifiedGoIdent p.1.GoIdent)) :
    ladderResult env num inv pairs out = out := by
  induction pairs generalizing out with
  | nil => rfl
  | cons p pairs ih =>
    unfold ladderResult
    rw [List.foldl_cons, if_neg (h p (List.mem_cons_self _ _))]
    exact ih out fun q hq => h q (List.mem_cons_of_mem _ hq)

/-- C11. For enums with name-unique input values, the printed enum `Encode` method is:
the signature, `var err error`, `var out <Out>`; one rung
`if in == <input value> { out = <output value> }` for each output value that has an input
value of its name, in output declaration order; then the call of the override hook with
the context only, its error check, and `if extraOut != nil { out = *extraOut }` before
`return out, nil`.  Run on any input, the method returns the hook's error if there is
one, else the hook's value when its pointer is not nil, else the value left by the ladder,
which is the zero value when no rung matched. -/
theorem enum_encode_override (env : Env) (inEnum outEnum : Enum)
    (hin : (inEnum.Values.map EnumValue.Name).Nodup)
    (num : String → Int) (inv : Int) (hook : Option Int × Option String) :
    enumEncodeMethod env (classifyValues inEnum outEnum) inEnum outEnum =
      [[lit "func (e *", val (encoderEnumName env inEnum outEnum), lit "[T]) Encode(in ",
          val (env.QualifiedGoIdent inEnum.GoIdent), lit ", extra T) (",
          val (env.QualifiedGoIdent outEnum.GoIdent), lit ", error) \x7b"],
        [lit "var err error"],
        [lit "var out ", val (env.QualifiedGoIdent outEnum.GoIdent)]] ++
      (commonPairs inEnum outEnum).flatMap (rung env) ++
      [[lit "var extraOut *", val (env.QualifiedGoIdent outEnum.GoIdent)],
       [lit "extraOut, err = e.ExtraEncoder(extra)"],
       [lit "if err != nil \x7b"], [lit "return 0, err"], [lit "\x7d"], [],
       [lit "if extraOut != nil \x7b"], [lit "out = *extraOut"], [lit "\x7d"], [],
       [lit "return out, nil"], [lit "\x7d"]] ∧
    runEnumEncode num inv hook
        (enumEncodeMethod env (classifyValues inEnum outEnum) inEnum outEnum) =
      some (match hook.2 with
        | some err => .error err
        | none =>
          match hook.1 with
          | some extraOut => .ok extraOut
          | none => .ok (ladderResult env num inv (commonPairs inEnum outEnum) 0)) ∧
    ((∀ p ∈ commonPairs inEnum outEnum, inv ≠ num (env.QualifiedGoIdent p.1.GoIdent)) →
      ladderResult env num inv (commonPairs inEnum outEnum) 0 = 0) := by
  have hshape := enumEncodeMethod_eq env (classifyValues inEnum outEnum) inEnum outEnum
  rw [enumLadder_eq env inEnum outEnum hin] at hshape
  refine ⟨hshape, ?_, ladderResult_unmatched env num inv _ 0⟩
  rw [hshape]
  simp only [List.cons_append, List.nil_append, runEnumEncode]
  have htail : ∀ o, runLadder num inv
      [[lit "var extraOut *", val (env.QualifiedGoIdent outEnum.GoIdent)],
       [lit "extraOut, err = e.ExtraEncoder(extra)"],
       [lit "if err != nil \x7b"], [lit "return 0, err"], [lit "\x7d"], [],
       [lit "if extraOut != nil \x7b"], [lit "out = *extraOut"], [lit "\x7d"], [],
       [lit "return out, nil"], [lit "\x7d"]] o =
      (o, [[lit "var extraOut *", val (env.QualifiedGoIdent outEnum.GoIdent)],
       [lit "extraOut, err = e.ExtraEncoder(extra)"],
       [lit "if err != nil \x7b"], [lit "return 0, err"], [lit "\x7d"], [],
       [lit "if extraOut != nil \x7b"], [lit "out = *extraOut"], [lit "\x7d"], [],
       [lit "return out, nil"], [lit "\x7d"]]) := fun o => rfl
  rw [runLadder_rungs env num inv _ _ 0 htail]
  simp only [if_true]
  cases hook.2 <;> cases hook.1 <;> rfl

/-- Witness of C11 on scenario C: on the input `B`, with a hook that returns nil, the
method returns the value left by the ladder. -/
theorem enum_encode_override_witness :
    runEnumEncode exampleNum 1 (none, none)
        (enumEncodeMethod (exampleEnv "example.com/pb") (classifyValues enumABC enumAB)
          enumABC enumAB) =
      some (.ok (ladderResult (exampleEnv "example.com/pb") exampleNum 1
        (commonPairs enumABC enumAB) 0)) :=
  (enum_encode_override (exampleEnv "example.com/pb") enumABC enumAB (by decide)
    exampleNum 1 (none, none)).2.1

/-! ## C18: the schema graph -/

theorem extends_refl (s : SchemaMaps) : Extends s s [] [] := by
  refine ⟨?_, ?_, ?_, ?_⟩ <;> simp

theorem extends_trans (s s' s'' : SchemaMaps) (M M' : List Message) (E E' : List Enum)
    (h : Extends s s' M E) (h' : Extends s' s'' M' E') :
    Extends s s'' (M ++ M') (E ++ E') := by
  obtain ⟨h1, h2, h3, h4⟩ := h
  obtain ⟨h1', h2', h3', h4'⟩ := h'
  refine ⟨?_, ?_, ?_, ?_⟩
  · intro k
    rw [h1', h1]
    simp only [List.mem_append]
    constructor
    · rintro ((h | ⟨m, hm, hk⟩) | ⟨m, hm, hk⟩)
      · exact Or.inl h
      · exact Or.inr ⟨m, Or.inl hm, hk⟩
      · exact Or.inr ⟨m, Or.inr hm, hk⟩
    · rintro (h | ⟨m, hm | hm, hk⟩)
      · exact Or.inl (Or.inl h)
      · exact Or.inl (Or.inr ⟨m, hm, hk⟩)
      · exact Or.inr ⟨m, hm, hk⟩
  · intro k a ha
    rcases h2' k a ha with h | ⟨hm, hk⟩
    · rcases h2 k a h with h | ⟨hm, hk⟩
      · exact Or.inl h
      · exact Or.inr ⟨List.mem_append.2 (Or.inl hm), hk⟩
    · exact Or.inr ⟨List.mem_append.2 (Or.inr hm), hk⟩
  · intro k
    rw [h3', h3]
    simp only [List.mem_append]
    constructor
    · rintro ((h | ⟨m, hm, hk⟩) | ⟨m, hm, hk⟩)
      · exact Or.inl h
      · exact Or.inr ⟨m, Or.inl hm, hk⟩
      · exact Or.inr ⟨m, Or.inr hm, hk⟩
    · rintro (h | ⟨m, hm | hm, hk⟩)
      · exact Or.inl (Or.inl h)
      · exact Or.inl (Or.inr ⟨m, hm, hk⟩)
      · exact Or.inr ⟨m, hm, hk⟩
  · intro k a ha
    rcases h4' k a ha with h | ⟨hm, hk⟩
    · rcases h4 k a h with h | ⟨hm, hk⟩
      · exact Or.inl h
      · exact Or.inr ⟨List.mem_append.2 (Or.inl hm), hk⟩
    · exact Or.inr ⟨List.mem_append.2 (Or.inr hm), hk⟩

theorem extends_congr (s s' : SchemaMaps) (M M' : List Message) (E E' : List Enum)
    (h : Extends s s' M E) (hM : ∀ m, m ∈ M ↔ m ∈ M') (hE : ∀ e, e ∈ E ↔ e ∈ E') :
    Extends s s' M' E' := by
  obtain ⟨h1, h2, h3, h4⟩ := h
  refine ⟨?_, ?_, ?_, ?_⟩
  · intro k
    rw [h1]
    simp only [hM]
  · intro k a ha
    rcases h2 k a ha with h | ⟨hm, hk⟩
    · exact Or.inl h
    · exact Or.inr ⟨(hM a).1 hm, hk⟩
  · intro k
    rw [h3]
    simp only [hE]
  · intro k a ha
    rcases h4 k a ha with h | ⟨hm, hk⟩
    · exact Or.inl h
    · exact Or.inr ⟨(hE a).1 hm, hk⟩

theorem extends_setMessage (s : SchemaMaps) (m : Message) :
    Extends s { s with messageMap := s.messageMap.set m.FullName m } [m] [] := by
  refine ⟨?_, ?_, ?_, ?_⟩
  · intro k
    simp only [GoMap.has_set, Bool.or_eq_true, decide_eq_true_eq, List.mem_singleton,
      exists_eq_left]
    constructor
    · rintro (h | h)
      · exact Or.inr h.symm
      · exact Or.inl h
    · rintro (h | h)
      · exact Or.inr h
      · exact Or.inl h.symm
  · intro k a ha
    simp only [GoMap.get?_set] at ha
    by_cases hk : k = m.FullName
    · simp only [hk, if_true, Option.some.injEq] at ha
      subst ha
      exact Or.inr ⟨List.mem_singleton.2 rfl, hk.symm⟩
    · simp only [hk, if_false] at ha
      exact Or.inl ha
  · intro k
    simp
  · intro k a ha
    exact Or.inl ha

theorem extends_setEnum (s : SchemaMaps) (e : Enum) :
    Extends s { s with enumMap := s.enumMap.set e.FullName e } [] [e] := by
  refine ⟨?_, ?_, ?_, ?_⟩
  · intro k
    simp
  · intro k a ha
    exact Or.inl ha
  · intro k
    simp only [GoMap.has_set, Bool.or_eq_true, decide_eq_true_eq, List.mem_singleton,
      exists_eq_left]
    constructor
    · rintro (h | h)
      · exact Or.inr h.symm
      · exact Or.inl h
    · rintro (h | h)
      · exact Or.inr h
      · exact Or.inl h.symm
  · intro k a ha
    simp only [GoMap.get?_set] at ha
    by_cases hk : k = e.FullName
    · simp only [hk, if_true, Option.some.injEq] at ha
      subst ha
      exact Or.inr ⟨List.mem_singleton.2 rfl, hk.symm⟩
    · simp only [hk, if_false] at ha
      exact Or.inl ha

theorem mapCollectionEnums_extends (enums : List Enum) (s : SchemaMaps) :
    Extends s (mapCollectionEnums enums s) [] enums := by
  induction enums generalizing s with
  | nil => exact extends_refl s
  | cons e enums ih =>
    have h := extends_trans _ _ _ _ _ _ _ (extends_setEnum s e) (ih _)
    exact h

mutual

theorem mapMessage_extends : ∀ (m : Message) (s : SchemaMaps),
    Extends s (mapMessage m s) m.descendants (m.descendants.flatMap Message.Enums)
  | .mk ident name fields messages enums, s => by
    have h1 := extends_setMessage s (.mk ident name fields messages enums)
    have h2 := mapCollectionMessages_extends messages
      { s with messageMap := s.messageMap.set name (.mk ident name fields messages enums) }
    have h3 := mapCollectionEnums_extends enums
      (mapCollectionMessages messages
        { s with messageMap := s.messageMap.set name (.mk ident name fields messages enums) })
    have h := extends_trans _ _ _ _ _ _ _ (extends_trans _ _ _ _ _ _ _ h1 h2) h3
    rw [mapMessage, Message.descendants]
    refine extends_congr _ _ _ _ _ _ h ?_ ?_
    · intro m
      simp
    · intro e
      simp only [List.nil_append, List.append_nil, List.mem_append, List.flatMap_cons,
        Message.Enums]
      exact Or.comm

theorem mapCollectionMessages_extends : ∀ (ms : List Message) (s : SchemaMaps),
    Extends s (mapCollectionMessages ms s) (descendantsOf ms)
      ((descendantsOf ms).flatMap Message.Enums)
  | [], s => by
    rw [mapCollectionMessages, descendantsOf]
    exact extends_refl s
  | m :: rest, s => by
    have h1 := mapMessage_extends m s
    have h2 := mapCollectionMessages_extends rest (mapMessage m s)
    have h := extends_trans _ _ _ _ _ _ _ h1 h2
    rw [mapCollectionMessages, descendantsOf]
    refine extends_congr _ _ _ _ _ _ h (fun _ => Iff.rfl) ?_
    intro e
    simp [List.flatMap_append]

end

theorem mapCollection_extends (messages : List Message) (enums : List Enum)
    (s : SchemaMaps) :
    Extends s (mapCollection messages enums s) (descendantsOf messages)
      (enums ++ (descendantsOf messages).flatMap Message.Enums) := by
  have h := extends_trans _ _ _ _ _ _ _ (mapCollectionMessages_extends messages s)
    (mapCollectionEnums_extends enums (mapCollectionMessages messages s))
  refine extends_congr _ _ _ _ _ _ h ?_ ?_
  · intro m
    simp
  · intro e
    simp only [List.mem_append]
    exact Or.comm

theorem foldl_mapCollection_extends (files : List File) (s : SchemaMaps) :
    Extends s (files.foldl (fun s file => mapCollection file.Messages file.Enums s) s)
      (allMessages files) (allEnums files) := by
  induction files generalizing s with
  | nil => exact extends_refl s
  | cons file files ih =>
    have h := extends_trans _ _ _ _ _ _ _
      (mapCollection_extends file.Messages file.Enums s) (ih _)
    rw [List.foldl_cons]
    refine extends_congr _ _ _ _ _ _ h ?_ ?_
    · intro m
      simp [allMessages]
    · intro e
      simp only [allEnums, allMessages, List.flatMap_cons, List.mem_append,
        List.flatMap_append]
      constructor
      · rintro ((h | h) | (h | h))
        · exact Or.inl (Or.inl h)
        · exact Or.inr (Or.inl h)
        · exact Or.inl (Or.inr h)
        · exact Or.inr (Or.inr h)
      · rintro ((h | h) | (h | h))
        · exact Or.inl (Or.inl h)
        · exact Or.inr (Or.inl h)
        · exact Or.inl (Or.inr h)
        · exact Or.inr (Or.inr h)

/-- C18. `mapFiles` is a total function, and for every compilation unit: a name is a key
of the record map iff it is the full name of a record declared at top level or nested at
any depth, and the record stored under a key is such a record and bears that name; a name
is a key of the enum map iff it is the full name of an enum declared at top level or
directly in such a record, and the enum stored under a key is such an enum and bears that
name. -/
theorem mapFiles_spec (files : List File) :
    (∀ k, (mapFiles files).messageMap.has k = true ↔
        ∃ m ∈ allMessages files, m.FullName = k) ∧
    (∀ k m, (mapFiles files).messageMap.get? k = some m →
        m ∈ allMessages files ∧ m.FullName = k) ∧
    (∀ k, (mapFiles files).enumMap.has k = true ↔ ∃ e ∈ allEnums files, e.FullName = k) ∧
    (∀ k e, (mapFiles files).enumMap.get? k = some e →
        e ∈ allEnums files ∧ e.FullName = k) := by
  obtain ⟨h1, h2, h3, h4⟩ := foldl_mapCollection_extends files ⟨[], []⟩
  refine ⟨?_, ?_, ?_, ?_⟩
  · intro k
    rw [mapFiles, h1]
    simp [GoMap.has_nil]
  · intro k m hm
    rcases h2 k m hm with h | h
    · simp [GoMap.get?_nil] at h
    · exact h
  · intro k
    rw [mapFiles, h3]
    simp [GoMap.has_nil]
  · intro k e he
    rcases h4 k e he with h | h
    · simp [GoMap.get?_nil] at h
    · exact h

/-! ## C14: the `mapping` parameter -/

theorem splitChars_ne_nil (sep : Char) (l : List Char) : splitChars sep l ≠ [] := by
  cases l with
  | nil => simp [splitChars]
  | cons c cs =>
    unfold splitChars
    by_cases h : c = sep
    · simp [h]
    · simp only [h, if_false]
      cases splitChars sep cs <;> simp

theorem splitChars_length (sep : Char) (l : List Char) :
    (splitChars sep l).length = l.count sep + 1 := by
  induction l with
  | nil => rfl
  | cons c cs ih =>
    unfold splitChars
    by_cases h : c = sep
    · subst h
      simp [ih]
    · have hne : (c == sep) = false := by simpa using h
      simp only [h, if_false, List.count_cons, hne, Bool.false_eq_true, Nat.add_zero]
      cases hs : splitChars sep cs with
      | nil => exact absurd hs (splitChars_ne_nil sep cs)
      | cons p ps =>
        rw [hs] at ih
        simpa using ih

theorem splitChars_of_not_mem (sep : Char) (l : List Char) (h : sep ∉ l) :
    splitChars sep l = [l] := by
  induction l with
  | nil => rfl
  | cons c cs ih =>
    have hc : ¬ c = sep := fun hc => h (hc ▸ List.mem_cons_self _ _)
    unfold splitChars
    simp only [hc, if_false, ih fun hm => h (List.mem_cons_of_mem _ hm)]

theorem splitChars_append (sep : Char) (a b : List Char) (h : sep ∉ a) :
    splitChars sep (a ++ sep :: b) = a :: splitChars sep b := by
  induction a with
  | nil =>
    rw [List.nil_append, splitChars]
    simp
  | cons c cs ih =>
    have hc : ¬ c = sep := fun hc => h (hc ▸ List.mem_cons_self _ _)
    rw [List.cons_append, splitChars]
    simp only [hc, if_false, ih fun hm => h (List.mem_cons_of_mem _ hm)]

theorem splitChars_two (sep : Char) (l a b : List Char) (h : splitChars sep l = [a, b]) :
    l = a ++ sep :: b ∧ sep ∉ a ∧ sep ∉ b := by
  induction l generalizing a with
  | nil => simp [splitChars] at h
  | cons c cs ih =>
    unfold splitChars at h
    by_cases hc : c = sep
    · subst hc
      simp only [if_true, List.cons.injEq] at h
      obtain ⟨ha, hb⟩ := h
      subst ha
      have hlen := splitChars_length c cs
      rw [hb] at hlen
      have hcount : cs.count c = 0 := by simpa using hlen.symm
      have hmem : c ∉ cs := List.count_eq_zero.1 hcount
      rw [splitChars_of_not_mem c cs hmem] at hb
      simp only [List.cons.injEq, and_true] at hb
      subst hb
      exact ⟨rfl, List.not_mem_nil _, hmem⟩
    · simp only [hc, if_false] at h
      cases hs : splitChars sep cs with
      | nil => exact absurd hs (splitChars_ne_nil sep cs)
      | cons p ps =>
        rw [hs] at h
        simp only [List.cons.injEq] at h
        obtain ⟨ha, hps⟩ := h
        subst ha hps
        obtain ⟨h1, h2, h3⟩ := ih p hs
        refine ⟨by rw [h1]; rfl, ?_, h3⟩
        intro hm
        rcases List.mem_cons.1 hm with hm | hm
        · exact hc hm.symm
        · exact h2 hm

/-- C14. For the parameter `mapping` with value `v`: the handler returns an error iff `v`
does not contain exactly one `:`; when it contains exactly one, the handler returns no
error and appends to the end of the directive list the pair of the text before and the
text after the `:`, leaving the earlier directives and the other variables unchanged. -/
theorem paramFunc_mapping (quote : String → String) (p : Params) (v : String) :
    ((∃ e, paramFunc quote p "mapping" v = .error e) ↔ v.data.count ':' ≠ 1) ∧
    (v.data.count ':' = 1 →
      ∃ a b : String,
        paramFunc quote p "mapping" v =
          .ok { mappings := p.mappings ++ [⟨a, b⟩], filename := p.filename,
                goImportPath := p.goImportPath } ∧
        v = a ++ ":" ++ b ∧ ':' ∉ a.data ∧ ':' ∉ b.data) := by
  have hlen := splitChars_length ':' v.data
  have hsplit : split v ':' = (splitChars ':' v.data).map String.mk := rfl
  constructor
  · constructor
    · rintro ⟨e, he⟩ hcount
      rw [hcount] at hlen
      obtain ⟨a, b, hab⟩ : ∃ a b, splitChars ':' v.data = [a, b] := by
        match hs : splitChars ':' v.data, hlen with
        | [a, b], _ => exact ⟨a, b, rfl⟩
      simp [paramFunc, hsplit, hab] at he
    · intro hcount
      refine ⟨"invalid mapping \"" ++ quote v ++ "\". Must be of the form input:output", ?_⟩
      unfold paramFunc
      simp only [if_true]
      split
      · rename_i input output hs
        rw [hsplit] at hs
        have := congrArg List.length hs
        simp only [List.length_map, hlen, List.length_cons, List.length_nil] at this
        omega
      · rfl
  · intro hcount
    rw [hcount] at hlen
    obtain ⟨a, b, hab⟩ : ∃ a b, splitChars ':' v.data = [a, b] := by
      match hs : splitChars ':' v.data, hlen with
      | [a, b], _ => exact ⟨a, b, rfl⟩
    obtain ⟨h1, h2, h3⟩ := splitChars_two ':' v.data a b hab
    refine ⟨String.mk a, String.mk b, ?_, ?_, h2, h3⟩
    · simp [paramFunc, hsplit, hab]
    · apply String.ext
      rw [string_append_data, string_append_data, h1]
      have hcolon : (":" : String).data = [':'] := rfl
      rw [hcolon]
      simp

/-- Witness of C14: the value `pb.UserV1:pb.UserV2`. -/
theorem paramFunc_mapping_witness :
    ∃ a b : String,
      paramFunc (fun s => s) ⟨[], "", ""⟩ "mapping" "pb.UserV1:pb.UserV2" =
        .ok { mappings := [] ++ [⟨a, b⟩], filename := "", goImportPath := "" } ∧
      "pb.UserV1:pb.UserV2" = a ++ ":" ++ b ∧ ':' ∉ a.data ∧ ':' ∉ b.data :=
  (paramFunc_mapping (fun s => s) ⟨[], "", ""⟩ "pb.UserV1:pb.UserV2").2 (by decide)

/-! ## C15: the package identifier -/

theorem reverseLoop_spec (size : Nat) (cs : List Char) (start : Nat)
    (buf : List (Nat × Char))
    (hs : buf.Sorted fun a b => a.1 ≤ b.1) (hb : ∀ w ∈ buf, size - start ≤ w.1) :
    (reverseLoop size cs start buf).Sorted (fun a b => a.1 ≤ b.1) ∧
    (reverseLoop size cs start buf).map Prod.snd = cs.reverse ++ buf.map Prod.snd := by
  induction cs generalizing start buf with
  | nil => exact ⟨hs, by simp [reverseLoop]⟩
  | cons r rest ih =>
    have hs' : ((size - (start + r.utf8Size), r) :: buf).Sorted fun a b => a.1 ≤ b.1 := by
      rw [List.sorted_cons]
      refine ⟨fun w hw => ?_, hs⟩
      have := hb w hw
      show size - (start + r.utf8Size) ≤ w.1
      omega
    have hb' : ∀ w ∈ (size - (start + r.utf8Size), r) :: buf,
        size - (start + r.utf8Size) ≤ w.1 := by
      intro w hw
      rcases List.mem_cons.1 hw with hw | hw
      · rw [hw]
      · have := hb w hw
        omega
    obtain ⟨h1, h2⟩ := ih (start + r.utf8Size) _ hs' hb'
    refine ⟨h1, ?_⟩
    show (reverseLoop size rest (start + r.utf8Size) _).map Prod.snd = _
    rw [h2]
    simp

/-- On a valid string `reverseString` reverses the order of the characters. -/
theorem reverseString_data (s : String) : (reverseString s).data = s.data.reverse := by
  obtain ⟨h1, h2⟩ := reverseLoop_spec s.utf8ByteSize s.data 0 [] List.sorted_nil
    (fun w hw => absurd hw (List.not_mem_nil _))
  unfold reverseString
  simp only [List.Sorted.insertionSort_eq h1, h2]
  simp

theorem split_first (sep : Char) (l : List Char) :
    ∃ first rest, splitChars sep l = first :: rest ∧ sep ∉ first ∧
      ((∃ tail, l = first ++ sep :: tail) ∨ (sep ∉ l ∧ first = l)) := by
  by_cases hmem : sep ∈ l
  · have hdec := List.takeWhile_append_dropWhile (fun c => c != sep) l
    have hnot : sep ∉ l.takeWhile fun c => c != sep := by
      intro h
      have := List.mem_takeWhile_imp h
      simp at this
    cases hd : l.dropWhile fun c => c != sep with
    | nil =>
      rw [hd, List.append_nil] at hdec
      rw [hdec] at hnot
      exact absurd hmem hnot
    | cons c tail =>
      have hc := List.head?_dropWhile_not (fun c => c != sep) l
      rw [hd] at hc
      simp only [List.head?_cons, bne_eq_false_iff_eq] at hc
      subst hc
      rw [hd] at hdec
      refine ⟨l.takeWhile fun d => d != c, splitChars c tail, ?_, hnot,
        Or.inl ⟨tail, hdec.symm⟩⟩
      conv_lhs => rw [← hdec]
      exact splitChars_append c _ tail hnot
  · exact ⟨l, [], splitChars_of_not_mem sep l hmem, hmem, Or.inr ⟨hmem, rfl⟩⟩

/-- C15. For every path `p` the expression of line 48 does not panic, and the package
identifier it yields contains no `/` and is the text of `p` after its last `/`, or all of
`p` when `p` contains no `/`. -/
theorem packageName_last_segment (p : String) :
    ∃ seg, packageName p = some seg ∧ '/' ∉ seg.data ∧
      ((∃ pre : List Char, p.data = pre ++ '/' :: seg.data) ∨ ('/' ∉ p.data ∧ seg = p)) := by
  obtain ⟨first, rest, hsplit, hnot, hcases⟩ := split_first '/' (reverseString p).data
  have hpkg : packageName p = some (reverseString (String.mk first)) := by
    simp [packageName, split, hsplit]
  refine ⟨_, hpkg, ?_, ?_⟩
  · rw [reverseString_data]
    simpa using hnot
  · rw [reverseString_data] at hcases
    rcases hcases with ⟨tail, ht⟩ | ⟨hno, hall⟩
    · left
      refine ⟨tail.reverse, ?_⟩
      have := congrArg List.reverse ht
      rw [List.reverse_reverse] at this
      rw [this, reverseString_data]
      simp
    · right
      refine ⟨by simpa using hno, ?_⟩
      apply String.ext
      rw [reverseString_data, hall]
      simp

/-! ## C16: disambiguated names -/

theorem string_append_left_cancel (p a b : String) (h : p ++ a = p ++ b) : a = b := by
  have := congrArg String.data h
  rw [string_append_data, string_append_data] at this
  exact String.ext (List.append_cancel_left this)

theorem string_append_right_cancel (a b n : String) (h : a ++ n = b ++ n) : a = b := by
  have := congrArg String.data h
  rw [string_append_data, string_append_data] at this
  exact String.ext (List.append_cancel_right this)

/-- A qualified name without `.` is left as it is. -/
theorem uniqueName_bare (env : Env) (i : GoIdent)
    (h : '.' ∉ (env.QualifiedGoIdent i).data) : uniqueName env i = env.QualifiedGoIdent i := by
  simp [uniqueName, split, splitChars_of_not_mem '.' _ h]

/-- A qualified name `p.n` becomes `upperFirst p` followed by `n`. -/
theorem uniqueName_qualified (env : Env) (i : GoIdent) (p n : String)
    (hp : '.' ∉ p.data) (hn : '.' ∉ n.data) (h : env.QualifiedGoIdent i = p ++ "." ++ n) :
    uniqueName env i = upperFirst env p ++ n := by
  have hdata : (env.QualifiedGoIdent i).data = p.data ++ '.' :: n.data := by
    rw [h, string_append_data, string_append_data]
    have hdot : (".": String).data = ['.'] := rfl
    rw [hdot]
    simp
  simp [uniqueName, split, hdata, splitChars_append '.' _ _ hp,
    splitChars_of_not_mem '.' _ hn]

/-- C16, counterexample. The bare name `PbBc` and the prefixed name `pb.Bc` are distinct
qualified names, and `uniqueName` gives `PbBc` for both. -/
theorem uniqueName_collision :
    (exampleEnv "example.com/pb").QualifiedGoIdent localPbBc = "PbBc" ∧
    (exampleEnv "example.com/pb").QualifiedGoIdent foreignBc = "pb.Bc" ∧
    (exampleEnv "example.com/pb").QualifiedGoIdent localPbBc ≠
      (exampleEnv "example.com/pb").QualifiedGoIdent foreignBc ∧
    uniqueName (exampleEnv "example.com/pb") localPbBc = "PbBc" ∧
    uniqueName (exampleEnv "example.com/pb") foreignBc = "PbBc" := by
  decide

/-- C16, amended. `uniqueName` gives distinct results for two distinct qualified names
that are both bare, for two names `p.n` and `p.m` with the same prefix and distinct
remainders, and for two names `p.n` and `q.n` with the same remainder whose prefixes stay
distinct after `upperFirst`. -/
theorem uniqueName_distinct (env : Env) (i j : GoIdent) :
    ('.' ∉ (env.QualifiedGoIdent i).data → '.' ∉ (env.QualifiedGoIdent j).data →
      env.QualifiedGoIdent i ≠ env.QualifiedGoIdent j →
      uniqueName env i ≠ uniqueName env j) ∧
    (∀ p n m : String, '.' ∉ p.data → '.' ∉ n.data → '.' ∉ m.data →
      env.QualifiedGoIdent i = p ++ "." ++ n → env.QualifiedGoIdent j = p ++ "." ++ m →
      n ≠ m → uniqueName env i ≠ uniqueName env j) ∧
    (∀ p q n : String, '.' ∉ p.data → '.' ∉ q.data → '.' ∉ n.data →
      env.QualifiedGoIdent i = p ++ "." ++ n → env.QualifiedGoIdent j = q ++ "." ++ n →
      upperFirst env p ≠ upperFirst env q → uniqueName env i ≠ uniqueName env j) := by
  refine ⟨?_, ?_, ?_⟩
  · intro hi hj hne
    rw [uniqueName_bare env i hi, uniqueName_bare env j hj]
    exact hne
  · intro p n m hp hn hm hi hj hne
    rw [uniqueName_qualified env i p n hp hn hi, uniqueName_qualified env j p m hp hm hj]
    exact fun h => hne (string_append_left_cancel _ _ _ h)
  · intro p q n hp hq hn hi hj hne
    rw [uniqueName_qualified env i p n hp hn hi, uniqueName_qualified env j q n hq hn hj]
    exact fun h => hne (string_append_right_cancel _ _ _ h)

/-- Witness of the amended C16: `pb.Bc` and `pb.Bd`. -/
theorem uniqueName_distinct_witness :
    uniqueName (exampleEnv "example.com/pb") foreignBc ≠
      uniqueName (exampleEnv "example.com/pb") foreignBd :=
  (uniqueName_distinct (exampleEnv "example.com/pb") foreignBc foreignBd).2.1
    "pb" "Bc" "Bd" (by decide) (by decide) (by decide) (by decide) (by decide) (by decide)

/-! ## C17: acknowledgment types -/

/-- The acknowledgment type of every missing input field is printed. -/
theorem ackType_printed (env : Env) (c : FieldClasses) (outMsg : Message)
    (fields : List Field) (types : List Line) (f : Field) (hf : f ∈ fields)
    (hmissing : c.missingFields.has f.GoName = true)
    (h : changedAndMissingTypes env c outMsg fields = some types) :
    [lit "type ", val (ackMissingName env outMsg f), lit " struct \x7b\x7d"] ∈ types := by
  induction fields generalizing types with
  | nil => cases hf
  | cons g fields ih =>
    unfold changedAndMissingTypes at h
    cases hr : changedAndMissingTypes env c outMsg fields with
    | none =>
      rw [hr] at h
      split at h <;> simp at h
    | some r =>
      rw [hr] at h
      have hmem : ∀ a : List Line,
          [lit "type ", val (ackMissingName env outMsg f), lit " struct \x7b\x7d"] ∈
            a ++ (if c.missingFields.has g.GoName = true then
              P [lit "type ", val (ackMissingName env outMsg g), lit " struct \x7b\x7d"] ++ P []
              else []) ++ r := by
        intro a
        rcases List.mem_cons.1 hf with hfg | hfg
        · subst hfg
          simp [hmissing, P]
        · have := ih r hfg hr
          simp [this]
      cases hc : c.changedFields.has g.GoName
      · simp only [hc, if_false, Bool.false_eq_true, Option.some.injEq] at h
        subst h
        exact hmem []
      · cases ho : c.outFields.get? g.GoName with
        | none => simp [hc, ho] at h
        | some o =>
          simp only [hc, ho, if_true, Option.some.injEq] at h
          subst h
          exact hmem _

/-- C17, counterexample. The directives `OldA:Keep` and `OldB:Keep` drop the field `x` of
`OldA` (an `int32`) and the field `x` of `OldB` (a `string`): two distinct dropped fields,
for which both runs of `convertMessage` print the declaration of one and the same type
`KeepXAckMissing`. -/
theorem ackType_shared :
    plainField "X" .Int32Kind ≠ plainField "X" .StringKind ∧
    (classifyFields (exampleEnv "example.com/pb") oldA keep).missingFields.has "X" = true ∧
    (classifyFields (exampleEnv "example.com/pb") oldB keep).missingFields.has "X" = true ∧
    ackMissingName (exampleEnv "example.com/pb") keep (plainField "X" .Int32Kind) =
      "KeepXAckMissing" ∧
    ackMissingName (exampleEnv "example.com/pb") keep (plainField "X" .StringKind) =
      "KeepXAckMissing" ∧
    (∃ out, convertMessage (exampleEnv "example.com/pb") oldA keep [] = .ok out ∧
      [lit "type ", val "KeepXAckMissing", lit " struct \x7b\x7d"] ∈ out) ∧
    (∃ out, convertMessage (exampleEnv "example.com/pb") oldB keep [] = .ok out ∧
      [lit "type ", val "KeepXAckMissing", lit " struct \x7b\x7d"] ∈ out) := by
  refine ⟨?_, by decide, by decide, by decide, by decide, ⟨_, rfl, by decide⟩,
    ⟨_, rfl, by decide⟩⟩
  intro h
  simp [plainField] at h

/-- C17, amended. Within one directive whose input record has name-unique fields, two
distinct missing fields whose Go names are left unchanged by `upperFirst` (as the Go names
of fields, which start with an upper-case letter) have distinct `...AckMissing` type
names, and the declarations of both types are printed.  The name is built from the output
record and the field name only. -/
theorem ackMissingName_distinct (env : Env) (inMsg outMsg : Message) (f g : Field)
    (hin : (inMsg.Fields.map Field.GoName).Nodup)
    (hf : f ∈ inMsg.Fields) (hg : g ∈ inMsg.Fields) (hfg : f ≠ g)
    (hfm : (classifyFields env inMsg outMsg).missingFields.has f.GoName = true)
    (hgm : (classifyFields env inMsg outMsg).missingFields.has g.GoName = true)
    (hfu : upperFirst env f.GoName = f.GoName) (hgu : upperFirst env g.GoName = g.GoName) :
    ackMissingName env outMsg f ≠ ackMissingName env outMsg g ∧
    ackMissingName env outMsg f =
      uniqueName env outMsg.GoIdent ++ f.GoName ++ "AckMissing" ∧
    (∃ out, convertMessage env inMsg outMsg [] = .ok out ∧
      [lit "type ", val (ackMissingName env outMsg f), lit " struct \x7b\x7d"] ∈ out ∧
      [lit "type ", val (ackMissingName env outMsg g), lit " struct \x7b\x7d"] ∈ out) := by
  have hname : f.GoName ≠ g.GoName :=
    fun h => hfg (eq_of_nodup_key Field.GoName inMsg.Fields hin f g hf hg h)
  refine ⟨?_, ?_, ?_⟩
  · unfold ackMissingName
    rw [hfu, hgu]
    intro h
    have h1 := string_append_right_cancel _ _ _ h
    exact hname (string_append_left_cancel _ _ _ h1)
  · unfold ackMissingName
    rw [hfu]
  · obtain ⟨types, htypes⟩ := changedAndMissingTypes_some env inMsg outMsg inMsg.Fields
    refine ⟨_, by simp only [convertMessage, htypes]; rfl, ?_, ?_⟩
    · have := ackType_printed env _ outMsg inMsg.Fields types f hf hfm htypes
      simp [this]
    · have := ackType_printed env _ outMsg inMsg.Fields types g hg hgm htypes
      simp [this]

/-- Witness of the amended C17: the fields `x` and `y` dropped by `OldB:Keep`. -/
theorem ackMissingName_distinct_witness :
    ackMissingName (exampleEnv "example.com/pb") keep (plainField "X" .StringKind) ≠
      ackMissingName (exampleEnv "example.com/pb") keep (plainField "Y" .StringKind) :=
  (ackMissingName_distinct (exampleEnv "example.com/pb") oldB keep
    (plainField "X" .StringKind) (plainField "Y" .StringKind) (by decide)
    (List.mem_cons_self _ _) (List.mem_cons_of_mem _ (List.mem_cons_self _ _))
    (fun h => by simp [plainField] at h) (by decide) (by decide) (by decide) (by decide)).1

/-! ## C13 and C19: the driver -/

theorem packageName_some (p : String) : ∃ seg, packageName p = some seg := by
  obtain ⟨first, rest, hsplit, -, -⟩ := split_first '/' (reverseString p).data
  exact ⟨reverseString (String.mk first), by simp [packageName, split, hsplit]⟩

/-- One directive: an error when exactly one of its names resolves in a namespace, and a
file otherwise. -/
theorem processMapping_outcome (env : Env) (quote : String → String) (s : SchemaMaps)
    (d : namePair) (g : GeneratedFile) :
    ((s.messageMap.has d.input ≠ s.messageMap.has d.output ∨
        s.enumMap.has d.input ≠ s.enumMap.has d.output) ∧
      ∃ msg, processMapping env quote s d g = .error msg) ∨
    (s.messageMap.has d.input = s.messageMap.has d.output ∧
      s.enumMap.has d.input = s.enumMap.has d.output ∧
      ∃ g', processMapping env quote s d g = .ok g') := by
  unfold processMapping GoMap.has
  cases h1 : s.messageMap.get? d.input with
  | none =>
    cases h2 : s.messageMap.get? d.output with
    | none =>
      cases h3 : s.enumMap.get? d.input <;> cases h4 : s.enumMap.get? d.output <;>
        simp [convertEnum]
    | some o => simp
  | some i =>
    cases h2 : s.messageMap.get? d.output with
    | none => simp
    | some o =>
      obtain ⟨types, hok⟩ := convertMessage_ok env i o g
      simp only [hok]
      cases h3 : s.enumMap.get? d.input <;> cases h4 : s.enumMap.get? d.output <;>
        simp [convertEnum]

/-- A directive none of whose names resolves leaves the file as it is. -/
theorem processMapping_unresolved (env : Env) (quote : String → String) (s : SchemaMaps)
    (d : namePair) (g : GeneratedFile)
    (h1 : s.messageMap.has d.input = false) (h2 : s.messageMap.has d.output = false)
    (h3 : s.enumMap.has d.input = false) (h4 : s.enumMap.has d.output = false) :
    processMapping env quote s d g = .ok g := by
  have hnone : ∀ {α : Type} (o : Option α), o.isSome = false → o = none := by
    intro α o ho
    cases o with
    | none => rfl
    | some a => simp at ho
  simp [processMapping, hnone _ h1, hnone _ h2, hnone _ h3, hnone _ h4]

/-- The loop over the directives: an error iff some directive is inconsistent, and a file
otherwise. -/
theorem runMappings_outcome (env : Env) (quote : String → String) (s : SchemaMaps)
    (ds : List namePair) (g : GeneratedFile) :
    ((∃ d ∈ ds, s.messageMap.has d.input ≠ s.messageMap.has d.output ∨
        s.enumMap.has d.input ≠ s.enumMap.has d.output) ∧
      ∃ msg, runMappings env quote s ds g = .error msg) ∨
    ((∀ d ∈ ds, s.messageMap.has d.input = s.messageMap.has d.output ∧
        s.enumMap.has d.input = s.enumMap.has d.output) ∧
      ∃ g', runMappings env quote s ds g = .ok g') := by
  induction ds generalizing g with
  | nil => exact Or.inr ⟨fun d hd => absurd hd (List.not_mem_nil _), g, rfl⟩
  | cons d ds ih =>
    rcases processMapping_outcome env quote s d g with ⟨hbad, msg, hmsg⟩ | ⟨hm, he, g', hg'⟩
    · exact Or.inl ⟨⟨d, List.mem_cons_self _ _, hbad⟩, msg, by simp [runMappings, hmsg]⟩
    · rcases ih g' with ⟨⟨d', hd', hbad⟩, msg, hmsg⟩ | ⟨hall, g'', hg''⟩
      · exact Or.inl ⟨⟨d', List.mem_cons_of_mem _ hd', hbad⟩, msg,
          by simp [runMappings, hg', hmsg]⟩
      · refine Or.inr ⟨?_, g'', by simp [runMappings, hg', hg'']⟩
        intro x hx
        rcases List.mem_cons.1 hx with hx | hx
        · subst hx
          exact ⟨hm, he⟩
        · exact hall x hx

theorem runMappings_skip (env : Env) (quote : String → String) (s : SchemaMaps)
    (pre post : List namePair) (d : namePair) (g : GeneratedFile)
    (hd : ∀ g, processMapping env quote s d g = .ok g) :
    runMappings env quote s (pre ++ d :: post) g = runMappings env quote s (pre ++ post) g := by
  induction pre generalizing g with
  | nil => simp [runMappings, hd]
  | cons x pre ih =>
    simp only [List.cons_append, runMappings]
    cases processMapping env quote s x g with
    | ok g' => exact ih g'
    | error msg => rfl
    | panic => rfl

/-- C13. The driver's run returns an error iff some directive has exactly one of its two
names resolving in the record namespace or exactly one of its two names resolving in the
enum namespace, whatever the directives before it; when no directive is such, the run
yields the generated file.  In particular the run fails when a directive has one name
that resolves in some namespace and one that resolves in none, and when a directive names
a record on one side and, on the other side, an enum that is not a record. -/
theorem run_error_iff (env : Env) (quote : String → String) (files : List File)
    (p : Params) :
    ((∃ msg, run env quote files p = .error msg) ↔
      ∃ d ∈ p.mappings,
        (mapFiles files).messageMap.has d.input ≠ (mapFiles files).messageMap.has d.output ∨
        (mapFiles files).enumMap.has d.input ≠ (mapFiles files).enumMap.has d.output) ∧
    ((∀ d ∈ p.mappings,
        (mapFiles files).messageMap.has d.input = (mapFiles files).messageMap.has d.output ∧
        (mapFiles files).enumMap.has d.input = (mapFiles files).enumMap.has d.output) →
      ∃ out, run env quote files p = .ok out) ∧
    (∀ d ∈ p.mappings,
      ((mapFiles files).messageMap.has d.input || (mapFiles files).enumMap.has d.input) ≠
        ((mapFiles files).messageMap.has d.output || (mapFiles files).enumMap.has d.output) →
      ∃ msg, run env quote files p = .error msg) ∧
    (∀ d ∈ p.mappings,
      ((mapFiles files).messageMap.has d.input = true ∧
          (mapFiles files).messageMap.has d.output = false ∧
          (mapFiles files).enumMap.has d.output = true) ∨
        ((mapFiles files).messageMap.has d.input = false ∧
          (mapFiles files).enumMap.has d.input = true ∧
          (mapFiles files).messageMap.has d.output = true) →
      ∃ msg, run env quote files p = .error msg) := by
  obtain ⟨name, hname⟩ := packageName_some p.goImportPath
  have hrun : run env quote files p =
      runMappings env quote (mapFiles files) p.mappings
        (P [lit "// Code generated by protoc-gen-encode. DO NOT EDIT."] ++ P [] ++
          P [lit "package ", val name]) := by
    simp [run, hname]
  have hout := runMappings_outcome env quote (mapFiles files) p.mappings
    (P [lit "// Code generated by protoc-gen-encode. DO NOT EDIT."] ++ P [] ++
      P [lit "package ", val name])
  rw [← hrun] at hout
  have hiff : (∃ msg, run env quote files p = .error msg) ↔
      ∃ d ∈ p.mappings,
        (mapFiles files).messageMap.has d.input ≠ (mapFiles files).messageMap.has d.output ∨
        (mapFiles files).enumMap.has d.input ≠ (mapFiles files).enumMap.has d.output := by
    constructor
    · rintro ⟨msg, hmsg⟩
      rcases hout with ⟨hbad, -⟩ | ⟨-, g', hg'⟩
      · exact hbad
      · rw [hmsg] at hg'
        cases hg'
    · intro hbad
      rcases hout with ⟨-, herr⟩ | ⟨hall, -⟩
      · exact herr
      · obtain ⟨d, hd, hd'⟩ := hbad
        rcases hd' with h | h
        · exact absurd (hall d hd).1 h
        · exact absurd (hall d hd).2 h
  refine ⟨hiff, ?_, ?_, ?_⟩
  · intro hall
    rcases hout with ⟨⟨d, hd, hbad⟩, -⟩ | ⟨-, hok⟩
    · rcases hbad with h | h
      · exact absurd (hall d hd).1 h
      · exact absurd (hall d hd).2 h
    · exact hok
  · intro d hd hone
    refine hiff.2 ⟨d, hd, ?_⟩
    by_contra hcon
    simp only [not_or, not_not] at hcon
    rw [hcon.1, hcon.2] at hone
    exact hone rfl
  · intro d hd hkind
    refine hiff.2 ⟨d, hd, Or.inl ?_⟩
    rcases hkind with ⟨h1, h2, -⟩ | ⟨h1, -, h2⟩ <;> simp [h1, h2]

/-- Witness of C13: the directive `pb.UserV1:pb.EnumOut` names a record and an enum. -/
theorem run_error_iff_witness :
    ∃ msg, run (exampleEnv "example.com/pb") (fun s => s) [exampleFile]
      ⟨[⟨"pb.UserV1", "pb.UserV2"⟩, ⟨"pb.UserV1", "pb.EnumOut"⟩], "encode.pb.go",
        "example.com/pb"⟩ = .error msg :=
  (run_error_iff (exampleEnv "example.com/pb") (fun s => s) [exampleFile]
    ⟨[⟨"pb.UserV1", "pb.UserV2"⟩, ⟨"pb.UserV1", "pb.EnumOut"⟩], "encode.pb.go",
      "example.com/pb"⟩).2.2.2 ⟨"pb.UserV1", "pb.EnumOut"⟩ (by decide)
    (Or.inl ⟨by decide, by decide, by decide⟩)

/-- C19. A directive neither of whose names resolves in the record namespace or in the
enum namespace raises no error and leaves the generated file as it is, so the run yields
what it yields without that directive. -/
theorem run_skips_unresolved (env : Env) (quote : String → String) (files : List File)
    (pre post : List namePair) (d : namePair) (filename goImportPath : String)
    (h1 : (mapFiles files).messageMap.has d.input = false)
    (h2 : (mapFiles files).messageMap.has d.output = false)
    (h3 : (mapFiles files).enumMap.has d.input = false)
    (h4 : (mapFiles files).enumMap.has d.output = false) :
    (∀ g, processMapping env quote (mapFiles files) d g = .ok g) ∧
    run env quote files ⟨pre ++ d :: post, filename, goImportPath⟩ =
      run env quote files ⟨pre ++ post, filename, goImportPath⟩ := by
  have hd := fun g => processMapping_unresolved env quote (mapFiles files) d g h1 h2 h3 h4
  refine ⟨hd, ?_⟩
  unfold run
  cases packageName goImportPath with
  | none => rfl
  | some name => exact runMappings_skip env quote _ pre post d _ hd

/-- Witness of C19: the directive `pb.Nope:pb.Nada` after `pb.UserV1:pb.UserV2`. -/
theorem run_skips_unresolved_witness :
    run (exampleEnv "example.com/pb") (fun s => s) [exampleFile]
        ⟨[⟨"pb.UserV1", "pb.UserV2"⟩] ++ ⟨"pb.Nope", "pb.Nada"⟩ :: [], "encode.pb.go",
          "example.com/pb"⟩ =
      run (exampleEnv "example.com/pb") (fun s => s) [exampleFile]
        ⟨[⟨"pb.UserV1", "pb.UserV2"⟩] ++ [], "encode.pb.go", "example.com/pb"⟩ :=
  (run_skips_unresolved (exampleEnv "example.com/pb") (fun s => s) [exampleFile]
    [⟨"pb.UserV1", "pb.UserV2"⟩] [] ⟨"pb.Nope", "pb.Nada"⟩ "encode.pb.go" "example.com/pb"
    (by decide) (by decide) (by decide) (by decide)).2

/-! ## C20: the address-of operator in the extraction -/

/-- C20, failing input. For the bytes field `data` of the input oneof `body`,
`fieldGoTypePointer` reports the bare type `[]byte` with `pointer = false`, the local is
declared as `var dataIn []byte`, and the extraction is printed with the address-of
operator, `dataIn = &t.Data`. -/
theorem bytes_oneof_reference :
    fieldGoTypePointer (exampleEnv "example.com/pb") dataInBody = ("[]byte", false) ∧
    referenceOf dataInBody = "&" ∧
    [lit "var ", val "data", lit "In ", val "[]byte"] ∈
      encodeField (exampleEnv "example.com/pb") (indexFields docV1.Fields)
        (plainField "Data" .BytesKind) ∧
    [val "data", lit "In = ", val "&", lit "t.", val "Data"] ∈
      encodeField (exampleEnv "example.com/pb") (indexFields docV1.Fields)
        (plainField "Data" .BytesKind) ∧
    indirectOf (exampleEnv "example.com/pb") dataInBody = "" := by
  decide

end ProtocEncode
